import Mathlib

/-!
# haff: a static Huffman codec (`src/main.cpp`)

A shallow embedding of the codec core of `src/main.cpp` (`HuffmanNode`,
`CompareNode`, class `HuffmanEncoder`) together with theorems about it.

Modelling conventions.

* `unsigned char` is `Fin 256`; `vector<bool>` and `vector<unsigned char>` are
  lists; `std::string` is a list of characters.
* `shared_ptr<HuffmanNode>` is the type `HuffmanNode`, whose constructor `null`
  is `nullptr`.
* `std::map<unsigned char, V>` is an association list kept in ascending key
  order (`ByteMap`), which is the iteration order of `std::map`.
* `std::priority_queue` is library code: it is a parameter (`PriorityQueue`)
  of which only the guarantees of the library are assumed, so that every
  theorem holds for every tie-breaking order among nodes of equal weight.
  `listQueue` is one executable instance.
* `size_t` is 64 bits wide: its values are natural numbers, none of which
  reaches `2^64` here.  The two 32-bit header fields keep only the low 32 bits
  of the value written, exactly as the shifts of the source do.
* `int` is 32 bits wide.  An `int` (a count of `freq`, the weight `freq` of a
  node) is held as its two's complement bit pattern, a natural number below
  `2^32`; `intValue` gives the value of a pattern.  `int` arithmetic wraps
  around (`% 2^32` on patterns) and `int` comparison compares values; the
  patterns below `2^31` are the non-negative values themselves.  (The C++
  standard leaves signed overflow undefined; wrapping around is what the
  program does where it is built with two's complement `int` arithmetic.)
* The three members of the encoder object (`root`, `codes`, `freq`) are passed
  explicitly: `encode` and `decode` take the state before the call and return
  the state after it.
* A read outside a vector, an iterator range that does not lie inside its
  vector, or a read through a null pointer, is the result `Except.error`; so
  is running out of the recursion budget of `deserializeTreeAux`.
-/

/-- The type `unsigned char`. -/
abbrev Byte := Fin 256

/-- The value of the `int` with the 32-bit two's complement pattern `w`. -/
def intValue (w : Nat) : Int :=
  if w % 2 ^ 32 < 2 ^ 31 then ((w % 2 ^ 32 : Nat) : Int)
  else ((w % 2 ^ 32 : Nat) : Int) - 2 ^ 32

/-- The type `shared_ptr<HuffmanNode>`: `null` is `nullptr`, `node` is a pointer
to a `HuffmanNode` with its four fields; the `int` field `freq` is held as its
bit pattern. -/
inductive HuffmanNode where
  | null : HuffmanNode
  | node (byte : Byte) (freq : Nat) (left right : HuffmanNode) : HuffmanNode
deriving DecidableEq, Repr

namespace HuffmanNode

/-- Constructor `HuffmanNode(unsigned char b, int f)`. -/
def mkLeaf (b : Byte) (f : Nat) : HuffmanNode := node b f null null

/-- Constructor `HuffmanNode(int f, l, r)`. -/
def mkInternal (f : Nat) (l r : HuffmanNode) : HuffmanNode := node 0 f l r

/-- The test `!p` on a pointer. -/
def isNull : HuffmanNode → Bool
  | null => true
  | node _ _ _ _ => false

/-- Member `isLeaf`: both children are null.  (Never called on `nullptr`.) -/
def isLeaf : HuffmanNode → Bool
  | node _ _ null null => true
  | _ => false

/-- Field `freq` (0 stands in for the field of `nullptr`, which is never read). -/
def freq : HuffmanNode → Nat
  | null => 0
  | node _ f _ _ => f

/-- Field `byte`. -/
def byte : HuffmanNode → Byte
  | null => 0
  | node b _ _ _ => b

end HuffmanNode

/-- The comparator `CompareNode`: `a->freq > b->freq`, a comparison of `int`
values. -/
def CompareNode (a b : HuffmanNode) : Bool := decide (intValue a.freq > intValue b.freq)

/-- What can go wrong in a run of the C++ that the model makes explicit. -/
inductive Fault where
  | outOfRange : Fault
  | nullDeref : Fault
  | outOfFuel : Fault
deriving DecidableEq, Repr

/-- A `std::map<unsigned char, V>`: entries in ascending key order. -/
abbrev ByteMap (V : Type) := List (Byte × V)

namespace ByteMap

/-- Lookup (`find`). -/
def find {V : Type} : ByteMap V → Byte → Option V
  | [], _ => none
  | (k1, v) :: rest, k => if k = k1 then some v else find rest k

/-- Assignment `m[k] = v`: overwrite, or insert at the place of `k` in the
key order. -/
def set {V : Type} : ByteMap V → Byte → V → ByteMap V
  | [], k, v => [(k, v)]
  | (k1, v1) :: rest, k, v =>
    if k = k1 then (k1, v) :: rest
    else if k < k1 then (k, v) :: (k1, v1) :: rest
    else (k1, v1) :: set rest k v

/-- The read `m[k]`: the stored value, or a value-initialised entry that is
inserted.  Returns the value and the map after the access. -/
def index {V : Type} (m : ByteMap V) (k : Byte) (dflt : V) : V × ByteMap V :=
  match find m k with
  | some v => (v, m)
  | none => (dflt, set m k dflt)

end ByteMap

/-- The part of `std::priority_queue<shared_ptr<HuffmanNode>, vector<...>,
CompareNode>` that `buildTree` uses.  `contents` is the collection of elements
held; the laws are those of the library: `top` is an element that the
comparator puts before no other one. -/
structure PriorityQueue where
  Q : Type
  empty : Q
  push : Q → HuffmanNode → Q
  top : Q → HuffmanNode
  pop : Q → Q
  size : Q → Nat
  contents : Q → List HuffmanNode
  contents_empty : contents empty = []
  contents_push : ∀ q x, (contents (push q x)).Perm (x :: contents q)
  size_eq : ∀ q, size q = (contents q).length
  top_mem : ∀ q, contents q ≠ [] → top q ∈ contents q
  top_min : ∀ q y, y ∈ contents q → CompareNode (top q) y = false
  contents_pop : ∀ q, contents q ≠ [] → (contents q).Perm (top q :: contents (pop q))

/-- The first element of `x :: ys` that the comparator puts before no other. -/
def minNode : HuffmanNode → List HuffmanNode → HuffmanNode
  | x, [] => x
  | x, y :: ys => if CompareNode x y then minNode y ys else minNode x ys

/-- The top of a queue held as a plain list. -/
def listTop : List HuffmanNode → HuffmanNode
  | [] => HuffmanNode.null
  | x :: xs => minNode x xs

/-- An executable priority queue: a list, searched for its lightest element. -/
def listQueue : PriorityQueue where
  Q := List HuffmanNode
  empty := []
  push := fun q x => x :: q
  top := listTop
  pop := fun q => q.erase (listTop q)
  size := List.length
  contents := fun q => q
  contents_empty := rfl
  contents_push := fun _ _ => List.Perm.refl _
  size_eq := fun _ => rfl
  top_mem := by
    have key : ∀ (xs : List HuffmanNode) (x : HuffmanNode), minNode x xs ∈ x :: xs := by
      intro xs
      induction xs with
      | nil => intro x; simp [minNode]
      | cons y ys ih =>
        intro x
        unfold minNode
        split
        · exact List.mem_cons_of_mem _ (ih y)
        · have h := ih x
          rcases List.mem_cons.1 h with h1 | h1
          · rw [h1]; exact List.mem_cons_self _ _
          · exact List.mem_cons_of_mem _ (List.mem_cons_of_mem _ h1)
    intro q hq
    cases q with
    | nil => exact absurd rfl hq
    | cons x xs => exact key xs x
  top_min := by
    have key : ∀ (xs : List HuffmanNode) (x : HuffmanNode),
        intValue (minNode x xs).freq ≤ intValue x.freq
          ∧ ∀ y ∈ xs, intValue (minNode x xs).freq ≤ intValue y.freq := by
      intro xs
      induction xs with
      | nil => intro x; simp [minNode]
      | cons y ys ih =>
        intro x
        unfold minNode
        split
        · rename_i hc
          have hc1 : intValue y.freq < intValue x.freq := by simpa [CompareNode] using hc
          have h := ih y
          refine ⟨by omega, ?_⟩
          intro z hz
          rcases List.mem_cons.1 hz with h1 | h1
          · rw [h1]; exact h.1
          · exact h.2 z h1
        · rename_i hc
          have hc1 : intValue x.freq ≤ intValue y.freq := by simpa [CompareNode] using hc
          have h := ih x
          refine ⟨h.1, ?_⟩
          intro z hz
          rcases List.mem_cons.1 hz with h1 | h1
          · rw [h1]; omega
          · exact h.2 z h1
    intro q y hy
    cases q with
    | nil => cases hy
    | cons x xs =>
      have h := key xs x
      have h2 : intValue (minNode x xs).freq ≤ intValue y.freq := by
        rcases List.mem_cons.1 hy with h1 | h1
        · rw [h1]; exact h.1
        · exact h.2 y h1
      simp only [CompareNode, listTop, decide_eq_false_iff_not]
      omega
  contents_pop := by
    have key : ∀ (xs : List HuffmanNode) (x : HuffmanNode), minNode x xs ∈ x :: xs := by
      intro xs
      induction xs with
      | nil => intro x; simp [minNode]
      | cons y ys ih =>
        intro x
        unfold minNode
        split
        · exact List.mem_cons_of_mem _ (ih y)
        · have h := ih x
          rcases List.mem_cons.1 h with h1 | h1
          · rw [h1]; exact List.mem_cons_self _ _
          · exact List.mem_cons_of_mem _ (List.mem_cons_of_mem _ h1)
    intro q hq
    cases q with
    | nil => exact absurd rfl hq
    | cons x xs => exact List.perm_cons_erase (key xs x)

/-- The state of the encoder object: its three data members. -/
structure HuffmanEncoder where
  root : HuffmanNode
  codes : ByteMap (List Char)
  freq : ByteMap Nat
deriving DecidableEq, Repr

namespace HuffmanEncoder

/-- The object as constructed: null root, empty maps. -/
def init : HuffmanEncoder := ⟨HuffmanNode.null, [], []⟩

/-- Member `countFrequencies`: the new value of `freq`.  The increment
`freq[byte]++` is on an `int`. -/
def countFrequencies (data : List Byte) : ByteMap Nat :=
  data.foldl (fun freq byte =>
    let r := ByteMap.index freq byte 0
    ByteMap.set r.2 byte ((r.1 + 1) % 2 ^ 32)) []

/-- The loop `while (pq.size() > 1)` of `buildTree`; the first argument bounds
the number of iterations.  The sum `left->freq + right->freq` is on `int`. -/
def buildLoop (pq : PriorityQueue) : Nat → pq.Q → pq.Q
  | 0, q => q
  | fuel + 1, q =>
    if pq.size q > 1 then
      let left := pq.top q
      let q1 := pq.pop q
      let right := pq.top q1
      let q2 := pq.pop q1
      let parent := HuffmanNode.mkInternal ((left.freq + right.freq) % 2 ^ 32) left right
      buildLoop pq fuel (pq.push q2 parent)
    else q

/-- Member `buildTree`: the new value of `root`, from `freq` and the old
`root` (kept when `freq` is empty). -/
def buildTree (pq : PriorityQueue) (freq : ByteMap Nat) (root : HuffmanNode) :
    HuffmanNode :=
  if freq.isEmpty then root
  else
    let q0 := freq.foldl (fun q pair => pq.push q (HuffmanNode.mkLeaf pair.1 pair.2))
      pq.empty
    let q1 :=
      if pq.size q0 = 1 then
        let node := pq.top q0
        let parent := HuffmanNode.mkInternal node.freq node HuffmanNode.null
        pq.push (pq.pop q0) parent
      else q0
    pq.top (buildLoop pq (pq.size q1) q1)

/-- Member `generateCodes`: the value of `codes` after the call. -/
def generateCodes : HuffmanNode → List Char → ByteMap (List Char) → ByteMap (List Char)
  | HuffmanNode.null, _, codes => codes
  | HuffmanNode.node b f l r, code, codes =>
    if (HuffmanNode.node b f l r).isLeaf then
      ByteMap.set codes b (if code.isEmpty then ['0'] else code)
    else
      generateCodes r (code ++ ['1']) (generateCodes l (code ++ ['0']) codes)

/-- The loops `for (int i = width - 1; i >= 0; i--) bits.push_back((value >> i) & 1)`. -/
def pushBitsMSB (width value : Nat) (bits : List Bool) : List Bool :=
  (List.range width).reverse.foldl
    (fun bits i => bits ++ [decide ((value >>> i) &&& 1 = 1)]) bits

/-- Member `serializeTree`: the bit vector after the call. -/
def serializeTree : HuffmanNode → List Bool → List Bool
  | HuffmanNode.null, bits => bits
  | HuffmanNode.node b f l r, bits =>
    if (HuffmanNode.node b f l r).isLeaf then
      pushBitsMSB 8 b.val (bits ++ [true])
    else
      serializeTree r (serializeTree l (bits ++ [false]))

/-- The range constructor `vector<bool>(bits.begin() + first, bits.begin() + last)`:
the elements from index `first` up to `last`; the range must lie inside the
vector. -/
def sliceBits (bits : List Bool) (first last : Nat) : Except Fault (List Bool) :=
  if first ≤ last ∧ last ≤ bits.length then Except.ok ((bits.take last).drop first)
  else Except.error Fault.outOfRange

/-- The read `bits[pos]`. -/
def readBit (bits : List Bool) (pos : Nat) : Except Fault Bool :=
  match bits[pos]? with
  | some b => Except.ok b
  | none => Except.error Fault.outOfRange

/-- The loop of `deserializeTree` that reads the 8 value bits of a leaf, for the
remaining shifts `is`: the byte read and the cursor, or `none` and the cursor
for the early `return nullptr`. -/
def readLeafByte (bits : List Bool) : List Nat → Nat → Nat → Except Fault (Option Nat × Nat)
  | [], byte, pos => Except.ok (some byte, pos)
  | i :: is, byte, pos =>
    if pos ≥ bits.length then Except.ok (none, pos)
    else do
      let b ← readBit bits pos
      readLeafByte bits is (byte ||| (b.toNat <<< i)) (pos + 1)

/-- Member `deserializeTree` with a bound on the recursion depth: the node
returned and the cursor after the call. -/
def deserializeTreeAux (bits : List Bool) : Nat → Nat → Except Fault (HuffmanNode × Nat)
  | 0, _ => Except.error Fault.outOfFuel
  | fuel + 1, pos =>
    if pos ≥ bits.length then Except.ok (HuffmanNode.null, pos)
    else do
      let isLeaf ← readBit bits pos
      let pos1 := pos + 1
      if isLeaf then do
        let r ← readLeafByte bits [7, 6, 5, 4, 3, 2, 1, 0] 0 pos1
        match r.1 with
        | none => Except.ok (HuffmanNode.null, r.2)
        | some byte => Except.ok (HuffmanNode.mkLeaf (Fin.ofNat byte) 0, r.2)
      else do
        let l ← deserializeTreeAux bits fuel pos1
        let r ← deserializeTreeAux bits fuel l.2
        Except.ok (HuffmanNode.mkInternal 0 l.1 r.1, r.2)

/-- Member `deserializeTree`: every call that recurses has consumed a bit, so a
depth of `bits.size() - pos + 1` is never exceeded. -/
def deserializeTree (bits : List Bool) (pos : Nat) : Except Fault (HuffmanNode × Nat) :=
  deserializeTreeAux bits (bits.length - pos + 1) pos

/-- Member `bitsToBytes`. -/
def bitsToBytes (bits : List Bool) : List Byte :=
  let st := bits.foldl (fun (st : List Byte × Nat × Nat) bit =>
    let byte := ((st.2.1 <<< 1) ||| bit.toNat) % 256
    let bitCount := st.2.2 + 1
    if bitCount = 8 then (st.1 ++ [Fin.ofNat byte], 0, 0)
    else (st.1, byte, bitCount)) ([], 0, 0)
  if st.2.2 > 0 then st.1 ++ [Fin.ofNat ((st.2.1 <<< (8 - st.2.2)) % 256)]
  else st.1

/-- Member `bytesToBits`.  The `break` leaves the inner loop; its condition
stays true for the rest of that loop, so the remaining shifts push nothing. -/
def bytesToBits (bytes : List Byte) (totalBits : Nat) : List Bool :=
  bytes.foldl (fun bits byte =>
    [7, 6, 5, 4, 3, 2, 1, 0].foldl (fun bits i =>
      if bits.length ≥ totalBits then bits
      else bits ++ [decide ((byte.val >>> i) &&& 1 = 1)]) bits) []

/-- Member `encode`: the bytes returned and the encoder state after the call. -/
def encode (pq : PriorityQueue) (s : HuffmanEncoder) (data : List Byte) :
    List Byte × HuffmanEncoder :=
  if data.isEmpty then ([], s)
  else
    let freq := countFrequencies data
    let root := buildTree pq freq s.root
    let codes := generateCodes root [] []
    let treeBits := serializeTree root []
    let treeSize := treeBits.length
    let encodedBits1 := pushBitsMSB 32 treeSize []
    let encodedBits2 := encodedBits1 ++ treeBits
    let sized := data.foldl (fun (st : Nat × ByteMap (List Char)) byte =>
      let r := ByteMap.index st.2 byte []
      (st.1 + r.1.length, r.2)) (0, codes)
    let encodedBits3 := pushBitsMSB 32 sized.1 encodedBits2
    let coded := data.foldl (fun (st : List Bool × ByteMap (List Char)) byte =>
      let r := ByteMap.index st.2 byte []
      (r.1.foldl (fun bits c => bits ++ [decide (c = '1')]) st.1, r.2))
      (encodedBits3, sized.2)
    (bitsToBytes coded.1, ⟨root, coded.2, freq⟩)

/-- The two loops of `decode` that read a 32-bit field, most significant bit
first, from index `pos`: the value, or `none` for the early `return {}`. -/
def readField (bits : List Bool) : Nat → Nat → Nat → Except Fault (Option Nat)
  | 0, _, value => Except.ok (some value)
  | n + 1, pos, value =>
    if pos ≥ bits.length then Except.ok none
    else do
      let bit ← readBit bits pos
      readField bits n (pos + 1) ((value <<< 1) ||| bit.toNat)

/-- The step `current = bit ? current->right : current->left`. -/
def follow (current : HuffmanNode) (bit : Bool) : Except Fault HuffmanNode :=
  match current with
  | HuffmanNode.null => Except.error Fault.nullDeref
  | HuffmanNode.node _ _ l r => Except.ok (if bit then r else l)

/-- The decoding loop of `decode`, with `n` iterations left. -/
def decodeLoop (bits : List Bool) (root : HuffmanNode) :
    Nat → Nat → HuffmanNode → List Byte → Except Fault (List Byte)
  | 0, _, _, decoded => Except.ok decoded
  | n + 1, pos, current, decoded =>
    if pos ≥ bits.length then Except.ok decoded
    else do
      let bit ← readBit bits pos
      let next ← follow current bit
      if next.isNull then Except.ok decoded
      else if next.isLeaf then decodeLoop bits root n (pos + 1) root (decoded ++ [next.byte])
      else decodeLoop bits root n (pos + 1) next decoded

/-- Member `decode`: the bytes returned and the encoder state after the call. -/
def decode (s : HuffmanEncoder) (encodedData : List Byte) :
    Except Fault (List Byte × HuffmanEncoder) :=
  if encodedData.isEmpty then Except.ok ([], s)
  else do
    let bits := bytesToBits encodedData (encodedData.length * 8)
    let field1 ← readField bits 32 0 0
    match field1 with
    | none => Except.ok ([], s)
    | some treeSize =>
      let pos := 32
      let treeEndPos := pos + treeSize
      if treeEndPos > bits.length then Except.ok ([], s)
      else do
        let treeBits ← sliceBits bits pos treeEndPos
        let t ← deserializeTree treeBits 0
        let s1 : HuffmanEncoder := ⟨t.1, s.codes, s.freq⟩
        if t.1.isNull then Except.ok ([], s1)
        else do
          let field2 ← readField bits 32 treeEndPos 0
          match field2 with
          | none => Except.ok ([], s1)
          | some dataSize =>
            let decoded ← decodeLoop bits t.1 dataSize (treeEndPos + 32) t.1 []
            Except.ok (decoded, s1)

end HuffmanEncoder

open HuffmanNode HuffmanEncoder

/-- The bits of `value` at the shifts `width - 1` down to `0`. -/
def bitsMSB (width value : Nat) : List Bool :=
  (List.range width).reverse.map (fun i => decide ((value >>> i) &&& 1 = 1))

/-- The value accumulated from bits, most significant first: `v = (v << 1) | bit`. -/
def valueOfBits (bits : List Bool) (value : Nat) : Nat :=
  bits.foldl (fun v b => (v <<< 1) ||| b.toNat) value

/-- The byte accumulated by the leaf loop: `byte |= bit << i` for the shifts
paired with the bits read. -/
def leafByteOf (shifts : List Nat) (bs : List Bool) (byte : Nat) : Nat :=
  (List.zip shifts bs).foldl (fun byte p => byte ||| (p.2.toNat <<< p.1)) byte

namespace HuffmanNode

/-- A tree in which every node is a leaf or has two children (and no pointer is
null). -/
inductive Full : HuffmanNode → Prop
  | leaf (b : Byte) (f : Nat) : Full (node b f null null)
  | internal (b : Byte) (f : Nat) (l r : HuffmanNode) :
      Full l → Full r → Full (node b f l r)

/-- Two full trees of the same shape with the same byte at every leaf (weights,
and the unused byte field of internal nodes, may differ). -/
inductive SameShape : HuffmanNode → HuffmanNode → Prop
  | leaf (b : Byte) (f g : Nat) : SameShape (node b f null null) (node b g null null)
  | internal (b c : Byte) (f g : Nat) (l r l1 r1 : HuffmanNode) :
      SameShape l l1 → SameShape r r1 → SameShape (node b f l r) (node c g l1 r1)

/-- The tree as the deserializer rebuilds it: weights 0, byte 0 at internal
nodes. -/
def eraseWeights : HuffmanNode → HuffmanNode
  | null => null
  | node b _ null null => mkLeaf b 0
  | node _ _ l r => mkInternal 0 (eraseWeights l) (eraseWeights r)

end HuffmanNode

/-- The bits of an artifact: every byte unpacked most significant bit first. -/
def artifactBits (bytes : List Byte) : List Bool :=
  bytes.flatMap (fun b => bitsMSB 8 b.val)

/-- Whether a call of `deserializeTree` finds one of its tests
`pos >= bits.size()` true, that is, whether the cursor runs past the available
bits while the tree is read; with the cursor after the call.  The control flow
is that of `deserializeTreeAux`. -/
def HuffmanEncoder.cursorOverranAux (bits : List Bool) : Nat → Nat → Bool × Nat
  | 0, pos => (false, pos)
  | fuel + 1, pos =>
    if pos ≥ bits.length then (true, pos)
    else if bits.getD pos false then
      (decide (bits.length < pos + 1 + 8), min (pos + 1 + 8) bits.length)
    else
      let l := cursorOverranAux bits fuel (pos + 1)
      let r := cursorOverranAux bits fuel l.2
      (l.1 || r.1, r.2)

/-- Whether `deserializeTree(bits, pos)` runs past the available bits. -/
def HuffmanEncoder.cursorOverran (bits : List Bool) (pos : Nat) : Bool :=
  (cursorOverranAux bits (bits.length - pos + 1) pos).1

/-- The tree bit length `T` an artifact announces in its first 32 bits. -/
def treeBitLength (a : List Byte) : Nat :=
  valueOfBits ((artifactBits a).take 32) 0

/-- The tree section of an artifact: the `T` bits after the first field. -/
def treeSection (a : List Byte) : List Bool :=
  ((artifactBits a).take (32 + treeBitLength a)).drop 32

/-- The payload bit length `P` an artifact announces after its tree section. -/
def payloadBitLength (a : List Byte) : Nat :=
  valueOfBits (((artifactBits a).drop (32 + treeBitLength a)).take 32) 0

/-- The byte register of `bitsToBytes` after shifting in `bits`. -/
def packAcc (bits : List Bool) (byte : Nat) : Nat :=
  bits.foldl (fun v b => ((v <<< 1) ||| b.toNat) % 256) byte

/-- The body of the loop of `bitsToBytes` on its state (bytes, byte, bitCount). -/
def packStep (st : List Byte × Nat × Nat) (bit : Bool) : List Byte × Nat × Nat :=
  let byte := ((st.2.1 <<< 1) ||| bit.toNat) % 256
  let bitCount := st.2.2 + 1
  if bitCount = 8 then (st.1 ++ [Fin.ofNat byte], 0, 0)
  else (st.1, byte, bitCount)

/-- The end of `bitsToBytes`: the partial byte, if any, is shifted up and pushed. -/
def packFinish (st : List Byte × Nat × Nat) : List Byte :=
  if st.2.2 > 0 then st.1 ++ [Fin.ofNat ((st.2.1 <<< (8 - st.2.2)) % 256)]
  else st.1

/-- The zero bits that complete a bit sequence to a whole number of bytes. -/
def padBits (bits : List Bool) : List Bool :=
  List.replicate ((8 - bits.length % 8) % 8) false

/-- The keys of a map, in iteration order. -/
def ByteMap.keys {V : Type} (m : ByteMap V) : List Byte := m.map Prod.fst

namespace HuffmanNode

/-- The byte values at the leaves of a tree, from left to right. -/
def leafBytes : HuffmanNode → List Byte
  | null => []
  | node b f l r =>
    if (node b f l r).isLeaf then [b] else leafBytes l ++ leafBytes r

/-- The leaves of a tree, from left to right, each with the path that leads to
it from the root: `code` followed by `'0'` for a step to a left child and
`'1'` for a step to a right child. -/
def paths : HuffmanNode → List Char → List (Byte × List Char)
  | null, _ => []
  | node b f l r, code =>
    if (node b f l r).isLeaf then [(b, code)]
    else paths l (code ++ ['0']) ++ paths r (code ++ ['1'])

/-- The path `p` leads from the node, through internal nodes, to a leaf that
holds the byte `k`. -/
inductive Reaches : HuffmanNode → List Char → Byte → Prop
  | leaf (b : Byte) (f : Nat) : Reaches (node b f null null) [] b
  | left (b : Byte) (f : Nat) (l r : HuffmanNode) (p : List Char) (k : Byte) :
      (node b f l r).isLeaf = false → Reaches l p k → Reaches (node b f l r) ('0' :: p) k
  | right (b : Byte) (f : Nat) (l r : HuffmanNode) (p : List Char) (k : Byte) :
      (node b f l r).isLeaf = false → Reaches r p k → Reaches (node b f l r) ('1' :: p) k

end HuffmanNode

namespace HuffmanNode

/-- The leaves of a tree, from left to right: byte value and weight. -/
def leaves : HuffmanNode → List (Byte × Nat)
  | null => []
  | node b f l r =>
    if (node b f l r).isLeaf then [(b, f)] else leaves l ++ leaves r

end HuffmanNode

/-- The code of a byte in a code table (the empty string when it has none). -/
def codeOf (codes : ByteMap (List Char)) (b : Byte) : List Char :=
  (ByteMap.find codes b).getD []

/-- The payload: the code of every byte of the input, in input order, as bits. -/
def payloadBits (codes : ByteMap (List Char)) (data : List Byte) : List Bool :=
  data.flatMap (fun b => (codeOf codes b).map (fun c => decide (c = '1')))

/-- The sum of the code lengths of the bytes of the input. -/
def payloadLength (codes : ByteMap (List Char)) (data : List Byte) : Nat :=
  (data.map (fun b => (codeOf codes b).length)).sum

/-- The tree `encode` builds for an input. -/
def treeOf (pq : PriorityQueue) (s : HuffmanEncoder) (data : List Byte) : HuffmanNode :=
  buildTree pq (countFrequencies data) s.root

/-- The code table `encode` builds for an input. -/
def codesOf (pq : PriorityQueue) (s : HuffmanEncoder) (data : List Byte) :
    ByteMap (List Char) :=
  generateCodes (treeOf pq s data) [] []

/-- The decoding loop of `decode` as a function of the bits it reads: the window
of at most `dataSize` bits from the cursor to the end of the bit vector. -/
def walk (root : HuffmanNode) : List Bool → HuffmanNode → List Byte → Except Fault (List Byte)
  | [], _, decoded => Except.ok decoded
  | bit :: w, current, decoded => do
    let next ← follow current bit
    if next.isNull then Except.ok decoded
    else if next.isLeaf then walk root w root (decoded ++ [next.byte])
    else walk root w next decoded

/-- The bits `encode` packs for a non-empty input: first field, tree, second
field, payload. -/
def encodedBits (pq : PriorityQueue) (s : HuffmanEncoder) (data : List Byte) : List Bool :=
  bitsMSB 32 (serializeTree (treeOf pq s data) []).length
    ++ serializeTree (treeOf pq s data) []
    ++ bitsMSB 32 (payloadLength (codesOf pq s data) data)
    ++ payloadBits (codesOf pq s data) data

/-- The collections of leaf depths of the binary trees in which every internal
node has two children. -/
inductive TreeDepths : Multiset Nat → Prop
  | leaf : TreeDepths {0}
  | node (a b : Multiset Nat) : TreeDepths a → TreeDepths b →
      TreeDepths (a.map Nat.succ + b.map Nat.succ)

/-- The weighted path length of a collection of (weight, depth) pairs. -/
def weightedSum (S : Multiset (Nat × Nat)) : Nat := (S.map (fun p => p.1 * p.2)).sum

namespace HuffmanNode

/-- The sum of the weights of the leaves of a tree. -/
def weight : HuffmanNode → Nat
  | null => 0
  | node b f l r => if (node b f l r).isLeaf then f else weight l + weight r

/-- The sum over the leaves of weight times depth, the root being at depth `d`. -/
def costAt : HuffmanNode → Nat → Nat
  | null, _ => 0
  | node b f l r, d =>
    if (node b f l r).isLeaf then f * d else costAt l (d + 1) + costAt r (d + 1)

end HuffmanNode

/-- The frequency of a byte in a table (0 when it has none). -/
def freqOf (freq : ByteMap Nat) (b : Byte) : Nat := (ByteMap.find freq b).getD 0

/-- The weighted path length of a tree for a frequency table: the sum over the
leaves of (frequency of the byte of the leaf) times (depth of the leaf), the
root being at depth `d`. -/
def wplOf (freq : ByteMap Nat) : HuffmanNode → Nat → Nat
  | null, _ => 0
  | node b f l r, d =>
    if (node b f l r).isLeaf then freqOf freq b * d
    else wplOf freq l (d + 1) + wplOf freq r (d + 1)

/-- The leaves of a tree as (frequency of the byte, depth) pairs. -/
def depthPairs (freq : ByteMap Nat) : HuffmanNode → Nat → Multiset (Nat × Nat)
  | null, _ => 0
  | node b f l r, d =>
    if (node b f l r).isLeaf then {(freqOf freq b, d)}
    else depthPairs freq l (d + 1) + depthPairs freq r (d + 1)

/-- The input made of `n` bytes `00`, `n` bytes `01`, `n` bytes `02`, `n` bytes
`03` and `m` bytes `04`.  With `n = 300000000` and `m = 694967296` it has
1894967296 bytes (fewer than `2^31`) and its payload takes exactly `2^32` bits:
codes of 3 bits for the first four values, of 1 bit for the fifth. -/
def blockInput (n m : Nat) : List Byte :=
  List.replicate n 0 ++ (List.replicate n 1 ++ (List.replicate n 2
    ++ (List.replicate n 3 ++ List.replicate m 4)))

/-- Of a list of (weight, code) pairs, the pairs whose code starts with `bit`,
with that first bit removed. -/
def splitCodes (bit : Bool) (L : List (Nat × List Bool)) : List (Nat × List Bool) :=
  L.filterMap (fun p =>
    match p.2 with
    | [] => none
    | b :: t => if b = bit then some (p.1, t) else none)

namespace HuffmanNode

/-- A tree in which every node is a leaf or has two children, the weight of
every internal node is the sum of the weights of its children, and the left
child is not heavier than the right one; the weights are `int` values. -/
inductive WeightOrdered : HuffmanNode → Prop
  | leaf (b : Byte) (f : Nat) : WeightOrdered (node b f null null)
  | internal (b : Byte) (f : Nat) (l r : HuffmanNode) :
      WeightOrdered l → WeightOrdered r →
      intValue f = intValue l.freq + intValue r.freq →
      intValue l.freq ≤ intValue r.freq →
      WeightOrdered (node b f l r)

end HuffmanNode

/-- An input on which an `int` count overflows: `n` bytes `61` followed by one
byte `62` and one byte `63`.  With `n = 2^31` the count of `61` is `-2^31`. -/
def skewedInput (n : Nat) : List Byte := List.replicate n 97 ++ [98, 99]

/-! ## Theorems -/

theorem foldl_push_eq_append {α β : Type} (f : α → β) (xs : List α) (acc : List β) :
    xs.foldl (fun bits i => bits ++ [f i]) acc = acc ++ xs.map f := by
  induction xs generalizing acc with
  | nil => simp
  | cons x xs ih => simp [ih]

theorem pushBitsMSB_eq (width value : Nat) (bits : List Bool) :
    pushBitsMSB width value bits = bits ++ bitsMSB width value := by
  unfold pushBitsMSB bitsMSB
  exact foldl_push_eq_append _ _ _

theorem bitsMSB_length (width value : Nat) : (bitsMSB width value).length = width := by
  simp [bitsMSB]

theorem bitsMSB_succ (width value : Nat) :
    bitsMSB (width + 1) value
      = decide ((value >>> width) &&& 1 = 1) :: bitsMSB width value := by
  simp [bitsMSB, List.range_succ]

theorem shift_or_bit (v : Nat) (b : Bool) : (v <<< 1) ||| b.toNat = 2 * v + b.toNat := by
  have hb : b.toNat < 2 ^ 1 := by cases b <;> simp
  have h := Nat.mul_add_lt_is_or hb v
  rw [Nat.shiftLeft_eq, Nat.mul_comm v, ← h, pow_one]

theorem shr_and_one (v i : Nat) : (v >>> i) &&& 1 = v / 2 ^ i % 2 := by
  rw [Nat.shiftRight_eq_div_pow, Nat.and_one_is_mod]

theorem valueOfBits_bitsMSB (width value acc : Nat) :
    valueOfBits (bitsMSB width value) acc = acc * 2 ^ width + value % 2 ^ width := by
  induction width generalizing acc with
  | zero => simp [bitsMSB, valueOfBits, Nat.mod_one]
  | succ w ih =>
    rw [bitsMSB_succ]
    unfold valueOfBits at ih ⊢
    rw [List.foldl_cons, ih, shift_or_bit, shr_and_one, Nat.mod_pow_succ]
    have h2 : value / 2 ^ w % 2 < 2 := Nat.mod_lt _ (by norm_num)
    rcases Nat.lt_succ_iff.1 h2 with h3
    interval_cases h : value / 2 ^ w % 2 <;> simp [pow_succ] <;> ring

theorem readBit_of_lt (bits : List Bool) (pos : Nat) (h : pos < bits.length) :
    readBit bits pos = Except.ok (bits.get ⟨pos, h⟩) := by
  simp [readBit, List.getElem?_eq_getElem h]

theorem drop_eq_get_cons (bits : List Bool) (pos : Nat) (h : pos < bits.length) :
    bits.drop pos = bits.get ⟨pos, h⟩ :: bits.drop (pos + 1) := by
  rw [List.get_eq_getElem]
  exact List.drop_eq_getElem_cons h

theorem readField_eq (bits : List Bool) (n pos value : Nat) (hpos : pos ≤ bits.length) :
    readField bits n pos value
      = Except.ok (if pos + n ≤ bits.length
          then some (valueOfBits ((bits.drop pos).take n) value) else none) := by
  induction n generalizing pos value with
  | zero => simp [readField, hpos, valueOfBits]
  | succ n ih =>
    unfold readField
    by_cases h : pos ≥ bits.length
    · have h1 : ¬ (pos + (n + 1) ≤ bits.length) := by omega
      simp [h, h1]
    · have hlt : pos < bits.length := by omega
      rw [if_neg h, readBit_of_lt bits pos hlt]
      simp only [Except.bind, bind]
      rw [ih (pos + 1) _ (by omega), drop_eq_get_cons bits pos hlt]
      by_cases hc : pos + (n + 1) ≤ bits.length
      · have hc1 : pos + 1 + n ≤ bits.length := by omega
        rw [if_pos hc, if_pos hc1]
        simp only [valueOfBits, List.take_succ_cons, List.foldl_cons]
      · have hc1 : ¬ (pos + 1 + n ≤ bits.length) := by omega
        rw [if_neg hc, if_neg hc1]

theorem readLeafByte_eq (bits : List Bool) (shifts : List Nat) (byte pos : Nat)
    (hpos : pos ≤ bits.length) :
    readLeafByte bits shifts byte pos
      = Except.ok (if pos + shifts.length ≤ bits.length
          then (some (leafByteOf shifts ((bits.drop pos).take shifts.length) byte),
                pos + shifts.length)
          else (none, bits.length)) := by
  induction shifts generalizing pos byte with
  | nil => simp [readLeafByte, hpos, leafByteOf]
  | cons i is ih =>
    unfold readLeafByte
    by_cases h : pos ≥ bits.length
    · have h1 : ¬ (pos + (i :: is).length ≤ bits.length) := by simp; omega
      have h2 : pos = bits.length := by omega
      simp [h, h1, h2]
    · have hlt : pos < bits.length := by omega
      rw [if_neg h, readBit_of_lt bits pos hlt]
      simp only [Except.bind, bind]
      rw [ih _ (pos + 1) (by omega), drop_eq_get_cons bits pos hlt]
      have e2 : pos + 1 + is.length = pos + (i :: is).length := by
        simp only [List.length_cons]; omega
      rw [e2]
      by_cases hc : pos + (i :: is).length ≤ bits.length
      · rw [if_pos hc, if_pos hc]
        simp only [leafByteOf, List.length_cons, List.take_succ_cons, List.zip_cons_cons,
          List.foldl_cons]
      · rw [if_neg hc, if_neg hc]

set_option maxRecDepth 1000000 in
theorem leafByteOf_bitsMSB (b : Byte) :
    leafByteOf [7, 6, 5, 4, 3, 2, 1, 0] (bitsMSB 8 b.val) 0 = b.val := by
  revert b
  decide

theorem HuffmanNode.Full.ne_null {t : HuffmanNode} (h : Full t) : t ≠ null := by
  cases h <;> simp

theorem HuffmanNode.Full.isLeaf_internal {l : HuffmanNode} (h : Full l) (b : Byte) (f : Nat)
    (r : HuffmanNode) : (node b f l r).isLeaf = false := by
  cases h <;> simp [isLeaf]

theorem serializeTree_append (t : HuffmanNode) (bits : List Bool) :
    serializeTree t bits = bits ++ serializeTree t [] := by
  induction t generalizing bits with
  | null => simp [serializeTree]
  | node b f l r ihl ihr =>
    unfold serializeTree
    split
    · simp [pushBitsMSB_eq]
    · rw [ihr, ihl, ihr (serializeTree l ([] ++ [false])), ihl ([] ++ [false])]
      simp

theorem serializeTree_leaf (b : Byte) (f : Nat) :
    serializeTree (node b f null null) [] = true :: bitsMSB 8 b.val := by
  simp [serializeTree, isLeaf, pushBitsMSB_eq]

theorem serializeTree_internal {l : HuffmanNode} (hl : Full l) (b : Byte) (f : Nat)
    (r : HuffmanNode) :
    serializeTree (node b f l r) [] = false :: (serializeTree l [] ++ serializeTree r []) := by
  conv_lhs => rw [serializeTree]
  rw [hl.isLeaf_internal, serializeTree_append r, serializeTree_append l]
  simp

theorem eraseWeights_internal {l : HuffmanNode} (hl : Full l) (b : Byte) (f : Nat)
    (r : HuffmanNode) :
    eraseWeights (node b f l r) = mkInternal 0 (eraseWeights l) (eraseWeights r) := by
  cases hl <;> simp [eraseWeights]

theorem sameShape_eraseWeights {t : HuffmanNode} (h : Full t) : SameShape t (eraseWeights t) := by
  induction h with
  | leaf b f => exact SameShape.leaf b f 0
  | internal b f l r hl hr ihl ihr =>
    rw [eraseWeights_internal hl]
    exact SameShape.internal _ _ _ _ _ _ _ _ ihl ihr

theorem drop_eq_cons_inv {bits : List Bool} {pos : Nat} {x : Bool} {rest : List Bool}
    (h : bits.drop pos = x :: rest) :
    ∃ hlt : pos < bits.length, bits.get ⟨pos, hlt⟩ = x ∧ bits.drop (pos + 1) = rest := by
  have hlt : pos < bits.length := by
    by_contra hc
    rw [List.drop_eq_nil_of_le (by omega)] at h
    cases h
  refine ⟨hlt, ?_⟩
  rw [drop_eq_get_cons bits pos hlt] at h
  injection h with h1 h2
  exact ⟨h1, h2⟩

theorem drop_append_inv {bits : List Bool} {pos : Nat} {xs rest : List Bool}
    (hpos : pos ≤ bits.length) (h : bits.drop pos = xs ++ rest) :
    pos + xs.length ≤ bits.length ∧ (bits.drop pos).take xs.length = xs
      ∧ bits.drop (pos + xs.length) = rest := by
  have hl : (bits.drop pos).length = xs.length + rest.length := by rw [h]; simp
  rw [List.length_drop] at hl
  refine ⟨by omega, ?_, ?_⟩
  · rw [h]; simp
  · rw [← List.drop_drop, h]; simp

theorem fin_ofNat_val (b : Byte) : (Fin.ofNat b.val : Byte) = b := by
  apply Fin.ext
  simp [Fin.ofNat]

theorem deserializeTreeAux_serialize {t : HuffmanNode} (ht : Full t) :
    ∀ (bits : List Bool) (pos fuel : Nat) (post : List Bool),
      bits.drop pos = serializeTree t [] ++ post →
      (serializeTree t []).length ≤ fuel →
      deserializeTreeAux bits fuel pos
        = Except.ok (eraseWeights t, pos + (serializeTree t []).length) := by
  induction ht with
  | leaf b f =>
    intro bits pos fuel post hd hf
    rw [serializeTree_leaf] at hd hf ⊢
    rw [List.cons_append] at hd
    cases fuel with
    | zero => simp at hf
    | succ fuel =>
      obtain ⟨hlt, hget, hrest⟩ := drop_eq_cons_inv hd
      obtain ⟨hle, htake, -⟩ := drop_append_inv (by omega) hrest
      rw [bitsMSB_length] at hle htake
      unfold deserializeTreeAux
      rw [if_neg (by omega), readBit_of_lt bits pos hlt, hget]
      simp only [Except.bind, bind, if_true]
      rw [readLeafByte_eq bits _ _ _ (by omega)]
      have h8 : ([7, 6, 5, 4, 3, 2, 1, 0] : List Nat).length = 8 := rfl
      rw [h8, if_pos hle, htake, leafByteOf_bitsMSB]
      simp [eraseWeights, bitsMSB_length, Nat.add_assoc, Nat.add_comm 1 8, fin_ofNat_val]
  | internal b f l r hl hr ihl ihr =>
    intro bits pos fuel post hd hf
    rw [serializeTree_internal hl] at hd hf ⊢
    rw [List.cons_append, List.append_assoc] at hd
    cases fuel with
    | zero => simp at hf
    | succ fuel =>
      obtain ⟨hlt, hget, hrest⟩ := drop_eq_cons_inv hd
      obtain ⟨hle, -, hrest2⟩ := drop_append_inv (by omega) hrest
      simp only [List.length_cons, List.length_append] at hf
      unfold deserializeTreeAux
      rw [if_neg (by omega), readBit_of_lt bits pos hlt, hget]
      simp only [Except.bind, bind]
      rw [ihl bits (pos + 1) fuel _ hrest (by omega)]
      simp only
      rw [ihr bits _ fuel _ hrest2 (by omega)]
      rw [eraseWeights_internal hl]
      simp only [Bool.false_eq_true, if_false, List.length_cons, List.length_append,
        Except.ok.injEq, Prod.mk.injEq, true_and]
      omega

theorem deserializeTree_serialize {t : HuffmanNode} (ht : Full t) :
    deserializeTree (serializeTree t []) 0
      = Except.ok (eraseWeights t, (serializeTree t []).length) := by
  unfold deserializeTree
  have h := deserializeTreeAux_serialize ht (serializeTree t []) 0
    ((serializeTree t []).length - 0 + 1) [] (by simp) (by omega)
  rw [h]
  simp

theorem foldl_guarded_push {α : Type} (f : α → Bool) (total : Nat) (xs : List α)
    (acc : List Bool) :
    xs.foldl (fun bits i => if bits.length ≥ total then bits else bits ++ [f i]) acc
      = acc ++ (xs.map f).take (total - acc.length) := by
  induction xs generalizing acc with
  | nil => simp
  | cons x xs ih =>
    rw [List.foldl_cons, ih]
    by_cases h : acc.length ≥ total
    · have h0 : total - acc.length = 0 := by omega
      simp [h, h0]
    · have h1 : total - acc.length = (total - (acc.length + 1)) + 1 := by omega
      rw [if_neg h, h1]
      simp

theorem bytesToBits_foldl (total : Nat) (bytes : List Byte) (acc : List Bool) :
    bytes.foldl (fun bits byte =>
      [7, 6, 5, 4, 3, 2, 1, 0].foldl (fun bits i =>
        if bits.length ≥ total then bits
        else bits ++ [decide ((byte.val >>> i) &&& 1 = 1)]) bits) acc
      = acc ++ (artifactBits bytes).take (total - acc.length) := by
  induction bytes generalizing acc with
  | nil => simp [artifactBits]
  | cons b bs ih =>
    rw [List.foldl_cons, foldl_guarded_push, ih]
    have hb : ([7, 6, 5, 4, 3, 2, 1, 0] : List Nat).map
        (fun i => decide ((b.val >>> i) &&& 1 = 1)) = bitsMSB 8 b.val := by
      simp [bitsMSB, List.range_succ]
    rw [hb]
    simp only [artifactBits, List.flatMap_cons, List.append_assoc, List.length_append,
      List.length_take, bitsMSB_length, List.take_append_eq_append_take]
    congr 2
    by_cases h : total - acc.length ≤ 8
    · have h1 : total - (acc.length + min (total - acc.length) 8) = 0 := by
        rw [Nat.min_eq_left h]; omega
      have h2 : total - acc.length - 8 = 0 := by omega
      rw [h1, h2]
    · have h1 : min (total - acc.length) 8 = 8 := Nat.min_eq_right (by omega)
      rw [h1, Nat.sub_add_eq]

theorem bytesToBits_eq (bytes : List Byte) (total : Nat) :
    bytesToBits bytes total = (artifactBits bytes).take total := by
  unfold bytesToBits
  rw [bytesToBits_foldl]
  simp

theorem artifactBits_length (bytes : List Byte) :
    (artifactBits bytes).length = bytes.length * 8 := by
  induction bytes with
  | nil => rfl
  | cons b bs ih =>
    simp only [artifactBits, List.flatMap_cons, List.length_append, bitsMSB_length,
      List.length_cons] at ih ⊢
    rw [ih]; omega

theorem bytesToBits_all (bytes : List Byte) :
    bytesToBits bytes (bytes.length * 8) = artifactBits bytes := by
  rw [bytesToBits_eq, ← artifactBits_length, List.take_length]

theorem deserializeTreeAux_total (bits : List Bool) :
    ∀ (n pos : Nat), bits.length - pos ≤ n → pos ≤ bits.length →
      ∃ t pos1 ov, (∀ fuel, bits.length - pos + 1 ≤ fuel →
          deserializeTreeAux bits fuel pos = Except.ok (t, pos1)
          ∧ cursorOverranAux bits fuel pos = (ov, pos1))
        ∧ pos ≤ pos1 ∧ pos1 ≤ bits.length ∧ (pos < bits.length → pos < pos1)
        ∧ (t = null → ov = true)
        ∧ (t = null ↔ (bits.length ≤ pos ∨ (bits[pos]? = some true ∧ bits.length < pos + 9))) := by
  intro n
  induction n with
  | zero =>
    intro pos hn hpos
    refine ⟨null, pos, true, ?_, le_refl _, hpos, by omega, ?_, ?_⟩
    · intro fuel hf
      cases fuel with
      | zero => omega
      | succ fuel =>
        unfold deserializeTreeAux cursorOverranAux
        rw [if_pos (by omega), if_pos (by omega)]
        exact ⟨rfl, rfl⟩
    · intro _; rfl
    · simp only [true_iff]; left; omega
  | succ n ih =>
    intro pos hn hpos
    by_cases hge : pos ≥ bits.length
    · refine ⟨null, pos, true, ?_, le_refl _, hpos, by omega, ?_, ?_⟩
      · intro fuel hf
        cases fuel with
        | zero => omega
        | succ fuel =>
          unfold deserializeTreeAux cursorOverranAux
          rw [if_pos hge, if_pos hge]
          exact ⟨rfl, rfl⟩
      · intro _; rfl
      · simp only [true_iff]; left; omega
    · have hlt : pos < bits.length := by omega
      have hgetD : bits.getD pos false = bits.get ⟨pos, hlt⟩ := by
        simp [List.getD_eq_getElem?_getD, List.getElem?_eq_getElem hlt]
      have hget? : bits[pos]? = some (bits.get ⟨pos, hlt⟩) := by
        simp [List.getElem?_eq_getElem hlt]
      cases hb : bits.get ⟨pos, hlt⟩ with
      | true =>
        by_cases h8 : pos + 1 + 8 ≤ bits.length
        · refine ⟨mkLeaf (Fin.ofNat (leafByteOf [7, 6, 5, 4, 3, 2, 1, 0]
              ((bits.drop (pos + 1)).take 8) 0)) 0, pos + 1 + 8, false, ?_, by omega, h8,
              by omega, ?_, ?_⟩
          · intro fuel hf
            cases fuel with
            | zero => omega
            | succ fuel =>
              unfold deserializeTreeAux cursorOverranAux
              rw [if_neg hge, if_neg hge, readBit_of_lt bits pos hlt, hgetD, hb]
              simp only [Except.bind, bind, if_true]
              rw [readLeafByte_eq bits _ _ _ (by omega)]
              have e8 : ([7, 6, 5, 4, 3, 2, 1, 0] : List Nat).length = 8 := rfl
              rw [e8, if_pos h8]
              refine ⟨rfl, ?_⟩
              simp only [Prod.mk.injEq, decide_eq_false_iff_not]
              omega
          · intro h; cases h
          · constructor
            · intro h; cases h
            · intro h
              rcases h with h | h
              · omega
              · omega
        · refine ⟨null, bits.length, true, ?_, by omega, le_refl _, by omega, ?_, ?_⟩
          · intro fuel hf
            cases fuel with
            | zero => omega
            | succ fuel =>
              unfold deserializeTreeAux cursorOverranAux
              rw [if_neg hge, if_neg hge, readBit_of_lt bits pos hlt, hgetD, hb]
              simp only [Except.bind, bind, if_true]
              rw [readLeafByte_eq bits _ _ _ (by omega)]
              have e8 : ([7, 6, 5, 4, 3, 2, 1, 0] : List Nat).length = 8 := rfl
              rw [e8, if_neg h8]
              refine ⟨rfl, ?_⟩
              simp only [Prod.mk.injEq, decide_eq_true_eq]
              omega
          · intro _; rfl
          · simp only [true_iff]; right
            rw [hget?, hb]
            exact ⟨rfl, by omega⟩
      | false =>
        obtain ⟨l, p1, ovl, hl, hl1, hl2, hl3, hl4, -⟩ := ih (pos + 1) (by omega) (by omega)
        obtain ⟨r, p2, ovr, hr, hr1, hr2, hr3, hr4, -⟩ := ih p1 (by omega) hl2
        refine ⟨mkInternal 0 l r, p2, ovl || ovr, ?_, by omega, hr2, by omega, ?_, ?_⟩
        · intro fuel hf
          cases fuel with
          | zero => omega
          | succ fuel =>
            unfold deserializeTreeAux cursorOverranAux
            rw [if_neg hge, if_neg hge, readBit_of_lt bits pos hlt, hgetD, hb]
            simp only [Except.bind, bind, Bool.false_eq_true, if_false]
            rw [(hl fuel (by omega)).1, (hl fuel (by omega)).2]
            simp only
            rw [(hr fuel (by omega)).1, (hr fuel (by omega)).2]
            exact ⟨rfl, rfl⟩
        · intro h; cases h
        · constructor
          · intro h; cases h
          · intro h
            rcases h with h | h
            · omega
            · rw [hget?, hb] at h
              cases h.1

theorem decode_eq (s : HuffmanEncoder) (a : List Byte) (ha : a ≠ []) :
    decode s a =
      if a.length * 8 < 32 then Except.ok ([], s)
      else if 32 + treeBitLength a > a.length * 8 then Except.ok ([], s)
      else
        match deserializeTree (treeSection a) 0 with
        | Except.error e => Except.error e
        | Except.ok t =>
          if t.1.isNull then Except.ok ([], ⟨t.1, s.codes, s.freq⟩)
          else if a.length * 8 < 32 + treeBitLength a + 32 then
            Except.ok ([], ⟨t.1, s.codes, s.freq⟩)
          else
            match decodeLoop (artifactBits a) t.1 (payloadBitLength a)
                (32 + treeBitLength a + 32) t.1 [] with
            | Except.error e => Except.error e
            | Except.ok d => Except.ok (d, ⟨t.1, s.codes, s.freq⟩) := by
  unfold decode
  have hne : a.isEmpty = false := by
    cases a with
    | nil => exact absurd rfl ha
    | cons x xs => rfl
  rw [hne]
  simp only [Bool.false_eq_true, if_false, bytesToBits_all]
  rw [readField_eq _ _ _ _ (Nat.zero_le _)]
  simp only [Except.bind, bind, artifactBits_length, Nat.zero_add, List.drop_zero]
  by_cases h1 : a.length * 8 < 32
  · rw [if_pos h1, if_neg (by omega)]
  · rw [if_neg h1, if_pos (by omega)]
    simp only
    by_cases h2 : 32 + treeBitLength a > a.length * 8
    · rw [if_pos h2]
      unfold treeBitLength at h2
      rw [if_pos h2]
    · rw [if_neg h2]
      have h2a : ¬ (32 + valueOfBits ((artifactBits a).take 32) 0 > a.length * 8) := h2
      rw [if_neg h2a]
      have e : sliceBits (artifactBits a) 32 (32 + valueOfBits (List.take 32 (artifactBits a)) 0)
          = Except.ok (treeSection a) := by
        unfold sliceBits
        rw [if_pos ⟨by omega, by rw [artifactBits_length]; omega⟩]
        rfl
      rw [e]
      simp only
      cases hd : deserializeTree (treeSection a) 0 with
      | error e => rfl
      | ok t =>
        simp only
        by_cases h3 : t.1.isNull
        · rw [if_pos h3, if_pos h3]
        · rw [if_neg h3, if_neg h3]
          rw [readField_eq _ _ _ _ (by rw [artifactBits_length]; unfold treeBitLength at h2; omega)]
          simp only [artifactBits_length]
          by_cases h4 : a.length * 8 < 32 + treeBitLength a + 32
          · rw [if_pos h4]
            unfold treeBitLength at h4
            rw [if_neg (by omega)]
          · rw [if_neg h4]
            have h4a := h4
            unfold treeBitLength at h4a
            rw [if_pos (by omega)]
            simp only [payloadBitLength, treeBitLength]
            cases decodeLoop (artifactBits a) t.1
              (valueOfBits (List.take 32 (List.drop (32 + valueOfBits (List.take 32
                (artifactBits a)) 0) (artifactBits a))) 0)
              (32 + valueOfBits (List.take 32 (artifactBits a)) 0 + 32) t.1 [] <;> rfl

theorem deserializeTree_total (bits : List Bool) :
    ∃ t p, deserializeTree bits 0 = Except.ok (t, p) ∧ p ≤ bits.length
      ∧ (t = null → cursorOverran bits 0 = true)
      ∧ (t = null ↔ (bits.length ≤ 0 ∨ (bits[0]? = some true ∧ bits.length < 0 + 9))) := by
  obtain ⟨t, p, ov, h, -, hp, -, hov, hnull⟩ :=
    deserializeTreeAux_total bits bits.length 0 (by omega) (Nat.zero_le _)
  refine ⟨t, p, (h _ (le_refl _)).1, hp, ?_, hnull⟩
  intro ht
  unfold cursorOverran
  rw [(h _ (le_refl _)).2]
  exact hov ht

theorem decode_empty_of_missing (s : HuffmanEncoder) (a : List Byte) (ha : a ≠ [])
    (h : a.length * 8 < 32 ∨ a.length * 8 - 32 < treeBitLength a
      ∨ a.length * 8 - 32 - treeBitLength a < 32) :
    ∃ s1, decode s a = Except.ok ([], s1) := by
  rw [decode_eq s a ha]
  by_cases h1 : a.length * 8 < 32
  · exact ⟨s, by rw [if_pos h1]⟩
  · rw [if_neg h1]
    by_cases h2 : 32 + treeBitLength a > a.length * 8
    · exact ⟨s, by rw [if_pos h2]⟩
    · rw [if_neg h2]
      obtain ⟨t, p, ht, -⟩ := deserializeTree_total (treeSection a)
      rw [ht]
      simp only
      by_cases h3 : t.isNull
      · exact ⟨_, by rw [if_pos h3]⟩
      · rw [if_neg h3]
        have h4 : a.length * 8 < 32 + treeBitLength a + 32 := by omega
        exact ⟨_, by rw [if_pos h4]⟩

/-- C8: for a non-empty artifact, `decode` returns the empty sequence when the
artifact has fewer than 32 bits, when the tree bit length `T` of its first 32
bits exceeds the bits remaining after that field, or when fewer than 32 bits
remain after the `T` tree bits for the payload length field. -/
theorem decode_missing_section (s : HuffmanEncoder) (a : List Byte) (ha : a ≠ [])
    (h : a.length * 8 < 32 ∨ a.length * 8 - 32 < treeBitLength a
      ∨ a.length * 8 - 32 - treeBitLength a < 32) :
    ∃ s1, decode s a = Except.ok ([], s1) :=
  decode_empty_of_missing s a ha h

set_option maxRecDepth 100000 in
theorem decode_missing_section_witness :
    ([0, 0, 0, 200, 0] : List Byte) ≠ []
      ∧ ([0, 0, 0, 200, 0] : List Byte).length * 8 - 32
          < treeBitLength ([0, 0, 0, 200, 0] : List Byte)
      ∧ ∃ s1, decode HuffmanEncoder.init [0, 0, 0, 200, 0] = Except.ok ([], s1) :=
  ⟨by decide, by decide,
    decode_missing_section HuffmanEncoder.init [0, 0, 0, 200, 0] (by decide)
      (Or.inr (Or.inl (by decide)))⟩

set_option maxRecDepth 100000 in
/-- C7 as stated fails: on the tree section of the artifact of one byte `41` the
cursor runs past the bits while the right subtree of the root is read, yet
`deserializeTree` returns a node and `decode` returns a byte. -/
theorem deserializeTree_overrun_not_null :
    treeSection [0, 0, 0, 10, 80, 64, 0, 0, 0, 64]
        = [false, true, false, true, false, false, false, false, false, true]
      ∧ cursorOverran (treeSection [0, 0, 0, 10, 80, 64, 0, 0, 0, 64]) 0 = true
      ∧ deserializeTree (treeSection [0, 0, 0, 10, 80, 64, 0, 0, 0, 64]) 0
          = Except.ok (mkInternal 0 (mkLeaf 65 0) null, 10)
      ∧ decode HuffmanEncoder.init [0, 0, 0, 10, 80, 64, 0, 0, 0, 64]
          = Except.ok ([65], ⟨mkInternal 0 (mkLeaf 65 0) null, [], []⟩) :=
  ⟨by decide, by decide, by rfl, by rfl⟩

/-- C6: for a tree whose nodes are leaves or have two children,
`deserializeTree` from cursor 0 on the bits of `serializeTree` returns a tree of
the same shape with the same byte at every leaf, and leaves the cursor at the
number of bits written. -/
theorem deserialize_serialize_roundtrip (t : HuffmanNode) (ht : Full t) :
    ∃ t1, deserializeTree (serializeTree t []) 0
        = Except.ok (t1, (serializeTree t []).length)
      ∧ SameShape t t1 :=
  ⟨eraseWeights t, deserializeTree_serialize ht, sameShape_eraseWeights ht⟩

theorem deserialize_serialize_roundtrip_witness :
    ∃ t1, deserializeTree
        (serializeTree (node 0 4 (node 98 1 null null) (node 97 3 null null)) []) 0
        = Except.ok (t1,
            (serializeTree (node 0 4 (node 98 1 null null) (node 97 3 null null)) []).length)
      ∧ SameShape (node 0 4 (node 98 1 null null) (node 97 3 null null)) t1 :=
  deserialize_serialize_roundtrip _
    (Full.internal 0 4 _ _ (Full.leaf 98 1) (Full.leaf 97 3))

theorem packLoop_chunk (bits : List Bool) :
    ∀ (bytes : List Byte) (v c : Nat), c + bits.length ≤ 8 → c < 8 →
      bits.foldl (fun (st : List Byte × Nat × Nat) bit =>
          let byte := ((st.2.1 <<< 1) ||| bit.toNat) % 256
          let bitCount := st.2.2 + 1
          if bitCount = 8 then (st.1 ++ [Fin.ofNat byte], 0, 0)
          else (st.1, byte, bitCount)) (bytes, v, c)
        = if c + bits.length = 8 then (bytes ++ [Fin.ofNat (packAcc bits v)], 0, 0)
          else (bytes, packAcc bits v, c + bits.length) := by
  induction bits with
  | nil =>
    intro bytes v c h1 h2
    simp only [List.foldl_nil, List.length_nil, Nat.add_zero, packAcc]
    rw [if_neg (by omega)]
  | cons b bs ih =>
    intro bytes v c h1 h2
    simp only [List.length_cons] at h1
    rw [List.foldl_cons]
    by_cases h8 : c + 1 = 8
    · have hbs : bs = [] := by
        apply List.eq_nil_of_length_eq_zero
        omega
      subst hbs
      simp only [h8, if_true, List.foldl_nil, List.length_cons, List.length_nil, packAcc,
        List.foldl_cons]
    · simp only [h8, if_false]
      rw [ih bytes _ (c + 1) (by omega) (by omega)]
      simp only [List.length_cons, packAcc, List.foldl_cons]
      have e : c + 1 + bs.length = c + (bs.length + 1) := by omega
      rw [e]

theorem packAcc_append (xs ys : List Bool) (v : Nat) :
    packAcc (xs ++ ys) v = packAcc ys (packAcc xs v) := by
  simp [packAcc, List.foldl_append]

theorem packAcc_zeros (k v : Nat) (hv : v < 256) :
    packAcc (List.replicate k false) v = (v * 2 ^ k) % 256 := by
  induction k generalizing v with
  | zero => simp [packAcc, Nat.mod_eq_of_lt hv]
  | succ k ih =>
    rw [List.replicate_succ]
    have h := ih ((v <<< 1) % 256) (Nat.mod_lt _ (by norm_num))
    simp only [packAcc, List.foldl_cons, Bool.toNat_false, Nat.or_zero] at h ⊢
    rw [h, Nat.shiftLeft_eq, pow_one, Nat.mul_mod, Nat.mod_mod, ← Nat.mul_mod, pow_succ]
    congr 1
    ring

set_option maxRecDepth 1000000 in
theorem bitsMSB_packAcc_eight :
    ∀ b7 b6 b5 b4 b3 b2 b1 b0 : Bool,
      bitsMSB 8 (packAcc [b7, b6, b5, b4, b3, b2, b1, b0] 0)
        = [b7, b6, b5, b4, b3, b2, b1, b0]
      ∧ packAcc [b7, b6, b5, b4, b3, b2, b1, b0] 0 < 256 := by
  decide

theorem bitsMSB_packAcc (chunk : List Bool) (h : chunk.length = 8) :
    bitsMSB 8 (Fin.ofNat (packAcc chunk 0) : Byte).val = chunk := by
  match chunk, h with
  | [b7, b6, b5, b4, b3, b2, b1, b0], _ =>
    have h1 := bitsMSB_packAcc_eight b7 b6 b5 b4 b3 b2 b1 b0
    have h2 : (Fin.ofNat (packAcc [b7, b6, b5, b4, b3, b2, b1, b0] 0) : Byte).val
        = packAcc [b7, b6, b5, b4, b3, b2, b1, b0] 0 := by
      simp only [Fin.ofNat]
      exact Nat.mod_eq_of_lt h1.2
    rw [h2]
    exact h1.1

theorem bitsToBytes_eq_pack (bits : List Bool) :
    bitsToBytes bits = packFinish (bits.foldl packStep ([], 0, 0)) := rfl

theorem packStep_chunk (bits : List Bool) (bytes : List Byte) (v c : Nat)
    (h1 : c + bits.length ≤ 8) (h2 : c < 8) :
    bits.foldl packStep (bytes, v, c)
      = if c + bits.length = 8 then (bytes ++ [Fin.ofNat (packAcc bits v)], 0, 0)
        else (bytes, packAcc bits v, c + bits.length) :=
  packLoop_chunk bits bytes v c h1 h2

theorem artifactBits_append (xs ys : List Byte) :
    artifactBits (xs ++ ys) = artifactBits xs ++ artifactBits ys := by
  simp [artifactBits]

theorem packAcc_lt (bits : List Bool) (v : Nat) (hv : v < 256) : packAcc bits v < 256 := by
  induction bits generalizing v with
  | nil => exact hv
  | cons b bs ih =>
    simp only [packAcc, List.foldl_cons]
    exact ih _ (Nat.mod_lt _ (by norm_num))

theorem pack_spec (n : Nat) :
    ∀ (bits : List Bool) (bytes : List Byte), bits.length ≤ n →
      ∃ out, packFinish (bits.foldl packStep (bytes, 0, 0)) = bytes ++ out
        ∧ artifactBits out = bits ++ padBits bits := by
  induction n using Nat.strong_induction_on with
  | _ n ih =>
    intro bits bytes hn
    by_cases h8 : bits.length < 8
    · rw [packStep_chunk bits bytes 0 0 (by omega) (by omega), if_neg (by omega)]
      by_cases h0 : bits.length = 0
      · have hb : bits = [] := List.eq_nil_of_length_eq_zero h0
        subst hb
        exact ⟨[], by simp [packFinish], by simp [artifactBits, padBits]⟩
      · refine ⟨[Fin.ofNat ((packAcc bits 0 <<< (8 - bits.length)) % 256)], ?_, ?_⟩
        · simp only [packFinish, Nat.zero_add]
          rw [if_pos (by omega)]
        · have hz := packAcc_zeros (8 - bits.length) (packAcc bits 0)
            (packAcc_lt bits 0 (by norm_num))
          rw [← packAcc_append] at hz
          rw [Nat.shiftLeft_eq, ← hz]
          have hlen : (bits ++ List.replicate (8 - bits.length) false).length = 8 := by
            simp; omega
          have := bitsMSB_packAcc _ hlen
          simp only [artifactBits, List.flatMap_cons, List.flatMap_nil, List.append_nil]
          rw [this, padBits]
          congr 2
          have := Nat.mod_eq_of_lt h8
          omega
    · have hsplit : bits = bits.take 8 ++ bits.drop 8 := (List.take_append_drop 8 bits).symm
      have hl8 : (bits.take 8).length = 8 := by simp; omega
      have hld : (bits.drop 8).length = bits.length - 8 := by simp
      obtain ⟨out, ho1, ho2⟩ := ih (bits.length - 8) (by omega) (bits.drop 8)
        (bytes ++ [Fin.ofNat (packAcc (bits.take 8) 0)]) (by omega)
      refine ⟨Fin.ofNat (packAcc (bits.take 8) 0) :: out, ?_, ?_⟩
      · conv_lhs => rw [hsplit, List.foldl_append,
          packStep_chunk (bits.take 8) bytes 0 0 (by omega) (by omega), if_pos (by omega)]
        rw [ho1]
        simp
      · have e : artifactBits (Fin.ofNat (packAcc (bits.take 8) 0) :: out)
            = bitsMSB 8 (Fin.ofNat (packAcc (bits.take 8) 0) : Byte).val ++ artifactBits out := by
          simp [artifactBits]
        rw [e, bitsMSB_packAcc _ hl8, ho2]
        have hp : padBits (bits.drop 8) = padBits bits := by
          unfold padBits
          rw [hld]
          congr 2
          omega
        rw [hp, ← List.append_assoc, List.take_append_drop]

theorem artifactBits_bitsToBytes (bits : List Bool) :
    artifactBits (bitsToBytes bits) = bits ++ padBits bits := by
  obtain ⟨out, h1, h2⟩ := pack_spec bits.length bits [] (le_refl _)
  rw [bitsToBytes_eq_pack, h1]
  exact h2

theorem padBits_length (bits : List Bool) :
    (padBits bits).length = (8 - bits.length % 8) % 8 := by
  simp [padBits]

theorem bitsToBytes_length (bits : List Bool) :
    (bitsToBytes bits).length = (bits.length + 7) / 8 := by
  have h := congrArg List.length (artifactBits_bitsToBytes bits)
  rw [artifactBits_length, List.length_append, padBits_length] at h
  omega

theorem compare_false_iff (a b : HuffmanNode) :
    CompareNode a b = false ↔ intValue a.freq ≤ intValue b.freq := by
  simp [CompareNode]

theorem intValue_of_lt {w : Nat} (h : w < 2 ^ 31) : intValue w = (w : Int) := by
  unfold intValue
  have h1 : w % 2 ^ 32 = w := Nat.mod_eq_of_lt (by omega)
  rw [h1, if_pos h]

theorem wrap_of_lt {w : Nat} (h : w < 2 ^ 31) : w % 2 ^ 32 = w :=
  Nat.mod_eq_of_lt (by omega)

theorem contents_foldl_push (pq : PriorityQueue) (freq : ByteMap Nat) (q : pq.Q) :
    (pq.contents (freq.foldl (fun q pair => pq.push q (mkLeaf pair.1 pair.2)) q)).Perm
      (freq.map (fun pair => mkLeaf pair.1 pair.2) ++ pq.contents q) := by
  induction freq generalizing q with
  | nil => simp
  | cons p ps ih =>
    rw [List.foldl_cons]
    refine (ih _).trans ?_
    refine (List.Perm.append_left _ (pq.contents_push q _)).trans ?_
    simp only [List.map_cons, List.cons_append]
    exact List.perm_middle

theorem contents_singleton_top (pq : PriorityQueue) (q : pq.Q) (r : HuffmanNode)
    (h : pq.contents q = [r]) : pq.top q = r := by
  have := pq.top_mem q (by rw [h]; simp)
  rw [h] at this
  simpa using this

theorem buildLoop_induct (pq : PriorityQueue) (P : List HuffmanNode → Prop)
    (hperm : ∀ l1 l2, l1.Perm l2 → P l1 → P l2)
    (hstep : ∀ x y rest, P (x :: y :: rest) →
      (∀ z ∈ y :: rest, intValue x.freq ≤ intValue z.freq) →
      (∀ z ∈ rest, intValue y.freq ≤ intValue z.freq) →
      P (mkInternal ((x.freq + y.freq) % 2 ^ 32) x y :: rest)) :
    ∀ (fuel : Nat) (q : pq.Q), pq.size q ≤ fuel + 1 → 1 ≤ pq.size q → P (pq.contents q) →
      ∃ r, pq.contents (buildLoop pq fuel q) = [r] ∧ P [r] := by
  intro fuel
  induction fuel with
  | zero =>
    intro q h1 h2 hP
    have hlen : (pq.contents q).length = 1 := by rw [← pq.size_eq]; omega
    obtain ⟨r, hr⟩ := List.length_eq_one.1 hlen
    exact ⟨r, by simpa [buildLoop] using hr, hr ▸ hP⟩
  | succ fuel ih =>
    intro q h1 h2 hP
    unfold buildLoop
    by_cases hs : pq.size q > 1
    · rw [if_pos hs]
      have hne : pq.contents q ≠ [] := by
        intro h0
        have := pq.size_eq q
        rw [h0] at this
        simp at this
        omega
      have hp1 := pq.contents_pop q hne
      have hl1 : (pq.contents (pq.pop q)).length + 1 = pq.size q := by
        rw [pq.size_eq q, hp1.length_eq]; simp
      have hne1 : pq.contents (pq.pop q) ≠ [] := by
        intro h0
        rw [h0] at hl1
        simp at hl1
        omega
      have hp2 := pq.contents_pop (pq.pop q) hne1
      have hl2 : (pq.contents (pq.pop (pq.pop q))).length + 2 = pq.size q := by
        rw [← hl1, hp2.length_eq]; simp
      have hall : (pq.contents q).Perm
          (pq.top q :: pq.top (pq.pop q) :: pq.contents (pq.pop (pq.pop q))) :=
        hp1.trans (List.Perm.cons _ hp2)
      have hx : ∀ z ∈ pq.top (pq.pop q) :: pq.contents (pq.pop (pq.pop q)),
          intValue (pq.top q).freq ≤ intValue z.freq := by
        intro z hz
        apply (compare_false_iff _ _).1
        apply pq.top_min q z
        exact hp1.symm.subset (List.mem_cons_of_mem _ (hp2.symm.subset hz))
      have hy : ∀ z ∈ pq.contents (pq.pop (pq.pop q)),
          intValue (pq.top (pq.pop q)).freq ≤ intValue z.freq := by
        intro z hz
        apply (compare_false_iff _ _).1
        apply pq.top_min (pq.pop q) z
        exact hp2.symm.subset (List.mem_cons_of_mem _ hz)
      have hP2 := hstep _ _ _ (hperm _ _ hall hP) hx hy
      have hpush := pq.contents_push (pq.pop (pq.pop q))
        (mkInternal (((pq.top q).freq + (pq.top (pq.pop q)).freq) % 2 ^ 32) (pq.top q)
          (pq.top (pq.pop q)))
      have hsz : pq.size (pq.push (pq.pop (pq.pop q))
          (mkInternal (((pq.top q).freq + (pq.top (pq.pop q)).freq) % 2 ^ 32) (pq.top q)
            (pq.top (pq.pop q)))) + 1 = pq.size q := by
        rw [pq.size_eq, hpush.length_eq, ← hl2]; simp
      exact ih _ (by omega) (by omega) (hperm _ _ hpush.symm hP2)
    · rw [if_neg hs]
      have hlen : (pq.contents q).length = 1 := by rw [← pq.size_eq]; omega
      obtain ⟨r, hr⟩ := List.length_eq_one.1 hlen
      exact ⟨r, hr, hr ▸ hP⟩

theorem buildTree_induct (pq : PriorityQueue) (P : List HuffmanNode → Prop)
    (hperm : ∀ l1 l2, l1.Perm l2 → P l1 → P l2)
    (hstep : ∀ x y rest, P (x :: y :: rest) →
      (∀ z ∈ y :: rest, intValue x.freq ≤ intValue z.freq) →
      (∀ z ∈ rest, intValue y.freq ≤ intValue z.freq) →
      P (mkInternal ((x.freq + y.freq) % 2 ^ 32) x y :: rest))
    (freq : ByteMap Nat) (root0 : HuffmanNode) (h2 : 2 ≤ freq.length)
    (hinit : P (freq.map (fun pair => mkLeaf pair.1 pair.2))) :
    P [buildTree pq freq root0] := by
  unfold buildTree
  have hne : freq.isEmpty = false := by
    cases freq with
    | nil => simp at h2
    | cons p ps => rfl
  rw [hne]
  simp only [Bool.false_eq_true, if_false]
  have hc := contents_foldl_push pq freq pq.empty
  rw [pq.contents_empty, List.append_nil] at hc
  have hsz : pq.size (freq.foldl (fun q pair => pq.push q (mkLeaf pair.1 pair.2)) pq.empty)
      = freq.length := by
    rw [pq.size_eq, hc.length_eq]; simp
  rw [if_neg (by omega)]
  generalize freq.foldl (fun q pair => pq.push q (mkLeaf pair.1 pair.2)) pq.empty = q0
    at hc hsz ⊢
  obtain ⟨r, hr, hPr⟩ := buildLoop_induct pq P hperm hstep (pq.size q0) q0 (by omega)
    (by omega) (hperm _ _ hc.symm hinit)
  rw [contents_singleton_top pq _ r hr]
  exact hPr

theorem freq_le_sum {F : List HuffmanNode} {z : HuffmanNode} (hz : z ∈ F) :
    z.freq ≤ (F.map HuffmanNode.freq).sum :=
  List.le_sum_of_mem (List.mem_map.2 ⟨z, hz, rfl⟩)

/-- The loop invariant principle for a table whose counts sum to less than
`2^31`: no weight and no sum of weights leaves the non-negative `int` range, so
that patterns are values, the comparisons are those of natural numbers and the
sums do not wrap. -/
theorem buildTree_induct_small (pq : PriorityQueue) (P : List HuffmanNode → Prop)
    (hperm : ∀ l1 l2, l1.Perm l2 → P l1 → P l2)
    (hstep : ∀ x y rest, P (x :: y :: rest) → (∀ z ∈ y :: rest, x.freq ≤ z.freq) →
      (∀ z ∈ rest, y.freq ≤ z.freq) → P (mkInternal (x.freq + y.freq) x y :: rest))
    (freq : ByteMap Nat) (root0 : HuffmanNode) (h2 : 2 ≤ freq.length)
    (hb : (freq.map Prod.snd).sum < 2 ^ 31)
    (hinit : P (freq.map (fun pair => mkLeaf pair.1 pair.2))) :
    P [buildTree pq freq root0] := by
  have h := buildTree_induct pq
    (fun F => P F ∧ (F.map HuffmanNode.freq).sum < 2 ^ 31)
    (by
      rintro l1 l2 hp ⟨h1, h3⟩
      exact ⟨hperm _ _ hp h1, by rw [← (hp.map HuffmanNode.freq).sum_eq]; exact h3⟩)
    (by
      rintro x y rest ⟨h1, h3⟩ hx hy
      have hval : ∀ z ∈ x :: y :: rest, intValue z.freq = (z.freq : Int) := by
        intro z hz
        exact intValue_of_lt (lt_of_le_of_lt (freq_le_sum hz) h3)
      have hx1 : ∀ z ∈ y :: rest, x.freq ≤ z.freq := by
        intro z hz
        have := hx z hz
        rw [hval x (by simp), hval z (List.mem_cons_of_mem _ hz)] at this
        exact Int.ofNat_le.1 this
      have hy1 : ∀ z ∈ rest, y.freq ≤ z.freq := by
        intro z hz
        have := hy z hz
        rw [hval y (by simp), hval z (by simp [hz])] at this
        exact Int.ofNat_le.1 this
      have hsum : x.freq + y.freq + (rest.map HuffmanNode.freq).sum < 2 ^ 31 := by
        simp only [List.map_cons, List.sum_cons] at h3
        omega
      have hw : (x.freq + y.freq) % 2 ^ 32 = x.freq + y.freq := wrap_of_lt (by omega)
      rw [hw]
      refine ⟨hstep x y rest h1 hx1 hy1, ?_⟩
      simp only [List.map_cons, List.sum_cons, mkInternal, HuffmanNode.freq]
      exact hsum)
    freq root0 h2
    ⟨hinit, by
      rw [List.map_map]
      have e : (HuffmanNode.freq ∘ fun (pair : Byte × Nat) => mkLeaf pair.1 pair.2) = Prod.snd := by
        funext p
        rfl
      rw [e]
      exact hb⟩
  exact h.1

theorem buildTree_single (pq : PriorityQueue) (k : Byte) (f : Nat) (root0 : HuffmanNode) :
    buildTree pq [(k, f)] root0 = mkInternal f (mkLeaf k f) null := by
  unfold buildTree
  simp only [List.isEmpty_cons, Bool.false_eq_true, if_false, List.foldl_cons, List.foldl_nil]
  have hc : pq.contents (pq.push pq.empty (mkLeaf k f)) = [mkLeaf k f] := by
    have := pq.contents_push pq.empty (mkLeaf k f)
    rw [pq.contents_empty] at this
    exact List.perm_singleton.1 this
  have hs : pq.size (pq.push pq.empty (mkLeaf k f)) = 1 := by rw [pq.size_eq, hc]; rfl
  have ht := contents_singleton_top pq _ _ hc
  rw [if_pos hs, ht]
  have hpop : pq.contents (pq.pop (pq.push pq.empty (mkLeaf k f))) = [] := by
    have := pq.contents_pop _ (by rw [hc]; simp : pq.contents (pq.push pq.empty (mkLeaf k f)) ≠ [])
    rw [hc, ht] at this
    have hl := this.length_eq
    simp at hl
    exact hl
  have hc2 : pq.contents (pq.push (pq.pop (pq.push pq.empty (mkLeaf k f)))
      (mkInternal (mkLeaf k f).freq (mkLeaf k f) null))
      = [mkInternal (mkLeaf k f).freq (mkLeaf k f) null] := by
    have := pq.contents_push (pq.pop (pq.push pq.empty (mkLeaf k f)))
      (mkInternal (mkLeaf k f).freq (mkLeaf k f) null)
    rw [hpop] at this
    exact List.perm_singleton.1 this
  have hs2 : pq.size (pq.push (pq.pop (pq.push pq.empty (mkLeaf k f)))
      (mkInternal (mkLeaf k f).freq (mkLeaf k f) null)) = 1 := by rw [pq.size_eq, hc2]; rfl
  rw [hs2]
  have hl : buildLoop pq 1 (pq.push (pq.pop (pq.push pq.empty (mkLeaf k f)))
      (mkInternal (mkLeaf k f).freq (mkLeaf k f) null))
      = pq.push (pq.pop (pq.push pq.empty (mkLeaf k f)))
      (mkInternal (mkLeaf k f).freq (mkLeaf k f) null) := by
    unfold buildLoop
    rw [if_neg (by omega)]
  rw [hl, contents_singleton_top pq _ _ hc2]
  rfl

theorem ByteMap.find_set {V : Type} (m : ByteMap V) (k : Byte) (v : V) (k1 : Byte) :
    ByteMap.find (ByteMap.set m k v) k1 = if k1 = k then some v else ByteMap.find m k1 := by
  induction m with
  | nil => simp [ByteMap.set, ByteMap.find]
  | cons p ps ih =>
    obtain ⟨kp, vp⟩ := p
    unfold ByteMap.set
    by_cases h1 : k = kp
    · subst h1
      simp only [if_true, ByteMap.find]
      by_cases h2 : k1 = k <;> simp [h2]
    · rw [if_neg h1]
      by_cases h2 : k < kp
      · rw [if_pos h2]
        simp only [ByteMap.find]
      · rw [if_neg h2]
        simp only [ByteMap.find, ih]
        by_cases h3 : k1 = kp
        · have : k1 ≠ k := by rw [h3]; exact fun h => h1 h.symm
          simp [h3, this, h1, Ne.symm h1]
        · simp [h3]

theorem ByteMap.mem_set {V : Type} (m : ByteMap V) (k : Byte) (v : V) (p : Byte × V)
    (h : p ∈ ByteMap.set m k v) : p = (k, v) ∨ p ∈ m := by
  induction m with
  | nil => left; simpa [ByteMap.set] using h
  | cons q qs ih =>
    obtain ⟨kq, vq⟩ := q
    unfold ByteMap.set at h
    by_cases h1 : k = kq
    · rw [if_pos h1] at h
      rcases List.mem_cons.1 h with h2 | h2
      · left; rw [h2, h1]
      · right; exact List.mem_cons_of_mem _ h2
    · rw [if_neg h1] at h
      by_cases h2 : k < kq
      · rw [if_pos h2] at h
        rcases List.mem_cons.1 h with h3 | h3
        · left; exact h3
        · right; exact h3
      · rw [if_neg h2] at h
        rcases List.mem_cons.1 h with h3 | h3
        · right; rw [h3]; exact List.mem_cons_self _ _
        · rcases ih h3 with h4 | h4
          · left; exact h4
          · right; exact List.mem_cons_of_mem _ h4

theorem ByteMap.keys_set_sorted {V : Type} (m : ByteMap V) (k : Byte) (v : V)
    (hs : (ByteMap.keys m).Sorted (· < ·)) :
    (ByteMap.keys (ByteMap.set m k v)).Sorted (· < ·)
      ∧ ∀ k1, k1 ∈ ByteMap.keys (ByteMap.set m k v) ↔ (k1 = k ∨ k1 ∈ ByteMap.keys m) := by
  induction m with
  | nil => simp [ByteMap.set, ByteMap.keys]
  | cons q qs ih =>
    obtain ⟨kq, vq⟩ := q
    simp only [ByteMap.keys, List.map_cons, List.sorted_cons] at hs
    have ih1 := ih hs.2
    unfold ByteMap.set
    by_cases h1 : k = kq
    · subst h1
      rw [if_pos rfl]
      simp only [ByteMap.keys, List.map_cons, List.sorted_cons, List.mem_cons]
      exact ⟨hs, fun k1 => by tauto⟩
    · rw [if_neg h1]
      by_cases h2 : k < kq
      · rw [if_pos h2]
        simp only [ByteMap.keys, List.map_cons, List.sorted_cons, List.mem_cons]
        refine ⟨⟨?_, hs⟩, fun _ => trivial⟩
        intro b hb
        rcases hb with hb | hb
        · rw [hb]; exact h2
        · exact lt_trans h2 (hs.1 b hb)
      · rw [if_neg h2]
        simp only [ByteMap.keys, List.map_cons, List.sorted_cons, List.mem_cons]
        refine ⟨⟨?_, ih1.1⟩, ?_⟩
        · intro b hb
          rcases (ih1.2 b).1 hb with hb1 | hb1
          · rw [hb1]
            exact lt_of_le_of_ne (not_lt.1 h2) (Ne.symm h1)
          · exact hs.1 b hb1
        · intro k1
          have := ih1.2 k1
          simp only [ByteMap.keys] at this
          rw [this]
          tauto

theorem ByteMap.find_isSome_iff {V : Type} (m : ByteMap V) (k : Byte) :
    (ByteMap.find m k).isSome ↔ k ∈ ByteMap.keys m := by
  induction m with
  | nil => simp [ByteMap.find, ByteMap.keys]
  | cons q qs ih =>
    obtain ⟨kq, vq⟩ := q
    simp only [ByteMap.find, ByteMap.keys, List.map_cons, List.mem_cons]
    by_cases h : k = kq
    · simp [h]
    · simp only [h, if_false, false_or]
      exact ih

theorem ByteMap.find_mem {V : Type} (m : ByteMap V) (k : Byte) (v : V)
    (h : ByteMap.find m k = some v) : (k, v) ∈ m := by
  induction m with
  | nil => simp [ByteMap.find] at h
  | cons q qs ih =>
    obtain ⟨kq, vq⟩ := q
    simp only [ByteMap.find] at h
    by_cases h1 : k = kq
    · rw [if_pos h1] at h
      injection h with h2
      rw [h1, h2]
      exact List.mem_cons_self _ _
    · rw [if_neg h1] at h
      exact List.mem_cons_of_mem _ (ih h)

theorem ByteMap.mem_find {V : Type} (m : ByteMap V) (k : Byte) (v : V)
    (hs : (ByteMap.keys m).Sorted (· < ·)) (h : (k, v) ∈ m) : ByteMap.find m k = some v := by
  induction m with
  | nil => cases h
  | cons q qs ih =>
    obtain ⟨kq, vq⟩ := q
    simp only [ByteMap.keys, List.map_cons, List.sorted_cons] at hs
    simp only [ByteMap.find]
    rcases List.mem_cons.1 h with h1 | h1
    · injection h1 with h2 h3
      rw [if_pos h2, h3]
    · have hk : k ∈ qs.map Prod.fst := List.mem_map.2 ⟨(k, v), h1, rfl⟩
      have hlt := hs.1 k hk
      rw [if_neg (ne_of_gt hlt)]
      exact ih hs.2 h1

theorem ByteMap.index_fst {V : Type} (m : ByteMap V) (k : Byte) (d : V) :
    (ByteMap.index m k d).1 = (ByteMap.find m k).getD d := by
  unfold ByteMap.index
  cases ByteMap.find m k <;> rfl

theorem ByteMap.find_index_snd {V : Type} (m : ByteMap V) (k : Byte) (d : V) (k1 : Byte) :
    ByteMap.find (ByteMap.index m k d).2 k1
      = if k1 = k then some ((ByteMap.find m k).getD d) else ByteMap.find m k1 := by
  unfold ByteMap.index
  cases h : ByteMap.find m k with
  | none =>
    simp only [ByteMap.find_set, Option.getD_none]
  | some v =>
    simp only [Option.getD_some]
    by_cases h1 : k1 = k
    · rw [if_pos h1, h1, h]
    · rw [if_neg h1]

theorem ByteMap.index_snd_of_find {V : Type} (m : ByteMap V) (k : Byte) (d v : V)
    (h : ByteMap.find m k = some v) : ByteMap.index m k d = (v, m) := by
  unfold ByteMap.index
  rw [h]

theorem ByteMap.keys_index_sorted {V : Type} (m : ByteMap V) (k : Byte) (d : V)
    (hs : (ByteMap.keys m).Sorted (· < ·)) :
    (ByteMap.keys (ByteMap.index m k d).2).Sorted (· < ·)
      ∧ ∀ k1, k1 ∈ ByteMap.keys (ByteMap.index m k d).2 ↔ (k1 = k ∨ k1 ∈ ByteMap.keys m) := by
  unfold ByteMap.index
  cases h : ByteMap.find m k with
  | none => exact ByteMap.keys_set_sorted m k d hs
  | some v =>
    refine ⟨hs, fun k1 => ⟨fun h1 => Or.inr h1, fun h1 => ?_⟩⟩
    rcases h1 with h1 | h1
    · rw [h1]
      exact (ByteMap.find_isSome_iff m k).1 (by rw [h]; rfl)
    · exact h1

theorem countStep_find (m : ByteMap Nat) (b k : Byte) :
    ByteMap.find (ByteMap.set (ByteMap.index m b 0).2 b
        (((ByteMap.index m b 0).1 + 1) % 2 ^ 32)) k
      = if k = b then some (((ByteMap.find m b).getD 0 + 1) % 2 ^ 32)
        else ByteMap.find m k := by
  rw [ByteMap.find_set, ByteMap.index_fst, ByteMap.find_index_snd]
  by_cases h : k = b <;> simp [h]

theorem countStep_keys (m : ByteMap Nat) (b : Byte) (hs : (ByteMap.keys m).Sorted (· < ·)) :
    (ByteMap.keys (ByteMap.set (ByteMap.index m b 0).2 b
        (((ByteMap.index m b 0).1 + 1) % 2 ^ 32))).Sorted (· < ·)
      ∧ ∀ k, k ∈ ByteMap.keys (ByteMap.set (ByteMap.index m b 0).2 b
          (((ByteMap.index m b 0).1 + 1) % 2 ^ 32)) ↔ (k = b ∨ k ∈ ByteMap.keys m) := by
  have h1 := ByteMap.keys_index_sorted m b 0 hs
  have h2 := ByteMap.keys_set_sorted (ByteMap.index m b 0).2 b
    (((ByteMap.index m b 0).1 + 1) % 2 ^ 32) h1.1
  refine ⟨h2.1, fun k => ?_⟩
  rw [h2.2 k, h1.2 k]
  tauto

theorem countFold_spec (data : List Byte) :
    ∀ (m : ByteMap Nat), (ByteMap.keys m).Sorted (· < ·) →
      (ByteMap.keys (data.foldl (fun freq byte =>
          let r := ByteMap.index freq byte 0
          ByteMap.set r.2 byte ((r.1 + 1) % 2 ^ 32)) m)).Sorted (· < ·)
      ∧ (∀ k, k ∈ ByteMap.keys (data.foldl (fun freq byte =>
          let r := ByteMap.index freq byte 0
          ByteMap.set r.2 byte ((r.1 + 1) % 2 ^ 32)) m) ↔ (k ∈ data ∨ k ∈ ByteMap.keys m))
      ∧ (∀ k, ByteMap.find (data.foldl (fun freq byte =>
          let r := ByteMap.index freq byte 0
          ByteMap.set r.2 byte ((r.1 + 1) % 2 ^ 32)) m) k
          = if data.count k = 0 then ByteMap.find m k
            else some (((ByteMap.find m k).getD 0 + data.count k) % 2 ^ 32)) := by
  induction data with
  | nil => intro m hs; simp [hs]
  | cons b bs ih =>
    intro m hs
    rw [List.foldl_cons]
    have hk := countStep_keys m b hs
    obtain ⟨i1, i2, i3⟩ := ih _ hk.1
    refine ⟨i1, ?_, ?_⟩
    · intro k
      rw [i2 k, hk.2 k, List.mem_cons]
      tauto
    · intro k
      rw [i3 k, countStep_find]
      by_cases hkb : k = b
      · subst hkb
        simp only [if_true, List.count_cons_self, Nat.succ_ne_zero, if_false, Option.getD_some]
        by_cases hc : List.count k bs = 0
        · simp [hc]
        · simp only [hc, if_false, Option.some.injEq]
          omega
      · have hc : List.count k (b :: bs) = List.count k bs := by
          rw [List.count_cons]
          simp [Ne.symm hkb]
        rw [if_neg hkb, hc]

theorem countFrequencies_sorted (data : List Byte) :
    (ByteMap.keys (countFrequencies data)).Sorted (· < ·) :=
  (countFold_spec data [] (by simp [ByteMap.keys])).1

theorem countFrequencies_keys (data : List Byte) (k : Byte) :
    k ∈ ByteMap.keys (countFrequencies data) ↔ k ∈ data := by
  have := (countFold_spec data [] (by simp [ByteMap.keys])).2.1 k
  simpa [ByteMap.keys] using this

theorem countFrequencies_find (data : List Byte) (k : Byte) :
    ByteMap.find (countFrequencies data) k
      = if data.count k = 0 then none else some (data.count k % 2 ^ 32) := by
  have := (countFold_spec data [] (by simp [ByteMap.keys])).2.2 k
  simpa [ByteMap.find] using this

theorem isLeaf_node_iff (b : Byte) (f : Nat) (l r : HuffmanNode) :
    (node b f l r).isLeaf = true ↔ l = null ∧ r = null := by
  cases l <;> cases r <;> simp [isLeaf]

theorem generateCodes_eq (t : HuffmanNode) :
    ∀ (code : List Char) (codes : ByteMap (List Char)),
      (code ≠ [] ∨ t.isLeaf = false) →
      generateCodes t code codes
        = (paths t code).foldl (fun m p => ByteMap.set m p.1 p.2) codes := by
  induction t with
  | null => intro code codes _; simp [generateCodes, paths]
  | node b f l r ihl ihr =>
    intro code codes h
    unfold generateCodes paths
    by_cases hl : (node b f l r).isLeaf = true
    · rw [if_pos hl, if_pos hl]
      have hc : code ≠ [] := by
        rcases h with h | h
        · exact h
        · rw [hl] at h; cases h
      have he : code.isEmpty = false := by
        cases code with
        | nil => exact absurd rfl hc
        | cons c cs => rfl
      simp [he]
    · rw [if_neg hl, if_neg hl, List.foldl_append]
      rw [ihl (code ++ ['0']) codes (Or.inl (by simp))]
      rw [ihr (code ++ ['1']) _ (Or.inl (by simp))]

theorem paths_keys (t : HuffmanNode) (code : List Char) :
    (paths t code).map Prod.fst = leafBytes t := by
  induction t generalizing code with
  | null => simp [paths, leafBytes]
  | node b f l r ihl ihr =>
    unfold paths leafBytes
    by_cases hl : (node b f l r).isLeaf = true
    · rw [if_pos hl, if_pos hl]; rfl
    · rw [if_neg hl, if_neg hl, List.map_append, ihl, ihr]

theorem paths_reaches (t : HuffmanNode) :
    ∀ (code : List Char) (k : Byte) (c : List Char), (k, c) ∈ paths t code →
      ∃ p, c = code ++ p ∧ Reaches t p k := by
  induction t with
  | null => intro code k c h; simp [paths] at h
  | node b f l r ihl ihr =>
    intro code k c h
    unfold paths at h
    by_cases hl : (node b f l r).isLeaf = true
    · rw [if_pos hl] at h
      have hlr := (isLeaf_node_iff b f l r).1 hl
      simp only [List.mem_singleton, Prod.mk.injEq] at h
      refine ⟨[], by simp [h.2], ?_⟩
      rw [hlr.1, hlr.2, h.1]
      exact Reaches.leaf b f
    · rw [if_neg hl] at h
      have hl1 : (node b f l r).isLeaf = false := by simpa using hl
      rcases List.mem_append.1 h with h1 | h1
      · obtain ⟨p, hp, hr⟩ := ihl _ k c h1
        exact ⟨'0' :: p, by simp [hp], Reaches.left b f l r p k hl1 hr⟩
      · obtain ⟨p, hp, hr⟩ := ihr _ k c h1
        exact ⟨'1' :: p, by simp [hp], Reaches.right b f l r p k hl1 hr⟩

theorem HuffmanNode.Reaches.prefix_eq {t : HuffmanNode} {p1 : List Char} {k1 : Byte}
    (h1 : Reaches t p1 k1) :
    ∀ {p2 : List Char} {k2 : Byte}, Reaches t p2 k2 → p1 <+: p2 → p1 = p2 ∧ k1 = k2 := by
  induction h1 with
  | leaf b f =>
    intro p2 k2 h2 _
    cases h2 with
    | leaf => exact ⟨rfl, rfl⟩
    | left _ _ _ _ _ _ hn _ => simp [isLeaf] at hn
    | right _ _ _ _ _ _ hn _ => simp [isLeaf] at hn
  | left b f l r p k hn hr ih =>
    intro p2 k2 h2 hp
    cases h2 with
    | leaf => simp [isLeaf] at hn
    | left _ _ _ _ q _ _ hq =>
      have hpq : p <+: q := by simpa using hp
      obtain ⟨e1, e2⟩ := ih hq hpq
      exact ⟨by rw [e1], e2⟩
    | right _ _ _ _ q _ _ hq =>
      have := List.cons_prefix_cons.1 hp
      simp at this
  | right b f l r p k hn hr ih =>
    intro p2 k2 h2 hp
    cases h2 with
    | leaf => simp [isLeaf] at hn
    | right _ _ _ _ q _ _ hq =>
      have hpq : p <+: q := by simpa using hp
      obtain ⟨e1, e2⟩ := ih hq hpq
      exact ⟨by rw [e1], e2⟩
    | left _ _ _ _ q _ _ hq =>
      have := List.cons_prefix_cons.1 hp
      simp at this

theorem HuffmanNode.Reaches.path_ne_nil {t : HuffmanNode} {p : List Char} {k : Byte}
    (h : Reaches t p k) (hn : t.isLeaf = false) : p ≠ [] := by
  cases h with
  | leaf => simp [isLeaf] at hn
  | left => simp
  | right => simp

theorem foldl_set_mem {V : Type} (entries : List (Byte × V)) (m : ByteMap V) (p : Byte × V)
    (h : p ∈ entries.foldl (fun m p => ByteMap.set m p.1 p.2) m) : p ∈ m ∨ p ∈ entries := by
  induction entries generalizing m with
  | nil => left; exact h
  | cons e es ih =>
    rw [List.foldl_cons] at h
    rcases ih _ h with h1 | h1
    · rcases ByteMap.mem_set m e.1 e.2 p h1 with h2 | h2
      · right; rw [h2]; exact List.mem_cons_self _ _
      · left; exact h2
    · right; exact List.mem_cons_of_mem _ h1

theorem foldl_set_find {V : Type} (entries : List (Byte × V)) (m : ByteMap V) (k : Byte)
    (hk : k ∈ entries.map Prod.fst) :
    ∃ v, ByteMap.find (entries.foldl (fun m p => ByteMap.set m p.1 p.2) m) k = some v
      ∧ (k, v) ∈ entries := by
  induction entries generalizing m with
  | nil => simp at hk
  | cons e es ih =>
    rw [List.foldl_cons]
    by_cases h : k ∈ es.map Prod.fst
    · obtain ⟨v, h1, h2⟩ := ih (ByteMap.set m e.1 e.2) h
      exact ⟨v, h1, List.mem_cons_of_mem _ h2⟩
    · have he : k = e.1 := by
        simp only [List.map_cons, List.mem_cons] at hk
        rcases hk with hk | hk
        · exact hk
        · exact absurd hk h
      have key : ∀ (es : List (Byte × V)) (m : ByteMap V), k ∉ es.map Prod.fst →
          ByteMap.find (es.foldl (fun m p => ByteMap.set m p.1 p.2) m) k = ByteMap.find m k := by
        intro es
        induction es with
        | nil => intro m _; rfl
        | cons x xs ihx =>
          intro m hx
          simp only [List.map_cons, List.mem_cons, not_or] at hx
          rw [List.foldl_cons, ihx _ hx.2, ByteMap.find_set, if_neg hx.1]
      refine ⟨e.2, ?_, ?_⟩
      · rw [key es _ h, ByteMap.find_set, if_pos he]
      · rw [he]; exact List.mem_cons_self _ _

theorem leaves_keys (t : HuffmanNode) : (leaves t).map Prod.fst = leafBytes t := by
  induction t with
  | null => simp [leaves, leafBytes]
  | node b f l r ihl ihr =>
    unfold leaves leafBytes
    by_cases hl : (node b f l r).isLeaf = true
    · rw [if_pos hl, if_pos hl]; rfl
    · rw [if_neg hl, if_neg hl, List.map_append, ihl, ihr]

theorem HuffmanNode.Full.leaves_ne_nil {t : HuffmanNode} (h : Full t) : leaves t ≠ [] := by
  induction h with
  | leaf b f => simp [leaves, isLeaf]
  | internal b f l r hl hr ihl ihr =>
    unfold leaves
    rw [hl.isLeaf_internal]
    simp [ihl]

theorem leaves_mkInternal {x : HuffmanNode} (hx : Full x) (f : Nat) (y : HuffmanNode) :
    leaves (mkInternal f x y) = leaves x ++ leaves y := by
  unfold mkInternal
  conv_lhs => unfold leaves
  rw [hx.isLeaf_internal]
  simp

theorem buildTree_full (pq : PriorityQueue) (freq : ByteMap Nat) (root0 : HuffmanNode)
    (h2 : 2 ≤ freq.length) :
    Full (buildTree pq freq root0) ∧ (leaves (buildTree pq freq root0)).Perm freq := by
  have h := buildTree_induct pq
    (fun F => (∀ t ∈ F, Full t) ∧ (F.flatMap leaves).Perm freq)
    (fun l1 l2 hp hP => ⟨fun t ht => hP.1 t (hp.symm.subset ht),
      (List.Perm.flatMap_right leaves hp.symm).trans hP.2⟩)
    (by
      intro x y rest hP _ _
      have hx : Full x := hP.1 x (by simp)
      have hy : Full y := hP.1 y (by simp)
      refine ⟨?_, ?_⟩
      · intro t ht
        rcases List.mem_cons.1 ht with h1 | h1
        · rw [h1]; exact Full.internal _ _ _ _ hx hy
        · exact hP.1 t (by simp [h1])
      · have := hP.2
        simp only [List.flatMap_cons] at this ⊢
        rw [leaves_mkInternal hx, List.append_assoc]
        exact this)
    freq root0 h2
    (by
      refine ⟨?_, ?_⟩
      · intro t ht
        obtain ⟨p, _, hp⟩ := List.mem_map.1 ht
        rw [← hp]
        exact Full.leaf _ _
      · have e : ∀ (m : ByteMap Nat),
            (m.map (fun pair => mkLeaf pair.1 pair.2)).flatMap leaves = m := by
          intro m
          induction m with
          | nil => rfl
          | cons p ps ih =>
            simp only [List.map_cons, List.flatMap_cons, ih]
            simp [leaves, mkLeaf, isLeaf]
        rw [e])
  simp only [List.mem_singleton, forall_eq, List.flatMap_cons, List.flatMap_nil,
    List.append_nil] at h
  exact h

theorem buildTree_not_leaf (pq : PriorityQueue) (freq : ByteMap Nat) (root0 : HuffmanNode)
    (h2 : 2 ≤ freq.length) : (buildTree pq freq root0).isLeaf = false := by
  obtain ⟨hf, hp⟩ := buildTree_full pq freq root0 h2
  generalize buildTree pq freq root0 = t at hf hp
  cases hf with
  | leaf b f =>
    have := hp.length_eq
    simp [leaves, isLeaf] at this
    omega
  | internal b f l r hl hr => exact hl.isLeaf_internal b f r

theorem full_paths_of_mem {t : HuffmanNode} (k : Byte) (hk : k ∈ leafBytes t)
    (code : List Char) : ∃ c, (k, c) ∈ paths t code := by
  rw [← paths_keys t code] at hk
  obtain ⟨p, hp, hpk⟩ := List.mem_map.1 hk
  exact ⟨p.2, by rw [← hpk]; exact hp⟩

/-- What the encoder and the decoder need of the tree and the code table. -/
theorem tree_codes_spec (pq : PriorityQueue) (root0 : HuffmanNode) (data : List Byte)
    (hne : data ≠ []) :
    (buildTree pq (countFrequencies data) root0).isLeaf = false
      ∧ buildTree pq (countFrequencies data) root0 ≠ null
      ∧ (∀ k c, (k, c) ∈ generateCodes (buildTree pq (countFrequencies data) root0) [] [] →
          Reaches (buildTree pq (countFrequencies data) root0) c k)
      ∧ (∀ k ∈ data, ∃ c,
          ByteMap.find (generateCodes (buildTree pq (countFrequencies data) root0) [] []) k
            = some c
          ∧ Reaches (buildTree pq (countFrequencies data) root0) c k) := by
  have hkeys := countFrequencies_keys data
  have hlen : 1 ≤ (countFrequencies data).length := by
    cases data with
    | nil => exact absurd rfl hne
    | cons b bs =>
      have := (hkeys b).2 (List.mem_cons_self _ _)
      cases hcf : countFrequencies (b :: bs) with
      | nil => rw [hcf] at this; simp [ByteMap.keys] at this
      | cons p ps => simp
  have main : ∀ root, root.isLeaf = false → root ≠ null →
      (∀ k ∈ data, k ∈ leafBytes root) →
      (∀ k c, (k, c) ∈ generateCodes root [] [] → Reaches root c k)
      ∧ (∀ k ∈ data, ∃ c, ByteMap.find (generateCodes root [] []) k = some c
          ∧ Reaches root c k) := by
    intro root hl hn hmem
    rw [generateCodes_eq root [] [] (Or.inr hl)]
    refine ⟨?_, ?_⟩
    · intro k c hkc
      rcases foldl_set_mem _ _ _ hkc with h1 | h1
      · cases h1
      · obtain ⟨p, hp, hr⟩ := paths_reaches root [] k c h1
        rw [hp]; exact hr
    · intro k hk
      have hk1 : k ∈ (paths root []).map Prod.fst := by
        rw [paths_keys]; exact hmem k hk
      obtain ⟨c, hc1, hc2⟩ := foldl_set_find (paths root []) [] k hk1
      obtain ⟨p, hp, hr⟩ := paths_reaches root [] k c hc2
      exact ⟨c, hc1, by rw [hp]; exact hr⟩
  by_cases h2 : 2 ≤ (countFrequencies data).length
  · obtain ⟨hf, hp⟩ := buildTree_full pq (countFrequencies data) root0 h2
    have hl := buildTree_not_leaf pq (countFrequencies data) root0 h2
    have hm := main _ hl hf.ne_null (by
      intro k hk
      rw [← leaves_keys]
      have := (hkeys k).2 hk
      exact (hp.map Prod.fst).symm.subset this)
    exact ⟨hl, hf.ne_null, hm.1, hm.2⟩
  · have h1 : (countFrequencies data).length = 1 := by omega
    obtain ⟨⟨k0, f0⟩, hk0⟩ := List.length_eq_one.1 h1
    rw [hk0, buildTree_single]
    have hm := main (mkInternal f0 (mkLeaf k0 f0) null) (by simp [mkInternal, mkLeaf, isLeaf])
      (by simp [mkInternal]) (by
        intro k hk
        have := (hkeys k).2 hk
        rw [hk0] at this
        simp only [ByteMap.keys, List.map_cons, List.map_nil, List.mem_singleton] at this
        rw [this]
        simp [leafBytes, mkInternal, mkLeaf, isLeaf])
    exact ⟨by simp [mkInternal, mkLeaf, isLeaf], by simp [mkInternal], hm.1, hm.2⟩

/-- C4: for a non-empty input, every code of the table made by `buildTree` and
`generateCodes` has length at least 1 and is a prefix of the code of no other
byte. -/
theorem code_table_prefix_free (pq : PriorityQueue) (root0 : HuffmanNode) (data : List Byte)
    (k1 : Byte) (c1 : List Char) (hne : data ≠ [])
    (h1 : (k1, c1) ∈ generateCodes (buildTree pq (countFrequencies data) root0) [] []) :
    1 ≤ c1.length
      ∧ ∀ k2 c2, (k2, c2) ∈ generateCodes (buildTree pq (countFrequencies data) root0) [] [] →
          k1 ≠ k2 → ¬ c1 <+: c2 := by
  obtain ⟨hl, -, hr, -⟩ := tree_codes_spec pq root0 data hne
  have r1 := hr k1 c1 h1
  refine ⟨?_, ?_⟩
  · have := r1.path_ne_nil hl
    cases c1 with
    | nil => exact absurd rfl this
    | cons c cs => simp
  · intro k2 c2 h2 hk hp
    exact hk (r1.prefix_eq (hr k2 c2 h2) hp).2

set_option maxRecDepth 100000 in
theorem code_table_prefix_free_witness :
    1 ≤ (['1'] : List Char).length
      ∧ ∀ k2 c2, (k2, c2) ∈ generateCodes
            (buildTree listQueue (countFrequencies [97, 97, 97, 98]) null) [] [] →
          (97 : Byte) ≠ k2 → ¬ ['1'] <+: c2 :=
  code_table_prefix_free listQueue null [97, 97, 97, 98] 97 ['1'] (by decide) (by decide)

theorem sized_fold (codes : ByteMap (List Char)) (data : List Byte)
    (h : ∀ b ∈ data, ∃ c, ByteMap.find codes b = some c) (n : Nat) :
    data.foldl (fun (st : Nat × ByteMap (List Char)) byte =>
        let r := ByteMap.index st.2 byte []
        (st.1 + r.1.length, r.2)) (n, codes)
      = (n + payloadLength codes data, codes) := by
  induction data generalizing n with
  | nil => simp [payloadLength]
  | cons b bs ih =>
    obtain ⟨c, hc⟩ := h b (List.mem_cons_self _ _)
    rw [List.foldl_cons]
    simp only [ByteMap.index_snd_of_find codes b [] c hc]
    rw [ih (fun x hx => h x (List.mem_cons_of_mem _ hx))]
    simp only [payloadLength, List.map_cons, List.sum_cons, codeOf, hc, Option.getD_some,
      Nat.add_assoc]

theorem coded_fold (codes : ByteMap (List Char)) (data : List Byte)
    (h : ∀ b ∈ data, ∃ c, ByteMap.find codes b = some c) (bits : List Bool) :
    data.foldl (fun (st : List Bool × ByteMap (List Char)) byte =>
        let r := ByteMap.index st.2 byte []
        (r.1.foldl (fun bits c => bits ++ [decide (c = '1')]) st.1, r.2)) (bits, codes)
      = (bits ++ payloadBits codes data, codes) := by
  induction data generalizing bits with
  | nil => simp [payloadBits]
  | cons b bs ih =>
    obtain ⟨c, hc⟩ := h b (List.mem_cons_self _ _)
    rw [List.foldl_cons]
    simp only [ByteMap.index_snd_of_find codes b [] c hc]
    rw [foldl_push_eq_append, ih (fun x hx => h x (List.mem_cons_of_mem _ hx))]
    simp only [payloadBits, List.flatMap_cons, codeOf, hc, Option.getD_some, List.append_assoc]

theorem payloadBits_length (codes : ByteMap (List Char)) (data : List Byte) :
    (payloadBits codes data).length = payloadLength codes data := by
  induction data with
  | nil => rfl
  | cons b bs ih =>
    simp only [payloadBits, payloadLength, List.flatMap_cons, List.length_append,
      List.length_map, List.map_cons, List.sum_cons] at ih ⊢
    rw [ih]

theorem encode_eq (pq : PriorityQueue) (s : HuffmanEncoder) (data : List Byte)
    (hne : data ≠ []) :
    encode pq s data
      = (bitsToBytes (bitsMSB 32 (serializeTree (treeOf pq s data) []).length
            ++ serializeTree (treeOf pq s data) []
            ++ bitsMSB 32 (payloadLength (codesOf pq s data) data)
            ++ payloadBits (codesOf pq s data) data),
          ⟨treeOf pq s data, codesOf pq s data, countFrequencies data⟩) := by
  unfold encode
  have he : data.isEmpty = false := by
    cases data with
    | nil => exact absurd rfl hne
    | cons b bs => rfl
  rw [he]
  simp only [Bool.false_eq_true, if_false]
  have hfind : ∀ b ∈ data, ∃ c, ByteMap.find (codesOf pq s data) b = some c := by
    intro b hb
    obtain ⟨c, hc, -⟩ := (tree_codes_spec pq s.root data hne).2.2.2 b hb
    exact ⟨c, hc⟩
  have hs := sized_fold (codesOf pq s data) data hfind 0
  have hc := coded_fold (codesOf pq s data) data hfind
  simp only [codesOf, treeOf] at hs hc ⊢
  rw [hs]
  simp only [pushBitsMSB_eq, Nat.zero_add, List.nil_append]
  rw [hc]

theorem decodeLoop_eq_walk (bits : List Bool) (root : HuffmanNode) :
    ∀ (n pos : Nat) (current : HuffmanNode) (decoded : List Byte),
      decodeLoop bits root n pos current decoded
        = walk root ((bits.drop pos).take n) current decoded := by
  intro n
  induction n with
  | zero => intro pos current decoded; simp [decodeLoop, walk]
  | succ n ih =>
    intro pos current decoded
    unfold decodeLoop
    by_cases h : pos ≥ bits.length
    · rw [if_pos h, List.drop_eq_nil_of_le h]
      simp [walk]
    · have hlt : pos < bits.length := by omega
      rw [if_neg h, readBit_of_lt bits pos hlt, drop_eq_get_cons bits pos hlt,
        List.take_succ_cons]
      simp only [walk, Except.bind, bind]
      cases follow current (bits.get ⟨pos, hlt⟩) with
      | error e => rfl
      | ok next =>
        simp only
        by_cases h1 : next.isNull = true
        · simp [h1]
        · by_cases h2 : next.isLeaf = true
          · simp only [h1, h2, if_true, Bool.false_eq_true, if_false]
            exact ih _ _ _
          · simp only [h1, h2, Bool.false_eq_true, if_false]
            exact ih _ _ _

theorem HuffmanNode.Reaches.isNull_false {t : HuffmanNode} {p : List Char} {k : Byte}
    (h : Reaches t p k) : t.isNull = false := by
  cases h <;> rfl

theorem HuffmanNode.Reaches.leaf_inv {t : HuffmanNode} {p : List Char} {k : Byte}
    (h : Reaches t p k) (hl : t.isLeaf = true) : p = [] ∧ t.byte = k := by
  cases h with
  | leaf => exact ⟨rfl, rfl⟩
  | left _ _ _ _ _ _ hn _ => rw [hn] at hl; cases hl
  | right _ _ _ _ _ _ hn _ => rw [hn] at hl; cases hl

theorem walk_symbol (root : HuffmanNode) {cur : HuffmanNode} {p : List Char} {k : Byte}
    (h : Reaches cur p k) :
    cur.isLeaf = false → ∀ (rest : List Bool) (dec : List Byte),
      walk root (p.map (fun c => decide (c = '1')) ++ rest) cur dec
        = walk root rest root (dec ++ [k]) := by
  induction h with
  | leaf b f => intro hl; simp [isLeaf] at hl
  | left b f l r p k hn hr ih =>
    intro _ rest dec
    simp only [List.map_cons, List.cons_append, walk, follow, Except.bind, bind]
    have : decide ('0' = '1') = false := by decide
    simp only [this, Bool.false_eq_true, if_false, hr.isNull_false]
    by_cases hl : l.isLeaf = true
    · obtain ⟨hp, hb⟩ := hr.leaf_inv hl
      simp [hl, hp, hb]
    · have hl1 : l.isLeaf = false := by simpa using hl
      simp only [hl1, Bool.false_eq_true, if_false]
      exact ih hl1 rest dec
  | right b f l r p k hn hr ih =>
    intro _ rest dec
    simp only [List.map_cons, List.cons_append, walk, follow, Except.bind, bind]
    simp only [decide_True, if_true, hr.isNull_false, Bool.false_eq_true, if_false]
    by_cases hl : r.isLeaf = true
    · obtain ⟨hp, hb⟩ := hr.leaf_inv hl
      simp [hl, hp, hb]
    · have hl1 : r.isLeaf = false := by simpa using hl
      simp only [hl1, Bool.false_eq_true, if_false]
      exact ih hl1 rest dec

theorem walk_incomplete (root : HuffmanNode) {cur : HuffmanNode} {p : List Char} {k : Byte}
    (h : Reaches cur p k) :
    cur.isLeaf = false → ∀ (q : List Char) (dec : List Byte), q <+: p → q ≠ p →
      walk root (q.map (fun c => decide (c = '1'))) cur dec = Except.ok dec := by
  induction h with
  | leaf b f => intro hl; simp [isLeaf] at hl
  | left b f l r p k hn hr ih =>
    intro _ q dec hq hne
    cases q with
    | nil => simp [walk]
    | cons c q1 =>
      obtain ⟨hc, hq1⟩ := List.cons_prefix_cons.1 hq
      subst hc
      have hne1 : q1 ≠ p := fun e => hne (by rw [e])
      simp only [List.map_cons, walk, follow, Except.bind, bind]
      have : decide ('0' = '1') = false := by decide
      simp only [this, Bool.false_eq_true, if_false, hr.isNull_false]
      by_cases hl : l.isLeaf = true
      · obtain ⟨hp, -⟩ := hr.leaf_inv hl
        subst hp
        exact absurd (List.prefix_nil.1 hq1) hne1
      · have hl1 : l.isLeaf = false := by simpa using hl
        simp only [hl1, Bool.false_eq_true, if_false]
        exact ih hl1 q1 dec hq1 hne1
  | right b f l r p k hn hr ih =>
    intro _ q dec hq hne
    cases q with
    | nil => simp [walk]
    | cons c q1 =>
      obtain ⟨hc, hq1⟩ := List.cons_prefix_cons.1 hq
      subst hc
      have hne1 : q1 ≠ p := fun e => hne (by rw [e])
      simp only [List.map_cons, walk, follow, Except.bind, bind]
      simp only [decide_True, if_true, hr.isNull_false, Bool.false_eq_true, if_false]
      by_cases hl : r.isLeaf = true
      · obtain ⟨hp, -⟩ := hr.leaf_inv hl
        subst hp
        exact absurd (List.prefix_nil.1 hq1) hne1
      · have hl1 : r.isLeaf = false := by simpa using hl
        simp only [hl1, Bool.false_eq_true, if_false]
        exact ih hl1 q1 dec hq1 hne1

theorem walk_payload (root : HuffmanNode) (codes : ByteMap (List Char)) (hl : root.isLeaf = false)
    (data : List Byte) (h : ∀ b ∈ data, Reaches root (codeOf codes b) b) :
    ∀ (rest : List Bool) (dec : List Byte),
      walk root (payloadBits codes data ++ rest) root dec = walk root rest root (dec ++ data) := by
  induction data with
  | nil => intro rest dec; simp [payloadBits]
  | cons b bs ih =>
    intro rest dec
    have hb := h b (List.mem_cons_self _ _)
    have e : payloadBits codes (b :: bs)
        = (codeOf codes b).map (fun c => decide (c = '1')) ++ payloadBits codes bs := by
      simp [payloadBits]
    rw [e, List.append_assoc, walk_symbol root hb hl,
      ih (fun x hx => h x (List.mem_cons_of_mem _ hx))]
    simp

theorem walk_payload_take (root : HuffmanNode) (codes : ByteMap (List Char))
    (hl : root.isLeaf = false) (data : List Byte)
    (h : ∀ b ∈ data, Reaches root (codeOf codes b) b) :
    ∀ (m : Nat) (dec : List Byte),
      ∃ out, walk root ((payloadBits codes data).take m) root dec = Except.ok (dec ++ out)
        ∧ out <+: data := by
  induction data with
  | nil => intro m dec; exact ⟨[], by simp [payloadBits, walk], List.prefix_refl _⟩
  | cons b bs ih =>
    intro m dec
    have hb := h b (List.mem_cons_self _ _)
    have e : payloadBits codes (b :: bs)
        = (codeOf codes b).map (fun c => decide (c = '1')) ++ payloadBits codes bs := by
      simp [payloadBits]
    rw [e, List.take_append_eq_append_take, List.length_map]
    by_cases hm : (codeOf codes b).length ≤ m
    · rw [List.take_of_length_le (by simpa using hm), walk_symbol root hb hl]
      obtain ⟨out, ho1, ho2⟩ := ih (fun x hx => h x (List.mem_cons_of_mem _ hx))
        (m - (codeOf codes b).length) (dec ++ [b])
      refine ⟨b :: out, ?_, ?_⟩
      · rw [ho1]; simp
      · exact List.cons_prefix_cons.2 ⟨rfl, ho2⟩
    · have h0 : m - (codeOf codes b).length = 0 := by omega
      rw [h0, List.take_zero, List.append_nil, ← List.map_take]
      refine ⟨[], ?_, List.nil_prefix⟩
      rw [walk_incomplete root hb hl _ dec (List.take_prefix _ _)]
      · simp
      · intro e1
        have := congrArg List.length e1
        simp at this
        omega

theorem eraseWeights_eq_null_iff (t : HuffmanNode) : eraseWeights t = null ↔ t = null := by
  cases t with
  | null => simp [eraseWeights]
  | node b f l r =>
    cases l <;> cases r <;> simp [eraseWeights, mkLeaf, mkInternal]

theorem eraseWeights_isNull (t : HuffmanNode) : (eraseWeights t).isNull = t.isNull := by
  cases t with
  | null => rfl
  | node b f l r =>
    cases l <;> cases r <;> simp [eraseWeights, isNull, mkLeaf, mkInternal]

theorem eraseWeights_node {b : Byte} {f : Nat} {l r : HuffmanNode}
    (h : (node b f l r).isLeaf = false) :
    eraseWeights (node b f l r) = node 0 0 (eraseWeights l) (eraseWeights r) := by
  cases l <;> cases r <;> simp_all [eraseWeights, isLeaf, mkInternal]

theorem eraseWeights_isLeaf (t : HuffmanNode) : (eraseWeights t).isLeaf = t.isLeaf := by
  cases t with
  | null => rfl
  | node b f l r =>
    by_cases h : (node b f l r).isLeaf = true
    · obtain ⟨h1, h2⟩ := (isLeaf_node_iff b f l r).1 h
      subst h1 h2
      rfl
    · have h1 : (node b f l r).isLeaf = false := by simpa using h
      rw [eraseWeights_node h1, h1]
      cases hc : (node 0 0 (eraseWeights l) (eraseWeights r)).isLeaf with
      | false => rfl
      | true =>
        obtain ⟨e1, e2⟩ := (isLeaf_node_iff _ _ _ _).1 hc
        rw [eraseWeights_eq_null_iff] at e1 e2
        exact absurd ((isLeaf_node_iff b f l r).2 ⟨e1, e2⟩) h

theorem reaches_eraseWeights {t : HuffmanNode} {p : List Char} {k : Byte}
    (h : Reaches t p k) : Reaches (eraseWeights t) p k := by
  induction h with
  | leaf b f => exact Reaches.leaf b 0
  | left b f l r p k hn hr ih =>
    rw [eraseWeights_node hn]
    refine Reaches.left _ _ _ _ _ _ ?_ ih
    rw [← eraseWeights_node hn, eraseWeights_isLeaf]
    exact hn
  | right b f l r p k hn hr ih =>
    rw [eraseWeights_node hn]
    refine Reaches.right _ _ _ _ _ _ ?_ ih
    rw [← eraseWeights_node hn, eraseWeights_isLeaf]
    exact hn

theorem serialize_length_full {t : HuffmanNode} (h : Full t) :
    (serializeTree t []).length + 1 = 10 * (leaves t).length := by
  induction h with
  | leaf b f => simp [serializeTree_leaf, bitsMSB_length, leaves, isLeaf]
  | internal b f l r hl hr ihl ihr =>
    rw [serializeTree_internal hl]
    have e : leaves (node b f l r) = leaves l ++ leaves r := by
      conv_lhs => unfold leaves
      rw [hl.isLeaf_internal]
      simp
    rw [e]
    simp only [List.length_cons, List.length_append]
    omega

theorem sorted_keys_length_le {V : Type} (m : ByteMap V)
    (hs : (ByteMap.keys m).Sorted (· < ·)) : m.length ≤ 256 := by
  have hn : (ByteMap.keys m).Nodup := hs.nodup
  have h1 := hn.length_le_card
  rw [Fintype.card_fin] at h1
  unfold ByteMap.keys at h1
  rw [List.length_map] at h1
  exact h1

theorem deserializeTree_single (k : Byte) (f g : Nat) :
    deserializeTree (serializeTree (mkInternal f (mkLeaf k g) null) []) 0
      = Except.ok (mkInternal 0 (mkLeaf k 0) null,
          (serializeTree (mkInternal f (mkLeaf k g) null) []).length) := by
  have hs : serializeTree (mkInternal f (mkLeaf k g) null) [] = false :: true :: bitsMSB 8 k.val := by
    simp [serializeTree, mkInternal, mkLeaf, isLeaf, pushBitsMSB_eq]
  rw [hs]
  have hlen : (false :: true :: bitsMSB 8 k.val).length = 10 := by simp [bitsMSB_length]
  unfold deserializeTree
  rw [hlen]
  have hl := deserializeTreeAux_serialize (Full.leaf k g) (false :: true :: bitsMSB 8 k.val) 1 10 []
    (by simp [serializeTree_leaf]) (by simp [serializeTree_leaf, bitsMSB_length])
  rw [serializeTree_leaf] at hl
  have hlen9 : (true :: bitsMSB 8 k.val).length = 9 := by simp [bitsMSB_length]
  rw [hlen9] at hl
  show deserializeTreeAux _ (10 + 1) 0 = _
  unfold deserializeTreeAux
  rw [if_neg (by rw [hlen]; omega)]
  simp only [readBit, List.getElem?_cons_zero, Except.bind, bind, Bool.false_eq_true, if_false,
    Nat.zero_add]
  rw [hl]
  simp only [eraseWeights]
  have hr : deserializeTreeAux (false :: true :: bitsMSB 8 k.val) 10 (1 + 9)
      = Except.ok (null, 1 + 9) := by
    show deserializeTreeAux _ (9 + 1) (1 + 9) = _
    unfold deserializeTreeAux
    rw [if_pos (by rw [hlen])]
  rw [hr]

theorem deserializeTree_at_end (bits : List Bool) (pos : Nat) (h : bits.length ≤ pos) :
    deserializeTree bits pos = Except.ok (null, pos) := by
  unfold deserializeTree
  unfold deserializeTreeAux
  rw [if_pos h]

theorem deserializeTree_cut_leaf (bits : List Bool) (pos : Nat) (hm : bits[pos]? = some true)
    (hc : bits.length < pos + 9) : ∃ p, deserializeTree bits pos = Except.ok (null, p) := by
  have hlt : pos < bits.length := by
    by_contra hge
    rw [List.getElem?_eq_none (by omega)] at hm
    cases hm
  obtain ⟨t, p, ov, h, -, -, -, -, hnull⟩ :=
    deserializeTreeAux_total bits (bits.length - pos) pos (le_refl _) (le_of_lt hlt)
  have ht : t = null := hnull.2 (Or.inr ⟨hm, hc⟩)
  rw [ht] at h
  exact ⟨p, (h _ (le_refl _)).1⟩

theorem decode_of_null_tree (s : HuffmanEncoder) (a : List Byte) (ha : a ≠ [])
    (hT : 32 + treeBitLength a ≤ a.length * 8) (p : Nat)
    (hd : deserializeTree (treeSection a) 0 = Except.ok (null, p)) :
    decode s a = Except.ok ([], ⟨null, s.codes, s.freq⟩) := by
  rw [decode_eq s a ha, if_neg (by omega), if_neg (by omega), hd]
  rfl

theorem deserializeTree_one_leaf (b : Byte) :
    deserializeTree (false :: true :: bitsMSB 8 b.val) 0
      = Except.ok (mkInternal 0 (mkLeaf b 0) null, 10) := by
  have h := deserializeTree_single b 0 0
  have hs : serializeTree (mkInternal 0 (mkLeaf b 0) null) [] = false :: true :: bitsMSB 8 b.val := by
    simp [serializeTree, mkInternal, mkLeaf, isLeaf, pushBitsMSB_eq]
  rw [hs] at h
  rw [h]
  simp [bitsMSB_length]

/-- C7 (amended): a call of `deserializeTree` that finds no bit at its cursor, or
that finds a leaf marker followed by fewer than 8 bits, returns the null result;
when the tree section that `decode` hands to `deserializeTree` is empty or
begins with such a leaf, `decode` returns the empty result.  An internal marker
followed by one complete leaf and no further bit, which is the tree section
that `encode` writes for an input with a single byte value, is read as an
internal node with that leaf as left child and a null right child. -/
theorem decode_null_tree (bits : List Bool) (pos : Nat) (s : HuffmanEncoder) (a : List Byte)
    (b : Byte) :
    (bits.length ≤ pos → deserializeTree bits pos = Except.ok (null, pos))
      ∧ (bits[pos]? = some true → bits.length < pos + 9 →
          ∃ p, deserializeTree bits pos = Except.ok (null, p))
      ∧ (a ≠ [] → 32 + treeBitLength a ≤ a.length * 8 →
          (treeSection a = []
            ∨ ((treeSection a)[0]? = some true ∧ (treeSection a).length < 9)) →
          decode s a = Except.ok ([], ⟨null, s.codes, s.freq⟩))
      ∧ deserializeTree (false :: true :: bitsMSB 8 b.val) 0
          = Except.ok (mkInternal 0 (mkLeaf b 0) null, 10) := by
  refine ⟨deserializeTree_at_end bits pos, deserializeTree_cut_leaf bits pos, ?_,
    deserializeTree_one_leaf b⟩
  intro ha hT hsec
  rcases hsec with h0 | ⟨h1, h2⟩
  · exact decode_of_null_tree s a ha hT 0
      (deserializeTree_at_end _ 0 (by rw [h0]; exact le_refl _))
  · obtain ⟨p, hp⟩ := deserializeTree_cut_leaf (treeSection a) 0 h1 (by omega)
    exact decode_of_null_tree s a ha hT p hp

set_option maxRecDepth 100000 in
theorem decode_null_tree_witness :
    ([true, false, true] : List Bool)[0]? = some true
      ∧ ([true, false, true] : List Bool).length < 0 + 9
      ∧ (∃ p, deserializeTree [true, false, true] 0 = Except.ok (null, p))
      ∧ ([0, 0, 0, 3, 255, 0] : List Byte) ≠ []
      ∧ 32 + treeBitLength [0, 0, 0, 3, 255, 0] ≤ ([0, 0, 0, 3, 255, 0] : List Byte).length * 8
      ∧ ((treeSection [0, 0, 0, 3, 255, 0])[0]? = some true
          ∧ (treeSection [0, 0, 0, 3, 255, 0]).length < 9)
      ∧ decode HuffmanEncoder.init [0, 0, 0, 3, 255, 0]
          = Except.ok ([], ⟨null, HuffmanEncoder.init.codes, HuffmanEncoder.init.freq⟩) :=
  ⟨by decide, by decide,
    (decode_null_tree [true, false, true] 0 HuffmanEncoder.init [0, 0, 0, 3, 255, 0] 0).2.1
      (by decide) (by decide),
    by decide, by decide, by decide,
    (decode_null_tree [true, false, true] 0 HuffmanEncoder.init [0, 0, 0, 3, 255, 0] 0).2.2.1
      (by decide) (by decide) (Or.inr (by decide))⟩

theorem treeOf_shape (pq : PriorityQueue) (s : HuffmanEncoder) (data : List Byte)
    (hne : data ≠ []) :
    (Full (treeOf pq s data) ∧ (leaves (treeOf pq s data)).Perm (countFrequencies data)
        ∧ 2 ≤ (countFrequencies data).length)
      ∨ (∃ k f, countFrequencies data = [(k, f)]
          ∧ treeOf pq s data = mkInternal f (mkLeaf k f) null) := by
  unfold treeOf
  by_cases h2 : 2 ≤ (countFrequencies data).length
  · left
    obtain ⟨hf, hp⟩ := buildTree_full pq (countFrequencies data) s.root h2
    exact ⟨hf, hp, h2⟩
  · right
    have h1 : (countFrequencies data).length = 1 := by
      cases data with
      | nil => exact absurd rfl hne
      | cons b bs =>
        have := (countFrequencies_keys (b :: bs) b).2 (List.mem_cons_self _ _)
        cases hcf : countFrequencies (b :: bs) with
        | nil => rw [hcf] at this; simp [ByteMap.keys] at this
        | cons p ps =>
          rw [hcf] at h2
          simp only [List.length_cons] at h2 ⊢
          omega
    obtain ⟨⟨k0, f0⟩, hk0⟩ := List.length_eq_one.1 h1
    exact ⟨k0, f0, hk0, by rw [hk0, buildTree_single]⟩

theorem treeOf_deserialize (pq : PriorityQueue) (s : HuffmanEncoder) (data : List Byte)
    (hne : data ≠ []) :
    deserializeTree (serializeTree (treeOf pq s data) []) 0
        = Except.ok (eraseWeights (treeOf pq s data),
            (serializeTree (treeOf pq s data) []).length)
      ∧ (serializeTree (treeOf pq s data) []).length ≤ 2559 := by
  rcases treeOf_shape pq s data hne with ⟨hf, hp, h2⟩ | ⟨k, f, hk, ht⟩
  · refine ⟨deserializeTree_serialize hf, ?_⟩
    have h1 := serialize_length_full hf
    have h3 := sorted_keys_length_le _ (countFrequencies_sorted data)
    rw [hp.length_eq] at h1
    omega
  · rw [ht]
    refine ⟨?_, ?_⟩
    · rw [deserializeTree_single]
      simp [eraseWeights, mkInternal, mkLeaf]
    · simp [serializeTree, mkInternal, mkLeaf, isLeaf, pushBitsMSB_eq, bitsMSB_length]

theorem valueOfBits_field (n : Nat) : valueOfBits (bitsMSB 32 n) 0 = n % 2 ^ 32 := by
  rw [valueOfBits_bitsMSB]; simp

theorem artifactBits_take (a : List Byte) (k : Nat) :
    artifactBits (a.take k) = (artifactBits a).take (k * 8) := by
  induction a generalizing k with
  | nil => simp [artifactBits]
  | cons b bs ih =>
    cases k with
    | zero => simp [artifactBits]
    | succ k =>
      have e : artifactBits (b :: bs) = bitsMSB 8 b.val ++ artifactBits bs := by
        simp [artifactBits]
      have e2 : artifactBits (b :: bs.take k) = bitsMSB 8 b.val ++ artifactBits (bs.take k) := by
        simp [artifactBits]
      rw [List.take_succ_cons, e, e2, ih]
      have h1 : (bitsMSB 8 b.val ++ artifactBits bs).take ((k + 1) * 8)
          = bitsMSB 8 b.val ++ (artifactBits bs).take (k * 8) := by
        rw [List.take_append_eq_append_take, bitsMSB_length,
          List.take_of_length_le (by rw [bitsMSB_length]; omega)]
        have e3 : (k + 1) * 8 - 8 = k * 8 := by omega
        rw [e3]
      rw [h1]

/-- What `decode` does on an artifact whose bits are the first `m` bits of a
header with tree bits `tb`, a second field holding `P` and further bits `R`,
when at least the two fields and the tree are present. -/
theorem decode_artifact (s : HuffmanEncoder) (a : List Byte) (tb R : List Bool) (P m : Nat)
    (t : HuffmanNode) (x : Nat) (d : List Byte)
    (hB : artifactBits a = (bitsMSB 32 tb.length ++ (tb ++ (bitsMSB 32 P ++ R))).take m)
    (hT : tb.length < 2 ^ 32) (hm : 64 + tb.length ≤ m)
    (ht : deserializeTree tb 0 = Except.ok (t, x)) (hnn : t.isNull = false)
    (hw : walk t ((R.take (m - (64 + tb.length))).take (P % 2 ^ 32)) t [] = Except.ok d) :
    decode s a = Except.ok (d, ⟨t, s.codes, s.freq⟩) := by
  have hlenB : a.length * 8 = min m (32 + (tb.length + (32 + R.length))) := by
    rw [← artifactBits_length, hB]
    simp [bitsMSB_length]
  have ha : a ≠ [] := by
    intro h0
    rw [h0] at hlenB
    simp at hlenB
    omega
  have h32 : (artifactBits a).take 32 = bitsMSB 32 tb.length := by
    rw [hB, List.take_take, Nat.min_eq_left (by omega)]
    exact List.take_left' (bitsMSB_length _ _)
  have hTL : treeBitLength a = tb.length := by
    unfold treeBitLength
    rw [h32, valueOfBits_field, Nat.mod_eq_of_lt hT]
  have hTS : treeSection a = tb := by
    unfold treeSection
    rw [hTL, hB, List.take_take, Nat.min_eq_left (by omega),
      List.take_append_eq_append_take, bitsMSB_length,
      List.take_of_length_le (by rw [bitsMSB_length]; omega),
      List.drop_left' (bitsMSB_length _ _)]
    have e : 32 + tb.length - 32 = tb.length := by omega
    rw [e, List.take_left]
  have hdrop : (artifactBits a).drop (32 + tb.length)
      = (bitsMSB 32 P ++ R).take (m - (32 + tb.length)) := by
    rw [hB, List.drop_take, ← List.append_assoc,
      List.drop_left' (by simp [bitsMSB_length])]
  have hPL : payloadBitLength a = P % 2 ^ 32 := by
    unfold payloadBitLength
    rw [hTL, hdrop, List.take_take, Nat.min_eq_left (by omega),
      List.take_left' (bitsMSB_length _ _), valueOfBits_field]
  have hwin : (artifactBits a).drop (32 + tb.length + 32) = R.take (m - (64 + tb.length)) := by
    rw [← List.drop_drop, hdrop, List.drop_take, List.drop_left' (bitsMSB_length _ _)]
    congr 1
    omega
  rw [decode_eq s a ha, if_neg (by omega), hTL, if_neg (by omega), hTS, ht]
  simp only
  rw [if_neg (by simp [hnn]), if_neg (by omega), decodeLoop_eq_walk, hPL, hwin, hw]

theorem decode_artifact_short (s : HuffmanEncoder) (a : List Byte) (tb R : List Bool)
    (P m : Nat) (ha : a ≠ [])
    (hB : artifactBits a = (bitsMSB 32 tb.length ++ (tb ++ (bitsMSB 32 P ++ R))).take m)
    (hT : tb.length < 2 ^ 32) (hm : m < 64 + tb.length) :
    ∃ s1, decode s a = Except.ok ([], s1) := by
  have hlenB : a.length * 8 = min m (32 + (tb.length + (32 + R.length))) := by
    rw [← artifactBits_length, hB]
    simp [bitsMSB_length]
  apply decode_empty_of_missing s a ha
  by_cases h1 : a.length * 8 < 32
  · left; exact h1
  · right
    have h32 : (artifactBits a).take 32 = bitsMSB 32 tb.length := by
      rw [hB, List.take_take, Nat.min_eq_left (by omega)]
      exact List.take_left' (bitsMSB_length _ _)
    have hTL : treeBitLength a = tb.length := by
      unfold treeBitLength
      rw [h32, valueOfBits_field, Nat.mod_eq_of_lt hT]
    rw [hTL]
    omega

theorem encode_artifactBits (pq : PriorityQueue) (s : HuffmanEncoder) (data : List Byte)
    (hne : data ≠ []) :
    artifactBits (encode pq s data).1
      = bitsMSB 32 (serializeTree (treeOf pq s data) []).length
        ++ (serializeTree (treeOf pq s data) []
        ++ (bitsMSB 32 (payloadLength (codesOf pq s data) data)
        ++ (payloadBits (codesOf pq s data) data ++ padBits (encodedBits pq s data)))) := by
  rw [encode_eq pq s data hne]
  simp only
  rw [artifactBits_bitsToBytes]
  simp only [encodedBits, List.append_assoc]

theorem treeOf_decodable (pq : PriorityQueue) (s : HuffmanEncoder) (data : List Byte)
    (hne : data ≠ []) :
    (eraseWeights (treeOf pq s data)).isLeaf = false
      ∧ (eraseWeights (treeOf pq s data)).isNull = false
      ∧ ∀ b ∈ data, Reaches (eraseWeights (treeOf pq s data)) (codeOf (codesOf pq s data) b) b := by
  obtain ⟨hl, hn, -, hr⟩ := tree_codes_spec pq s.root data hne
  refine ⟨?_, ?_, ?_⟩
  · rw [eraseWeights_isLeaf]; exact hl
  · rw [eraseWeights_isNull]
    unfold treeOf
    cases hb : buildTree pq (countFrequencies data) s.root with
    | null => exact absurd hb hn
    | node _ _ _ _ => rfl
  · intro b hb
    obtain ⟨c, hc, hrc⟩ := hr b hb
    have : codeOf (codesOf pq s data) b = c := by
      unfold codeOf codesOf treeOf
      rw [hc]; rfl
    rw [this]
    exact reaches_eraseWeights hrc

theorem decode_encode_take (pq : PriorityQueue) (s0 s : HuffmanEncoder) (data : List Byte)
    (k : Nat) :
    ∃ out s1, decode s ((encode pq s0 data).1.take k) = Except.ok (out, s1) ∧ out <+: data := by
  by_cases hne : data = []
  · subst hne
    exact ⟨[], s, by simp [encode, decode], List.prefix_refl _⟩
  · by_cases ha : (encode pq s0 data).1.take k = []
    · rw [ha]
      exact ⟨[], s, by simp [decode], List.nil_prefix⟩
    · have hB := artifactBits_take (encode pq s0 data).1 k
      rw [encode_artifactBits pq s0 data hne] at hB
      obtain ⟨hd, hT⟩ := treeOf_deserialize pq s0 data hne
      have hT2 : (serializeTree (treeOf pq s0 data) []).length < 2 ^ 32 := by
        have : (2559 : Nat) < 2 ^ 32 := by norm_num
        omega
      by_cases hm : k * 8 < 64 + (serializeTree (treeOf pq s0 data) []).length
      · obtain ⟨s1, h1⟩ := decode_artifact_short s _ _ _ _ _ ha hB hT2 hm
        exact ⟨[], s1, h1, List.nil_prefix⟩
      · obtain ⟨hl, hn, hr⟩ := treeOf_decodable pq s0 data hne
        have hP : payloadLength (codesOf pq s0 data) data % 2 ^ 32
            ≤ (payloadBits (codesOf pq s0 data) data).length := by
          rw [payloadBits_length]
          exact Nat.mod_le _ _
        obtain ⟨out, ho1, ho2⟩ := walk_payload_take _ (codesOf pq s0 data) hl data hr
          (min (payloadLength (codesOf pq s0 data) data % 2 ^ 32)
            (k * 8 - (64 + (serializeTree (treeOf pq s0 data) []).length))) []
        refine ⟨out, _, decode_artifact s _ _ _ _ _ _ _ out hB hT2 (by omega) hd hn ?_, ho2⟩
        rw [List.take_take, List.take_append_of_le_length
          (le_trans (Nat.min_le_left _ _) hP), ho1]
        simp

theorem decode_encode_full (pq : PriorityQueue) (s0 s : HuffmanEncoder) (data : List Byte)
    (hne : data ≠ []) :
    ∃ out, walk (eraseWeights (treeOf pq s0 data))
          ((payloadBits (codesOf pq s0 data) data).take
            (payloadLength (codesOf pq s0 data) data % 2 ^ 32))
          (eraseWeights (treeOf pq s0 data)) [] = Except.ok out
      ∧ decode s (encode pq s0 data).1
          = Except.ok (out, ⟨eraseWeights (treeOf pq s0 data), s.codes, s.freq⟩) := by
  have hB : artifactBits (encode pq s0 data).1
      = (bitsMSB 32 (serializeTree (treeOf pq s0 data) []).length
        ++ (serializeTree (treeOf pq s0 data) []
        ++ (bitsMSB 32 (payloadLength (codesOf pq s0 data) data)
        ++ (payloadBits (codesOf pq s0 data) data ++ padBits (encodedBits pq s0 data))))).take
          ((encode pq s0 data).1.length * 8) := by
    rw [← encode_artifactBits pq s0 data hne, ← artifactBits_length, List.take_length]
  obtain ⟨hd, hT⟩ := treeOf_deserialize pq s0 data hne
  have hT2 : (serializeTree (treeOf pq s0 data) []).length < 2 ^ 32 := by
    have : (2559 : Nat) < 2 ^ 32 := by norm_num
    omega
  obtain ⟨hl, hn, hr⟩ := treeOf_decodable pq s0 data hne
  have hP : payloadLength (codesOf pq s0 data) data % 2 ^ 32
      ≤ (payloadBits (codesOf pq s0 data) data).length := by
    rw [payloadBits_length]
    exact Nat.mod_le _ _
  obtain ⟨out, ho1, -⟩ := walk_payload_take _ (codesOf pq s0 data) hl data hr
    (payloadLength (codesOf pq s0 data) data % 2 ^ 32) []
  rw [List.nil_append] at ho1
  refine ⟨out, ho1, ?_⟩
  have hlen : (encode pq s0 data).1.length * 8
      = 32 + ((serializeTree (treeOf pq s0 data) []).length
        + (32 + ((payloadBits (codesOf pq s0 data) data).length
          + (padBits (encodedBits pq s0 data)).length))) := by
    rw [← artifactBits_length, encode_artifactBits pq s0 data hne]
    simp [bitsMSB_length]
  refine decode_artifact s _ _ _ _ _ _ _ out hB hT2 (by omega) hd hn ?_
  rw [List.take_take, List.take_append_of_le_length (by
    refine le_trans (Nat.min_le_left _ _) hP)]
  have hmin : min (payloadLength (codesOf pq s0 data) data % 2 ^ 32)
      ((encode pq s0 data).1.length * 8 - (64 + (serializeTree (treeOf pq s0 data) []).length))
      = payloadLength (codesOf pq s0 data) data % 2 ^ 32 := by
    apply Nat.min_eq_left
    omega
  rw [hmin, ho1]

/-- C2: `decode` applied to the first `k` bytes of `encode(b)` returns (it is a
total function, and no fault arises) a prefix of `b`, possibly empty. -/
theorem decode_truncated_prefix (pq : PriorityQueue) (s0 s : HuffmanEncoder)
    (data : List Byte) (k : Nat) :
    ∃ out s1, decode s ((encode pq s0 data).1.take k) = Except.ok (out, s1) ∧ out <+: data :=
  decode_encode_take pq s0 s data k

theorem decode_encode_of_lt (pq : PriorityQueue) (s0 s : HuffmanEncoder) (data : List Byte)
    (hP : payloadLength (codesOf pq s0 data) data < 2 ^ 32) :
    ∃ s1, decode s (encode pq s0 data).1 = Except.ok (data, s1) := by
  by_cases hne : data = []
  · subst hne
    exact ⟨s, by simp [encode, decode]⟩
  · obtain ⟨out, ho, hd⟩ := decode_encode_full pq s0 s data hne
    obtain ⟨hl, hn, hr⟩ := treeOf_decodable pq s0 data hne
    rw [Nat.mod_eq_of_lt hP, ← payloadBits_length, List.take_length] at ho
    have hw := walk_payload _ (codesOf pq s0 data) hl data hr [] []
    rw [List.append_nil, List.nil_append] at hw
    rw [hw] at ho
    simp only [walk, Except.ok.injEq] at ho
    rw [← ho] at hd
    exact ⟨_, hd⟩

/-- C1 (amended): for every byte sequence whose payload bit length (the sum of
the code lengths of its bytes) is below `2^32`, `decode` applied to `encode(b)`
returns exactly `b`. -/
theorem decode_encode_roundtrip (pq : PriorityQueue) (s0 s : HuffmanEncoder)
    (data : List Byte) (hP : payloadLength (codesOf pq s0 data) data < 2 ^ 32) :
    ∃ s1, decode s (encode pq s0 data).1 = Except.ok (data, s1) :=
  decode_encode_of_lt pq s0 s data hP

set_option maxRecDepth 100000 in
theorem decode_encode_roundtrip_witness :
    payloadLength (codesOf listQueue HuffmanEncoder.init [97, 97, 97, 98]) [97, 97, 97, 98]
        < 2 ^ 32
      ∧ ∃ s1, decode HuffmanEncoder.init
          (encode listQueue HuffmanEncoder.init [97, 97, 97, 98]).1
            = Except.ok ([97, 97, 97, 98], s1) :=
  ⟨by decide, decode_encode_roundtrip listQueue HuffmanEncoder.init HuffmanEncoder.init
    [97, 97, 97, 98] (by decide)⟩

theorem padBits_all_false (bits : List Bool) : ∀ x ∈ padBits bits, x = false := by
  intro x hx
  exact List.eq_of_mem_replicate hx

theorem countFold_replicate (v : Byte) (n c : Nat) (hc : c < 2 ^ 32) :
    (List.replicate n v).foldl (fun freq byte =>
        let r := ByteMap.index freq byte 0
        ByteMap.set r.2 byte ((r.1 + 1) % 2 ^ 32)) [(v, c)] = [(v, (c + n) % 2 ^ 32)] := by
  induction n generalizing c with
  | zero =>
    rw [Nat.add_zero, Nat.mod_eq_of_lt hc]
    rfl
  | succ n ih =>
    rw [List.replicate_succ, List.foldl_cons]
    have e : (let r := ByteMap.index [(v, c)] v 0; ByteMap.set r.2 v ((r.1 + 1) % 2 ^ 32))
        = [(v, (c + 1) % 2 ^ 32)] := by
      simp [ByteMap.index, ByteMap.find, ByteMap.set]
    rw [e, ih _ (Nat.mod_lt _ (by norm_num))]
    congr 2
    omega

theorem countFrequencies_replicate (v : Byte) (n : Nat) (hn : 1 ≤ n) :
    countFrequencies (List.replicate n v) = [(v, n % 2 ^ 32)] := by
  obtain ⟨m, rfl⟩ : ∃ m, n = m + 1 := ⟨n - 1, by omega⟩
  unfold countFrequencies
  rw [List.replicate_succ, List.foldl_cons]
  have e : (let r := ByteMap.index ([] : ByteMap Nat) v 0;
        ByteMap.set r.2 v ((r.1 + 1) % 2 ^ 32)) = [(v, 1)] := by
    simp [ByteMap.index, ByteMap.find, ByteMap.set]
  rw [e, countFold_replicate v m 1 (by norm_num)]
  congr 2
  omega

theorem treeOf_replicate (pq : PriorityQueue) (s : HuffmanEncoder) (v : Byte) (n : Nat)
    (hn : 1 ≤ n) :
    treeOf pq s (List.replicate n v)
      = mkInternal (n % 2 ^ 32) (mkLeaf v (n % 2 ^ 32)) null := by
  unfold treeOf
  rw [countFrequencies_replicate v n hn, buildTree_single]

theorem codesOf_replicate (pq : PriorityQueue) (s : HuffmanEncoder) (v : Byte) (n : Nat)
    (hn : 1 ≤ n) : codesOf pq s (List.replicate n v) = [(v, ['0'])] := by
  unfold codesOf
  rw [treeOf_replicate pq s v n hn]
  simp [generateCodes, mkInternal, mkLeaf, isLeaf, ByteMap.set]

theorem payloadLength_replicate (v : Byte) (n : Nat) :
    payloadLength [(v, ['0'])] (List.replicate n v) = n := by
  induction n with
  | zero => rfl
  | succ n ih =>
    simp only [payloadLength, List.replicate_succ, List.map_cons, List.sum_cons] at ih ⊢
    rw [ih]
    simp [codeOf, ByteMap.find]
    omega

/-- C9 (amended): for every byte value `v` and every `n >= 1`, encoding `n`
copies of `v` builds a root that is an internal node whose left child is the
leaf `v` and whose right child is absent (both weights are the `int` counter,
`n` wrapped to 32 bits), and yields the code table with the single entry `v`
with code "0"; when `n < 2^32`, `decode` of the artifact returns the `n` copies
of `v`. -/
theorem single_value_roundtrip (pq : PriorityQueue) (s0 s : HuffmanEncoder) (v : Byte)
    (n : Nat) (h1 : 1 ≤ n) :
    (encode pq s0 (List.replicate n v)).2.root
        = mkInternal (n % 2 ^ 32) (mkLeaf v (n % 2 ^ 32)) null
      ∧ (encode pq s0 (List.replicate n v)).2.codes = [(v, ['0'])]
      ∧ (n < 2 ^ 32 → ∃ s1, decode s (encode pq s0 (List.replicate n v)).1
          = Except.ok (List.replicate n v, s1)) := by
  have hne : List.replicate n v ≠ [] := by
    intro h
    have := congrArg List.length h
    simp at this
    omega
  refine ⟨?_, ?_, ?_⟩
  · rw [encode_eq pq s0 _ hne]
    exact treeOf_replicate pq s0 v n h1
  · rw [encode_eq pq s0 _ hne]
    exact codesOf_replicate pq s0 v n h1
  · intro h2
    apply decode_encode_of_lt
    rw [codesOf_replicate pq s0 v n h1, payloadLength_replicate]
    exact h2

theorem single_value_roundtrip_witness :
    1 ≤ 3 ∧ 3 < 2 ^ 32
      ∧ (encode listQueue HuffmanEncoder.init (List.replicate 3 65)).2.root
          = mkInternal 3 (mkLeaf 65 3) null
      ∧ (encode listQueue HuffmanEncoder.init (List.replicate 3 65)).2.codes = [(65, ['0'])]
      ∧ ∃ s1, decode HuffmanEncoder.init
          (encode listQueue HuffmanEncoder.init (List.replicate 3 65)).1
            = Except.ok (List.replicate 3 65, s1) :=
  ⟨by decide, by decide,
    (single_value_roundtrip listQueue HuffmanEncoder.init HuffmanEncoder.init 65 3
      (by decide)).1,
    (single_value_roundtrip listQueue HuffmanEncoder.init HuffmanEncoder.init 65 3
      (by decide)).2.1,
    (single_value_roundtrip listQueue HuffmanEncoder.init HuffmanEncoder.init 65 3
      (by decide)).2.2 (by decide)⟩

/-- C9 as stated fails for `n = 2^32`: the payload length field then holds 0 and
`decode` returns the empty sequence, whatever the priority queue and the states
of the encoder objects. -/
theorem single_value_overflow :
    ¬ ∃ (pq : PriorityQueue) (s0 s s1 : HuffmanEncoder),
        decode s (encode pq s0 (List.replicate (2 ^ 32) (65 : Byte))).1
          = Except.ok (List.replicate (2 ^ 32) (65 : Byte), s1) := by
  rintro ⟨pq, s0, s, s1, h⟩
  have hne : List.replicate (2 ^ 32) (65 : Byte) ≠ [] := by
    intro h
    have := congrArg List.length h
    rw [List.length_replicate] at this
    exact absurd this (by norm_num)
  obtain ⟨out, ho, hd⟩ := decode_encode_full pq s0 s _ hne
  rw [codesOf_replicate pq s0 65 (2 ^ 32) (by norm_num), payloadLength_replicate,
    Nat.mod_self, List.take_zero] at ho
  simp only [walk, Except.ok.injEq] at ho
  rw [hd, ← ho] at h
  simp only [Except.ok.injEq, Prod.mk.injEq] at h
  exact hne h.1.symm

theorem buildTree_two (pq : PriorityQueue) (k1 k2 : Byte) (f1 f2 : Nat) (root0 : HuffmanNode)
    (hlt : intValue f2 < intValue f1) :
    buildTree pq [(k1, f1), (k2, f2)] root0
      = mkInternal ((f2 + f1) % 2 ^ 32) (mkLeaf k2 f2) (mkLeaf k1 f1) := by
  have h := buildTree_induct pq
    (fun F => F.Perm [mkLeaf k1 f1, mkLeaf k2 f2]
      ∨ F = [mkInternal ((f2 + f1) % 2 ^ 32) (mkLeaf k2 f2) (mkLeaf k1 f1)])
    (by
      intro l1 l2 hp hP
      rcases hP with hP | hP
      · left; exact hp.symm.trans hP
      · right
        rw [hP] at hp
        exact List.perm_singleton.1 hp.symm)
    (by
      intro x y rest hP hx _
      right
      rcases hP with hP | hP
      · have hl := hP.length_eq
        simp only [List.length_cons, List.length_nil] at hl
        have hrest : rest = [] := List.eq_nil_of_length_eq_zero (by omega)
        subst hrest
        have hxm : x ∈ [mkLeaf k1 f1, mkLeaf k2 f2] := hP.subset (by simp)
        have hym : y ∈ [mkLeaf k1 f1, mkLeaf k2 f2] := hP.subset (by simp)
        have hxy := hx y (by simp)
        simp only [List.mem_cons, List.mem_singleton, List.not_mem_nil, or_false] at hxm hym
        rcases hxm with hx1 | hx1 <;> rcases hym with hy1 | hy1
        · subst hx1 hy1
          have := hP.symm.subset (show mkLeaf k2 f2 ∈ [mkLeaf k1 f1, mkLeaf k2 f2] by simp)
          simp only [List.mem_cons, List.mem_singleton, List.not_mem_nil, or_false, or_self] at this
          have hf := congrArg HuffmanNode.freq this
          simp only [mkLeaf, HuffmanNode.freq] at hf
          rw [hf] at hlt
          exact absurd hlt (lt_irrefl _)
        · subst hx1 hy1
          simp [mkLeaf, HuffmanNode.freq] at hxy
          omega
        · subst hx1 hy1
          simp [mkLeaf, HuffmanNode.freq]
        · subst hx1 hy1
          have := hP.symm.subset (show mkLeaf k1 f1 ∈ [mkLeaf k1 f1, mkLeaf k2 f2] by simp)
          simp only [List.mem_cons, List.mem_singleton, List.not_mem_nil, or_false, or_self] at this
          have hf := congrArg HuffmanNode.freq this
          simp only [mkLeaf, HuffmanNode.freq] at hf
          rw [hf] at hlt
          exact absurd hlt (lt_irrefl _)
      · simp at hP)
    [(k1, f1), (k2, f2)] root0 (by simp) (Or.inl (List.Perm.refl _))
  rcases h with h | h
  · have := h.length_eq
    simp at this
  · simpa using h

set_option maxRecDepth 100000 in
/-- C10: for the input `61 61 61 62` the frequency table is `{61:3, 62:1}`, the
tree is a root whose children are the leaf `62` and the leaf `61`, both codes
have length 1, the payload bit length field of the artifact is 4, and `decode`
of the artifact is the input; for every priority queue and whatever the states
of the encoder objects. -/
theorem aaab_scenario (pq : PriorityQueue) (s0 s : HuffmanEncoder) :
    (encode pq s0 [0x61, 0x61, 0x61, 0x62]).2.freq = [(0x61, 3), (0x62, 1)]
      ∧ (encode pq s0 [0x61, 0x61, 0x61, 0x62]).2.root
          = mkInternal 4 (mkLeaf 0x62 1) (mkLeaf 0x61 3)
      ∧ (encode pq s0 [0x61, 0x61, 0x61, 0x62]).2.codes = [(0x61, ['1']), (0x62, ['0'])]
      ∧ payloadBitLength (encode pq s0 [0x61, 0x61, 0x61, 0x62]).1 = 4
      ∧ ∃ s1, decode s (encode pq s0 [0x61, 0x61, 0x61, 0x62]).1
          = Except.ok ([0x61, 0x61, 0x61, 0x62], s1) := by
  have hf : countFrequencies [0x61, 0x61, 0x61, 0x62] = [(0x61, 3), (0x62, 1)] := by decide
  have ht : treeOf pq s0 [0x61, 0x61, 0x61, 0x62]
      = mkInternal 4 (mkLeaf 0x62 1) (mkLeaf 0x61 3) := by
    unfold treeOf
    rw [hf, buildTree_two pq 0x61 0x62 3 1 s0.root (by decide)]
    rfl
  have hc : codesOf pq s0 [0x61, 0x61, 0x61, 0x62] = [(0x61, ['1']), (0x62, ['0'])] := by
    unfold codesOf
    rw [ht]
    decide
  have he := encode_eq pq s0 [0x61, 0x61, 0x61, 0x62] (by decide)
  rw [ht, hc, hf] at he
  have hb : bitsToBytes (bitsMSB 32 (serializeTree (mkInternal 4 (mkLeaf 0x62 1)
      (mkLeaf 0x61 3)) []).length
      ++ serializeTree (mkInternal 4 (mkLeaf 0x62 1) (mkLeaf 0x61 3)) []
      ++ bitsMSB 32 (payloadLength [(0x61, ['1']), (0x62, ['0'])] [0x61, 0x61, 0x61, 0x62])
      ++ payloadBits [(0x61, ['1']), (0x62, ['0'])] [0x61, 0x61, 0x61, 0x62])
      = [0, 0, 0, 19, 88, 172, 32, 0, 0, 0, 156] := by decide
  rw [hb] at he
  refine ⟨by rw [he], by rw [he], by rw [he], ?_, ?_⟩
  · rw [he]
    decide
  · apply decode_encode_of_lt
    rw [hc]
    decide

theorem TreeDepths.contract {ds : Multiset Nat} (h : TreeDepths ds) :
    ds = {0} ∨ ∃ D ds1, ds = (D + 1) ::ₘ (D + 1) ::ₘ ds1 ∧ TreeDepths (D ::ₘ ds1)
      ∧ ∀ d ∈ ds, d ≤ D + 1 := by
  induction h with
  | leaf => left; rfl
  | node a b ha hb iha ihb =>
    right
    rcases iha with rfl | ⟨Da, a1, rfl, hka, hma⟩
    · rcases ihb with rfl | ⟨Db, b1, rfl, hkb, hmb⟩
      · refine ⟨0, 0, by simp, by simpa using TreeDepths.leaf, ?_⟩
        intro d hd
        simp at hd
        omega
      · refine ⟨Db + 1, 1 ::ₘ b1.map Nat.succ, ?_, ?_, ?_⟩
        · simp only [Multiset.map_singleton, Multiset.map_cons, Multiset.singleton_add]
          rw [Multiset.cons_swap 1, Multiset.cons_swap 1]
        · have := TreeDepths.node {0} (Db ::ₘ b1) TreeDepths.leaf hkb
          simp only [Multiset.map_singleton, Multiset.map_cons, Multiset.singleton_add] at this
          rw [Multiset.cons_swap] at this
          exact this
        · intro d hd
          simp only [Multiset.map_singleton, Multiset.singleton_add, Multiset.mem_cons,
            Multiset.mem_map] at hd
          rcases hd with hd | ⟨e, he, hd⟩
          · rw [hd]; simp
          · have := hmb e (by simp only [Multiset.mem_cons]; exact he)
            rw [← hd]; simp; omega
    · rcases ihb with rfl | ⟨Db, b1, rfl, hkb, hmb⟩
      · refine ⟨Da + 1, a1.map Nat.succ + {1}, ?_, ?_, ?_⟩
        · simp only [Multiset.map_singleton, Multiset.map_cons, Multiset.cons_add]
        · have := TreeDepths.node (Da ::ₘ a1) {0} hka TreeDepths.leaf
          simp only [Multiset.map_singleton, Multiset.map_cons, Multiset.cons_add] at this
          exact this
        · intro d hd
          simp only [Multiset.map_singleton, Multiset.mem_add, Multiset.mem_singleton,
            Multiset.mem_map] at hd
          rcases hd with ⟨e, he, hd⟩ | hd
          · have := hma e he
            rw [← hd]; simp; omega
          · rw [hd]; simp
      · by_cases hc : Db ≤ Da
        · refine ⟨Da + 1,
            a1.map Nat.succ + ((Db + 1) ::ₘ (Db + 1) ::ₘ b1).map Nat.succ, ?_, ?_, ?_⟩
          · simp only [Multiset.map_cons, Multiset.cons_add]
          · have := TreeDepths.node (Da ::ₘ a1) _ hka hb
            simp only [Multiset.map_cons, Multiset.cons_add] at this ⊢
            exact this
          · intro d hd
            simp only [Multiset.mem_add, Multiset.mem_map] at hd
            rcases hd with ⟨e, he, hd⟩ | ⟨e, he, hd⟩
            · have := hma e he
              rw [← hd]; simp; omega
            · have := hmb e he
              rw [← hd]; simp; omega
        · refine ⟨Db + 1,
            ((Da + 1) ::ₘ (Da + 1) ::ₘ a1).map Nat.succ + b1.map Nat.succ, ?_, ?_, ?_⟩
          · simp only [Multiset.map_cons, Multiset.cons_add, Multiset.add_cons]
          · have := TreeDepths.node _ (Db ::ₘ b1) ha hkb
            simp only [Multiset.map_cons, Multiset.cons_add, Multiset.add_cons] at this ⊢
            rw [Multiset.cons_swap, Multiset.cons_swap (Da + 1).succ] at this
            exact this
          · intro d hd
            simp only [Multiset.mem_add, Multiset.mem_map] at hd
            rcases hd with ⟨e, he, hd⟩ | ⟨e, he, hd⟩
            · have := hma e he
              rw [← hd]; simp; omega
            · have := hmb e he
              rw [← hd]; simp; omega

theorem weightedSum_cons (p : Nat × Nat) (S : Multiset (Nat × Nat)) :
    weightedSum (p ::ₘ S) = p.1 * p.2 + weightedSum S := by
  simp [weightedSum]

theorem exchange_min (T : Multiset (Nat × Nat)) (m M : Nat) (W Ds : Multiset Nat)
    (hW : T.map Prod.fst = m ::ₘ W) (hD : T.map Prod.snd = M ::ₘ Ds)
    (hm : ∀ w ∈ W, m ≤ w) (hM : ∀ d ∈ Ds, d ≤ M) :
    ∃ T1, T1.map Prod.fst = W ∧ T1.map Prod.snd = Ds ∧ m * M + weightedSum T1 ≤ weightedSum T := by
  have hmem : m ∈ T.map Prod.fst := by rw [hW]; exact Multiset.mem_cons_self _ _
  obtain ⟨p, hp, hp1⟩ := Multiset.mem_map.1 hmem
  obtain ⟨T0, rfl⟩ := Multiset.exists_cons_of_mem hp
  rw [Multiset.map_cons, hp1, Multiset.cons_inj_right] at hW
  rw [Multiset.map_cons] at hD
  by_cases hpM : p.2 = M
  · rw [hpM, Multiset.cons_inj_right] at hD
    refine ⟨T0, hW, hD, ?_⟩
    rw [weightedSum_cons, hp1, hpM]
  · have hMmem : M ∈ p.2 ::ₘ T0.map Prod.snd := by rw [hD]; exact Multiset.mem_cons_self _ _
    rcases Multiset.mem_cons.1 hMmem with h | h
    · exact absurd h.symm hpM
    · obtain ⟨q, hq, hq2⟩ := Multiset.mem_map.1 h
      obtain ⟨T2, rfl⟩ := Multiset.exists_cons_of_mem hq
      rw [Multiset.map_cons] at hW
      rw [Multiset.map_cons, hq2, Multiset.cons_swap, Multiset.cons_inj_right] at hD
      refine ⟨(q.1, p.2) ::ₘ T2, ?_, ?_, ?_⟩
      · rw [Multiset.map_cons]; exact hW
      · rw [Multiset.map_cons]; exact hD
      · have h1 : m ≤ q.1 := hm q.1 (by rw [← hW]; exact Multiset.mem_cons_self _ _)
        have h2 : p.2 ≤ M := hM p.2 (by rw [← hD]; exact Multiset.mem_cons_self _ _)
        rw [weightedSum_cons, weightedSum_cons, weightedSum_cons, hp1, hq2]
        simp only
        obtain ⟨a, ha⟩ := Nat.exists_eq_add_of_le h1
        obtain ⟨b, hb⟩ := Nat.exists_eq_add_of_le h2
        rw [ha, hb]
        nlinarith [Nat.zero_le (a * b)]

theorem contract_min (S : Multiset (Nat × Nat)) (x y : Nat) (R : Multiset Nat)
    (hW : S.map Prod.fst = x ::ₘ y ::ₘ R) (hD : TreeDepths (S.map Prod.snd))
    (hxy : x ≤ y) (hy : ∀ z ∈ R, y ≤ z) :
    ∃ S1, S1.map Prod.fst = (x + y) ::ₘ R ∧ TreeDepths (S1.map Prod.snd)
      ∧ weightedSum S1 + x + y ≤ weightedSum S := by
  rcases hD.contract with h0 | ⟨D, ds1, hds, hk, hmax⟩
  · have h1 := congrArg Multiset.card hW
    have h2 := congrArg Multiset.card h0
    simp only [Multiset.card_map, Multiset.card_cons, Multiset.card_singleton] at h1 h2
    omega
  · obtain ⟨T1, hT1w, hT1d, hT1c⟩ := exchange_min S x (D + 1) (y ::ₘ R) ((D + 1) ::ₘ ds1) hW hds
      (by
        intro w hw
        rcases Multiset.mem_cons.1 hw with h | h
        · rw [h]; exact hxy
        · exact le_trans hxy (hy w h))
      (by
        intro d hd
        exact hmax d (by rw [hds]; exact Multiset.mem_cons_of_mem hd))
    obtain ⟨T2, hT2w, hT2d, hT2c⟩ := exchange_min T1 y (D + 1) R ds1 hT1w hT1d hy
      (by
        intro d hd
        exact hmax d (by
          rw [hds]
          exact Multiset.mem_cons_of_mem (Multiset.mem_cons_of_mem hd)))
    refine ⟨(x + y, D) ::ₘ T2, ?_, ?_, ?_⟩
    · rw [Multiset.map_cons, hT2w]
    · rw [Multiset.map_cons, hT2d]; exact hk
    · rw [weightedSum_cons]
      simp only
      nlinarith

theorem costAt_succ (t : HuffmanNode) (d : Nat) : costAt t (d + 1) = costAt t d + weight t := by
  induction t generalizing d with
  | null => rfl
  | node b f l r ihl ihr =>
    unfold costAt weight
    by_cases h : (node b f l r).isLeaf = true
    · rw [if_pos h, if_pos h, if_pos h]; ring
    · rw [if_neg h, if_neg h, if_neg h, ihl, ihr (d + 1)]; ring

theorem weight_mkInternal {x : HuffmanNode} (hx : Full x) (f : Nat) (y : HuffmanNode) :
    weight (mkInternal f x y) = weight x + weight y := by
  unfold mkInternal
  conv_lhs => unfold weight
  rw [hx.isLeaf_internal]
  simp

theorem cost_mkInternal {x : HuffmanNode} (hx : Full x) (f : Nat) (y : HuffmanNode) :
    costAt (mkInternal f x y) 0 = costAt x 0 + costAt y 0 + weight x + weight y := by
  unfold mkInternal
  conv_lhs => unfold costAt
  rw [hx.isLeaf_internal]
  simp only [Bool.false_eq_true, if_false, Nat.zero_add]
  rw [costAt_succ, costAt_succ]
  ring

theorem buildTree_cost_le (pq : PriorityQueue) (freq : ByteMap Nat) (root0 : HuffmanNode)
    (h2 : 2 ≤ freq.length) (hb : (freq.map Prod.snd).sum < 2 ^ 31) (S : Multiset (Nat × Nat))
    (hSw : S.map Prod.fst = Multiset.ofList (freq.map Prod.snd))
    (hSd : TreeDepths (S.map Prod.snd)) :
    costAt (buildTree pq freq root0) 0 ≤ weightedSum S := by
  have h := buildTree_induct_small pq
    (fun F => (∀ t ∈ F, Full t ∧ t.freq = weight t)
      ∧ ∃ S1 : Multiset (Nat × Nat),
          S1.map Prod.fst = Multiset.ofList (F.map HuffmanNode.freq)
          ∧ TreeDepths (S1.map Prod.snd)
          ∧ (F.map (fun t => costAt t 0)).sum + weightedSum S1 ≤ weightedSum S)
    (by
      rintro l1 l2 hp ⟨hP1, S1, hw, hd, hc⟩
      refine ⟨fun t ht => hP1 t (hp.symm.subset ht), S1, ?_, hd, ?_⟩
      · rw [hw]
        exact Multiset.coe_eq_coe.2 (hp.map _)
      · rw [← (hp.map (fun t => costAt t 0)).sum_eq]
        exact hc)
    (by
      rintro x y rest ⟨hP1, S1, hw, hd, hc⟩ hx hy
      have hfx := hP1 x (by simp)
      have hfy := hP1 y (by simp)
      refine ⟨?_, ?_⟩
      · intro t ht
        rcases List.mem_cons.1 ht with h1 | h1
        · rw [h1]
          refine ⟨Full.internal _ _ _ _ hfx.1 hfy.1, ?_⟩
          rw [weight_mkInternal hfx.1, ← hfx.2, ← hfy.2]
          rfl
        · exact hP1 t (by simp [h1])
      · have hw1 : S1.map Prod.fst
            = x.freq ::ₘ y.freq ::ₘ Multiset.ofList (rest.map HuffmanNode.freq) := by
          rw [hw]; rfl
        obtain ⟨S2, h2w, h2d, h2c⟩ := contract_min S1 x.freq y.freq _ hw1 hd
          (hx y (by simp))
          (by
            intro z hz
            obtain ⟨t, ht, htz⟩ := List.mem_map.1 (Multiset.mem_coe.1 hz)
            rw [← htz]
            exact hy t ht)
        refine ⟨S2, ?_, h2d, ?_⟩
        · rw [h2w]; rfl
        · simp only [List.map_cons, List.sum_cons] at hc ⊢
          rw [cost_mkInternal hfx.1, ← hfx.2, ← hfy.2]
          omega)
    freq root0 h2 hb
    (by
      refine ⟨?_, S, ?_, hSd, ?_⟩
      · intro t ht
        obtain ⟨p, _, hp⟩ := List.mem_map.1 ht
        rw [← hp]
        exact ⟨Full.leaf _ _, by simp [mkLeaf, HuffmanNode.freq, weight, isLeaf]⟩
      · rw [hSw, List.map_map]
        congr 1
      · have e : ∀ (m : ByteMap Nat),
            ((m.map (fun pair => mkLeaf pair.1 pair.2)).map (fun t => costAt t 0)).sum = 0 := by
          intro m
          induction m with
          | nil => rfl
          | cons p ps ih =>
            simp only [List.map_cons, List.sum_cons, ih]
            simp [costAt, mkLeaf, isLeaf]
        rw [e, Nat.zero_add])
  obtain ⟨-, S1, -, -, hc⟩ := h
  simp only [List.map_cons, List.map_nil, List.sum_cons, List.sum_nil, Nat.add_zero] at hc
  omega

theorem depthPairs_snd_succ (freq : ByteMap Nat) (t : HuffmanNode) (d : Nat) :
    (depthPairs freq t (d + 1)).map Prod.snd
      = ((depthPairs freq t d).map Prod.snd).map Nat.succ := by
  induction t generalizing d with
  | null => simp [depthPairs]
  | node b f l r ihl ihr =>
    unfold depthPairs
    by_cases h : (node b f l r).isLeaf = true
    · rw [if_pos h, if_pos h]; simp
    · rw [if_neg h, if_neg h, Multiset.map_add, Multiset.map_add, Multiset.map_add,
        ihl (d + 1), ihr (d + 1)]

theorem depthPairs_treeDepths (freq : ByteMap Nat) {t : HuffmanNode} (h : Full t) :
    TreeDepths ((depthPairs freq t 0).map Prod.snd) := by
  induction h with
  | leaf b f => simpa [depthPairs, isLeaf] using TreeDepths.leaf
  | internal b f l r hl hr ihl ihr =>
    unfold depthPairs
    rw [hl.isLeaf_internal]
    simp only [Bool.false_eq_true, if_false, Nat.zero_add, Multiset.map_add]
    have e1 := depthPairs_snd_succ freq l 0
    have e2 := depthPairs_snd_succ freq r 0
    simp only [Nat.zero_add] at e1 e2
    rw [e1, e2]
    exact TreeDepths.node _ _ ihl ihr

theorem depthPairs_fst (freq : ByteMap Nat) (t : HuffmanNode) (d : Nat) :
    (depthPairs freq t d).map Prod.fst
      = Multiset.ofList ((leafBytes t).map (freqOf freq)) := by
  induction t generalizing d with
  | null => simp [depthPairs, leafBytes]
  | node b f l r ihl ihr =>
    unfold depthPairs leafBytes
    by_cases h : (node b f l r).isLeaf = true
    · rw [if_pos h, if_pos h]; simp
    · rw [if_neg h, if_neg h, Multiset.map_add, ihl, ihr, List.map_append]
      rfl

theorem depthPairs_weightedSum (freq : ByteMap Nat) (t : HuffmanNode) (d : Nat) :
    weightedSum (depthPairs freq t d) = wplOf freq t d := by
  induction t generalizing d with
  | null => simp [depthPairs, wplOf, weightedSum]
  | node b f l r ihl ihr =>
    unfold depthPairs wplOf
    by_cases h : (node b f l r).isLeaf = true
    · rw [if_pos h, if_pos h]; simp [weightedSum]
    · rw [if_neg h, if_neg h, ← ihl, ← ihr]
      simp [weightedSum]

theorem keys_map_freqOf (freq : ByteMap Nat) (hs : (ByteMap.keys freq).Sorted (· < ·)) :
    (ByteMap.keys freq).map (freqOf freq) = freq.map Prod.snd := by
  have key : ∀ p ∈ freq, freqOf freq p.1 = p.2 := by
    intro p hp
    unfold freqOf
    rw [ByteMap.mem_find freq p.1 p.2 hs hp]
    rfl
  unfold ByteMap.keys
  rw [List.map_map]
  exact List.map_congr_left key

theorem costAt_eq_wplOf (freq : ByteMap Nat) (t : HuffmanNode) (d : Nat)
    (h : ∀ p ∈ leaves t, freqOf freq p.1 = p.2) : costAt t d = wplOf freq t d := by
  induction t generalizing d with
  | null => rfl
  | node b f l r ihl ihr =>
    unfold leaves at h
    unfold costAt wplOf
    by_cases hl : (node b f l r).isLeaf = true
    · rw [if_pos hl] at h
      rw [if_pos hl, if_pos hl, h (b, f) (by simp)]
    · rw [if_neg hl] at h
      rw [if_neg hl, if_neg hl,
        ihl (d + 1) (fun p hp => h p (List.mem_append_left _ hp)),
        ihr (d + 1) (fun p hp => h p (List.mem_append_right _ hp))]

theorem buildTree_wpl (pq : PriorityQueue) (freq : ByteMap Nat) (root0 : HuffmanNode)
    (hs : (ByteMap.keys freq).Sorted (· < ·)) (h2 : 2 ≤ freq.length) :
    costAt (buildTree pq freq root0) 0 = wplOf freq (buildTree pq freq root0) 0 := by
  apply costAt_eq_wplOf
  intro p hp
  have hmem : p ∈ freq := (buildTree_full pq freq root0 h2).2.subset hp
  unfold freqOf
  rw [ByteMap.mem_find freq p.1 p.2 hs hmem]
  rfl

theorem buildTree_wpl_le (pq : PriorityQueue) (freq : ByteMap Nat) (root0 u : HuffmanNode)
    (hs : (ByteMap.keys freq).Sorted (· < ·)) (h2 : 2 ≤ freq.length)
    (hb : (freq.map Prod.snd).sum < 2 ^ 31)
    (hu : Full u) (hl : (leafBytes u).Perm (ByteMap.keys freq)) :
    wplOf freq (buildTree pq freq root0) 0 ≤ wplOf freq u 0 := by
  rw [← buildTree_wpl pq freq root0 hs h2, ← depthPairs_weightedSum]
  apply buildTree_cost_le pq freq root0 h2 hb
  · rw [depthPairs_fst, ← keys_map_freqOf freq hs]
    exact Multiset.coe_eq_coe.2 (hl.map _)
  · exact depthPairs_treeDepths freq hu

theorem paths_wpl (freq : ByteMap Nat) (t : HuffmanNode) :
    ∀ (code : List Char),
      wplOf freq t code.length
        = ((paths t code).map (fun p => freqOf freq p.1 * p.2.length)).sum := by
  induction t with
  | null => intro code; simp [wplOf, paths]
  | node b f l r ihl ihr =>
    intro code
    unfold wplOf paths
    by_cases h : (node b f l r).isLeaf = true
    · rw [if_pos h, if_pos h]; simp
    · rw [if_neg h, if_neg h, List.map_append, List.sum_append, ← ihl, ← ihr]
      simp

theorem freqOf_countFrequencies_mod (data : List Byte) (k : Byte) :
    freqOf (countFrequencies data) k = data.count k % 2 ^ 32 := by
  unfold freqOf
  rw [countFrequencies_find]
  by_cases h : data.count k = 0
  · rw [if_pos h, h]; rfl
  · rw [if_neg h]; rfl

theorem freqOf_countFrequencies (data : List Byte) (k : Byte) (h : data.count k < 2 ^ 32) :
    freqOf (countFrequencies data) k = data.count k := by
  rw [freqOf_countFrequencies_mod, Nat.mod_eq_of_lt h]

theorem sum_by_keys (data : List Byte) (g : Byte → Nat) :
    (data.map g).sum
      = ((ByteMap.keys (countFrequencies data)).map (fun k => data.count k * g k)).sum := by
  have hnd : (ByteMap.keys (countFrequencies data)).Nodup := (countFrequencies_sorted data).nodup
  rw [← List.sum_toFinset _ hnd, Finset.sum_list_map_count]
  have hset : data.toFinset = (ByteMap.keys (countFrequencies data)).toFinset := by
    ext k
    simp only [List.mem_toFinset]
    exact (countFrequencies_keys data k).symm
  rw [hset]
  simp

theorem payloadLength_eq_wpl (pq : PriorityQueue) (s : HuffmanEncoder) (data : List Byte)
    (h2 : 2 ≤ (countFrequencies data).length) (hlen : data.length < 2 ^ 32) :
    payloadLength (codesOf pq s data) data
      = wplOf (countFrequencies data) (treeOf pq s data) 0 := by
  have hs := countFrequencies_sorted data
  obtain ⟨hfull, hperm⟩ := buildTree_full pq (countFrequencies data) s.root h2
  have hleaf : (treeOf pq s data).isLeaf = false :=
    buildTree_not_leaf pq (countFrequencies data) s.root h2
  change (treeOf pq s data).Full at hfull
  change (treeOf pq s data).leaves.Perm (countFrequencies data) at hperm
  have hkeys : (leafBytes (treeOf pq s data)).Perm (ByteMap.keys (countFrequencies data)) := by
    rw [← leaves_keys]
    exact hperm.map Prod.fst
  have hnd : ((paths (treeOf pq s data) []).map Prod.fst).Nodup := by
    rw [paths_keys]
    exact hkeys.nodup_iff.2 hs.nodup
  have hcode : ∀ p ∈ paths (treeOf pq s data) [], codeOf (codesOf pq s data) p.1 = p.2 := by
    intro p hp
    unfold codeOf codesOf
    rw [generateCodes_eq _ [] [] (Or.inr hleaf)]
    obtain ⟨c, hc1, hc2⟩ := foldl_set_find (paths (treeOf pq s data) []) [] p.1
      (List.mem_map.2 ⟨p, hp, rfl⟩)
    rw [hc1]
    have := List.inj_on_of_nodup_map hnd hc2 hp rfl
    rw [← this]
    rfl
  have e0 := paths_wpl (countFrequencies data) (treeOf pq s data) []
  simp only [List.length_nil] at e0
  rw [e0]
  have e1 : (paths (treeOf pq s data) []).map
      (fun p => freqOf (countFrequencies data) p.1 * p.2.length)
      = ((paths (treeOf pq s data) []).map Prod.fst).map
        (fun k => data.count k * (codeOf (codesOf pq s data) k).length) := by
    rw [List.map_map]
    apply List.map_congr_left
    intro p hp
    simp only [Function.comp, hcode p hp]
    rw [freqOf_countFrequencies data p.1 (lt_of_le_of_lt (List.count_le_length _ _) hlen)]
  rw [e1, paths_keys, (hkeys.map _).sum_eq]
  unfold payloadLength
  exact sum_by_keys data _

theorem wpl_queue_independent (pq : PriorityQueue) (freq : ByteMap Nat) (root0 root1 : HuffmanNode)
    (hs : (ByteMap.keys freq).Sorted (· < ·)) (h2 : 2 ≤ freq.length)
    (hb : (freq.map Prod.snd).sum < 2 ^ 31) :
    wplOf freq (buildTree pq freq root0) 0 = wplOf freq (buildTree listQueue freq root1) 0 := by
  obtain ⟨hf1, hp1⟩ := buildTree_full pq freq root0 h2
  obtain ⟨hf2, hp2⟩ := buildTree_full listQueue freq root1 h2
  have hk1 : (leafBytes (buildTree pq freq root0)).Perm (ByteMap.keys freq) := by
    rw [← leaves_keys]; exact hp1.map Prod.fst
  have hk2 : (leafBytes (buildTree listQueue freq root1)).Perm (ByteMap.keys freq) := by
    rw [← leaves_keys]; exact hp2.map Prod.fst
  exact le_antisymm (buildTree_wpl_le pq freq root0 _ hs h2 hb hf2 hk2)
    (buildTree_wpl_le listQueue freq root1 _ hs h2 hb hf1 hk1)

theorem ByteMap.find_append_last {V : Type} (m : ByteMap V) (v : Byte) (c : V)
    (hlt : ∀ p ∈ m, p.1 < v) : ByteMap.find (m ++ [(v, c)]) v = some c := by
  induction m with
  | nil => simp [ByteMap.find]
  | cons q qs ih =>
    obtain ⟨kq, vq⟩ := q
    have h1 : kq < v := hlt (kq, vq) (List.mem_cons_self _ _)
    simp only [List.cons_append, ByteMap.find]
    rw [if_neg (ne_of_gt h1)]
    exact ih (fun p hp => hlt p (List.mem_cons_of_mem _ hp))

theorem ByteMap.set_append_last {V : Type} (m : ByteMap V) (v : Byte) (c x : V)
    (hlt : ∀ p ∈ m, p.1 < v) : ByteMap.set (m ++ [(v, c)]) v x = m ++ [(v, x)] := by
  induction m with
  | nil => simp [ByteMap.set]
  | cons q qs ih =>
    obtain ⟨kq, vq⟩ := q
    have h1 : kq < v := hlt (kq, vq) (List.mem_cons_self _ _)
    simp only [List.cons_append, ByteMap.set]
    rw [if_neg (ne_of_gt h1), if_neg (not_lt.2 (le_of_lt h1))]
    exact congrArg _ (ih (fun p hp => hlt p (List.mem_cons_of_mem _ hp)))

theorem ByteMap.find_none_of_lt {V : Type} (m : ByteMap V) (v : Byte)
    (hlt : ∀ p ∈ m, p.1 < v) : ByteMap.find m v = none := by
  induction m with
  | nil => rfl
  | cons q qs ih =>
    obtain ⟨kq, vq⟩ := q
    have h1 : kq < v := hlt (kq, vq) (List.mem_cons_self _ _)
    simp only [ByteMap.find]
    rw [if_neg (ne_of_gt h1)]
    exact ih (fun p hp => hlt p (List.mem_cons_of_mem _ hp))

theorem ByteMap.set_new_last {V : Type} (m : ByteMap V) (v : Byte) (x : V)
    (hlt : ∀ p ∈ m, p.1 < v) : ByteMap.set m v x = m ++ [(v, x)] := by
  induction m with
  | nil => rfl
  | cons q qs ih =>
    obtain ⟨kq, vq⟩ := q
    have h1 : kq < v := hlt (kq, vq) (List.mem_cons_self _ _)
    simp only [List.cons_append, ByteMap.set]
    rw [if_neg (ne_of_gt h1), if_neg (not_lt.2 (le_of_lt h1))]
    exact congrArg _ (ih (fun p hp => hlt p (List.mem_cons_of_mem _ hp)))

theorem countFold_last (m : ByteMap Nat) (v : Byte) (hlt : ∀ p ∈ m, p.1 < v) (n c : Nat)
    (hc : c < 2 ^ 32) :
    (List.replicate n v).foldl (fun freq byte =>
        let r := ByteMap.index freq byte 0
        ByteMap.set r.2 byte ((r.1 + 1) % 2 ^ 32)) (m ++ [(v, c)])
      = m ++ [(v, (c + n) % 2 ^ 32)] := by
  induction n generalizing c with
  | zero =>
    rw [Nat.add_zero, Nat.mod_eq_of_lt hc]
    rfl
  | succ n ih =>
    rw [List.replicate_succ, List.foldl_cons]
    have e : (let r := ByteMap.index (m ++ [(v, c)]) v 0;
          ByteMap.set r.2 v ((r.1 + 1) % 2 ^ 32)) = m ++ [(v, (c + 1) % 2 ^ 32)] := by
      simp only [ByteMap.index, ByteMap.find_append_last m v c hlt,
        ByteMap.set_append_last m v c ((c + 1) % 2 ^ 32) hlt]
    rw [e, ih _ (Nat.mod_lt _ (by norm_num))]
    congr 3
    omega

theorem countFold_block (m : ByteMap Nat) (v : Byte) (hlt : ∀ p ∈ m, p.1 < v) (n : Nat)
    (hn : 1 ≤ n) :
    (List.replicate n v).foldl (fun freq byte =>
        let r := ByteMap.index freq byte 0
        ByteMap.set r.2 byte ((r.1 + 1) % 2 ^ 32)) m = m ++ [(v, n % 2 ^ 32)] := by
  obtain ⟨k, rfl⟩ : ∃ k, n = k + 1 := ⟨n - 1, by omega⟩
  rw [List.replicate_succ, List.foldl_cons]
  have e : (let r := ByteMap.index m v 0; ByteMap.set r.2 v ((r.1 + 1) % 2 ^ 32))
      = m ++ [(v, 1)] := by
    simp only [ByteMap.index, ByteMap.find_none_of_lt m v hlt, ByteMap.set_new_last m v 0 hlt,
      ByteMap.set_append_last m v 0 ((0 + 1) % 2 ^ 32) hlt]
    rfl
  rw [e, countFold_last m v hlt k 1 (by norm_num)]
  congr 3
  omega

theorem countFrequencies_blockInput (n m : Nat) (hn : 1 ≤ n) (hm : 1 ≤ m) :
    countFrequencies (blockInput n m)
      = [(0, n % 2 ^ 32), (1, n % 2 ^ 32), (2, n % 2 ^ 32), (3, n % 2 ^ 32),
          (4, m % 2 ^ 32)] := by
  unfold countFrequencies blockInput
  rw [List.foldl_append, List.foldl_append, List.foldl_append, List.foldl_append]
  rw [countFold_block [] 0 (by simp) _ hn]
  rw [countFold_block _ 1 (by intro p hp; simp at hp; rcases hp with rfl; dsimp only; decide) _ hn]
  rw [countFold_block _ 2 (by intro p hp; simp at hp; rcases hp with rfl | rfl <;> (dsimp only; decide)) _ hn]
  rw [countFold_block _ 3 (by intro p hp; simp at hp; rcases hp with rfl | rfl | rfl <;> (dsimp only; decide)) _ hn]
  rw [countFold_block _ 4 (by intro p hp; simp at hp; rcases hp with rfl | rfl | rfl | rfl <;> (dsimp only; decide)) _ hm]
  rfl

theorem blockInput_ne_nil (n m : Nat) (hn : 1 ≤ n) : blockInput n m ≠ [] := by
  intro h
  have := congrArg List.length h
  simp only [blockInput, List.length_append, List.length_replicate, List.length_nil] at this
  omega

set_option maxRecDepth 100000 in
theorem payloadLength_blockInput (pq : PriorityQueue) (s : HuffmanEncoder) :
    payloadLength (codesOf pq s (blockInput 300000000 694967296))
      (blockInput 300000000 694967296) = 2 ^ 32 := by
  have hc := countFrequencies_blockInput 300000000 694967296 (by norm_num) (by norm_num)
  have h2 : 2 ≤ (countFrequencies (blockInput 300000000 694967296)).length := by
    rw [hc]; decide
  have hlen : (blockInput 300000000 694967296).length < 2 ^ 32 := by
    simp only [blockInput, List.length_append, List.length_replicate]
    norm_num
  have hb : ((countFrequencies (blockInput 300000000 694967296)).map Prod.snd).sum < 2 ^ 31 := by
    rw [hc]; decide
  rw [payloadLength_eq_wpl pq s _ h2 hlen]
  unfold treeOf
  rw [wpl_queue_independent pq _ s.root null (countFrequencies_sorted _) h2 hb, hc]
  decide

theorem artifact_fields (a : List Byte) (tb R : List Bool) (P m : Nat)
    (hB : artifactBits a = (bitsMSB 32 tb.length ++ (tb ++ (bitsMSB 32 P ++ R))).take m)
    (hT : tb.length < 2 ^ 32) (hm : 64 + tb.length ≤ m) :
    treeBitLength a = tb.length ∧ payloadBitLength a = P % 2 ^ 32 := by
  have h32 : (artifactBits a).take 32 = bitsMSB 32 tb.length := by
    rw [hB, List.take_take, Nat.min_eq_left (by omega)]
    exact List.take_left' (bitsMSB_length _ _)
  have hTL : treeBitLength a = tb.length := by
    unfold treeBitLength
    rw [h32, valueOfBits_field, Nat.mod_eq_of_lt hT]
  have hdrop : (artifactBits a).drop (32 + tb.length)
      = (bitsMSB 32 P ++ R).take (m - (32 + tb.length)) := by
    rw [hB, List.drop_take, ← List.append_assoc,
      List.drop_left' (by simp [bitsMSB_length])]
  refine ⟨hTL, ?_⟩
  unfold payloadBitLength
  rw [hTL, hdrop, List.take_take, Nat.min_eq_left (by omega),
    List.take_left' (bitsMSB_length _ _), valueOfBits_field]

theorem encode_fields (pq : PriorityQueue) (s : HuffmanEncoder) (data : List Byte)
    (hne : data ≠ []) :
    treeBitLength (encode pq s data).1 = (serializeTree (treeOf pq s data) []).length
      ∧ payloadBitLength (encode pq s data).1
          = payloadLength (codesOf pq s data) data % 2 ^ 32 := by
  have hB : artifactBits (encode pq s data).1
      = (bitsMSB 32 (serializeTree (treeOf pq s data) []).length
        ++ (serializeTree (treeOf pq s data) []
        ++ (bitsMSB 32 (payloadLength (codesOf pq s data) data)
        ++ (payloadBits (codesOf pq s data) data ++ padBits (encodedBits pq s data))))).take
          ((encode pq s data).1.length * 8) := by
    rw [← encode_artifactBits pq s data hne, ← artifactBits_length, List.take_length]
  have hT := (treeOf_deserialize pq s data hne).2
  have hlen : (encode pq s data).1.length * 8
      = 32 + ((serializeTree (treeOf pq s data) []).length
        + (32 + ((payloadBits (codesOf pq s data) data).length
          + (padBits (encodedBits pq s data)).length))) := by
    rw [← artifactBits_length, encode_artifactBits pq s data hne]
    simp [bitsMSB_length]
  have h32 : (2559 : Nat) < 2 ^ 32 := by norm_num
  exact artifact_fields _ _ _ _ _ hB (by omega) (by omega)

/-- C1 as stated fails: for an input of 1894967296 bytes whose payload takes
`2^32` bits the payload length field holds 0 and `decode` returns the empty
sequence, whatever the priority queue and the states of the encoder objects. -/
theorem roundtrip_overflow :
    ¬ ∃ (pq : PriorityQueue) (s0 s s1 : HuffmanEncoder),
        decode s (encode pq s0 (blockInput 300000000 694967296)).1
          = Except.ok (blockInput 300000000 694967296, s1) := by
  rintro ⟨pq, s0, s, s1, h⟩
  have hne := blockInput_ne_nil 300000000 694967296 (by norm_num)
  obtain ⟨out, ho, hd⟩ := decode_encode_full pq s0 s _ hne
  rw [payloadLength_blockInput, Nat.mod_self, List.take_zero] at ho
  simp only [walk, Except.ok.injEq] at ho
  rw [hd, ← ho] at h
  simp only [Except.ok.injEq, Prod.mk.injEq] at h
  exact hne h.1.symm

/-- C3 as stated fails: for an input of 1894967296 bytes the sum `P` of the code
lengths is `2^32`, and the second field of the artifact holds 0, not `P`. -/
theorem layout_overflow :
    ¬ ∃ (pq : PriorityQueue) (s : HuffmanEncoder),
        payloadBitLength (encode pq s (blockInput 300000000 694967296)).1
          = payloadLength (codesOf pq s (blockInput 300000000 694967296))
              (blockInput 300000000 694967296) := by
  rintro ⟨pq, s, h⟩
  have hne := blockInput_ne_nil 300000000 694967296 (by norm_num)
  rw [(encode_fields pq s _ hne).2, payloadLength_blockInput, Nat.mod_self] at h
  exact absurd h (by norm_num)

/-- C3 (amended): for a non-empty input the bits of `encode(b)` are the 32-bit
field of `T`, the `T` bits of `serializeTree` of the built tree, the 32-bit
field of `P` (the sum of the code lengths of the bytes of `b`), the `P` payload
bits in input order, and fewer than 8 zero pad bits; the first field reads back
as `T`, the second as `P` modulo `2^32` (so as `P` when `P < 2^32`);
`encode(b)` has `ceil((64 + T + P) / 8)` bytes. -/
theorem encode_layout (pq : PriorityQueue) (s : HuffmanEncoder) (data : List Byte)
    (hne : data ≠ []) :
    artifactBits (encode pq s data).1
        = bitsMSB 32 (serializeTree (treeOf pq s data) []).length
          ++ (serializeTree (treeOf pq s data) []
          ++ (bitsMSB 32 (payloadLength (codesOf pq s data) data)
          ++ (payloadBits (codesOf pq s data) data ++ padBits (encodedBits pq s data))))
      ∧ (encode pq s data).2.root = treeOf pq s data
      ∧ (encode pq s data).2.codes = codesOf pq s data
      ∧ (payloadBits (codesOf pq s data) data).length = payloadLength (codesOf pq s data) data
      ∧ (padBits (encodedBits pq s data)).length < 8
      ∧ (∀ x ∈ padBits (encodedBits pq s data), x = false)
      ∧ treeBitLength (encode pq s data).1 = (serializeTree (treeOf pq s data) []).length
      ∧ payloadBitLength (encode pq s data).1
          = payloadLength (codesOf pq s data) data % 2 ^ 32
      ∧ (encode pq s data).1.length
          = (64 + (serializeTree (treeOf pq s data) []).length
              + payloadLength (codesOf pq s data) data + 7) / 8 := by
  refine ⟨encode_artifactBits pq s data hne, ?_, ?_, payloadBits_length _ _, ?_,
    padBits_all_false _, (encode_fields pq s data hne).1, (encode_fields pq s data hne).2, ?_⟩
  · rw [encode_eq pq s data hne]
  · rw [encode_eq pq s data hne]
  · rw [padBits_length]
    exact Nat.mod_lt _ (by norm_num)
  · rw [encode_eq pq s data hne]
    simp only
    rw [bitsToBytes_length]
    simp only [List.length_append, bitsMSB_length, payloadBits_length]
    congr 1
    omega

set_option maxRecDepth 100000 in
theorem encode_layout_witness :
    ([97, 97, 97, 98] : List Byte) ≠ []
      ∧ payloadBitLength (encode listQueue HuffmanEncoder.init [97, 97, 97, 98]).1
          = payloadLength (codesOf listQueue HuffmanEncoder.init [97, 97, 97, 98])
              [97, 97, 97, 98] % 2 ^ 32
      ∧ (encode listQueue HuffmanEncoder.init [97, 97, 97, 98]).1.length
          = (64 + (serializeTree (treeOf listQueue HuffmanEncoder.init [97, 97, 97, 98]) []).length
              + payloadLength (codesOf listQueue HuffmanEncoder.init [97, 97, 97, 98])
                  [97, 97, 97, 98] + 7) / 8 :=
  ⟨by decide,
    (encode_layout listQueue HuffmanEncoder.init [97, 97, 97, 98] (by decide)).2.2.2.2.2.2.2.1,
    (encode_layout listQueue HuffmanEncoder.init [97, 97, 97, 98] (by decide)).2.2.2.2.2.2.2.2⟩

theorem splitCodes_cons (bit : Bool) (w : Nat) (b : Bool) (t : List Bool)
    (L : List (Nat × List Bool)) :
    splitCodes bit ((w, b :: t) :: L)
      = if b = bit then (w, t) :: splitCodes bit L else splitCodes bit L := by
  unfold splitCodes
  by_cases h : b = bit <;> simp [List.filterMap_cons, h]

theorem splitCodes_sums (L : List (Nat × List Bool)) (h : ∀ p ∈ L, p.2 ≠ []) :
    (Multiset.ofList (L.map Prod.fst)
        = Multiset.ofList ((splitCodes false L).map Prod.fst)
          + Multiset.ofList ((splitCodes true L).map Prod.fst))
      ∧ (L.map (fun p => p.1 * p.2.length)).sum
          = ((splitCodes false L).map (fun p => p.1 * (p.2.length + 1))).sum
            + ((splitCodes true L).map (fun p => p.1 * (p.2.length + 1))).sum
      ∧ ((splitCodes false L).map (fun p => p.2.length)).sum + (splitCodes false L).length
          + (((splitCodes true L).map (fun p => p.2.length)).sum + (splitCodes true L).length)
          = (L.map (fun p => p.2.length)).sum := by
  induction L with
  | nil => simp [splitCodes]
  | cons p ps ih =>
    obtain ⟨w, c⟩ := p
    have hc : c ≠ [] := h (w, c) (List.mem_cons_self _ _)
    obtain ⟨i1, i2, i3⟩ := ih (fun q hq => h q (List.mem_cons_of_mem _ hq))
    cases c with
    | nil => exact absurd rfl hc
    | cons b t =>
      rw [splitCodes_cons, splitCodes_cons]
      cases b with
      | false =>
        simp only [if_true, Bool.false_eq_true, if_false, List.map_cons, List.sum_cons,
          List.length_cons]
        refine ⟨?_, ?_, ?_⟩
        · rw [← Multiset.cons_coe, ← Multiset.cons_coe, i1, Multiset.cons_add]
        · rw [i2]; ring
        · rw [← i3]; ring
      | true =>
        simp only [if_true, Bool.true_eq_false, if_false, List.map_cons, List.sum_cons,
          List.length_cons]
        refine ⟨?_, ?_, ?_⟩
        · rw [← Multiset.cons_coe, ← Multiset.cons_coe, i1, Multiset.add_cons]
        · rw [i2]; ring
        · rw [← i3]; ring

theorem splitCodes_pairwise (bit : Bool) (L : List (Nat × List Bool))
    (h : L.Pairwise (fun p q => ¬ p.2 <+: q.2 ∧ ¬ q.2 <+: p.2)) :
    (splitCodes bit L).Pairwise (fun p q => ¬ p.2 <+: q.2 ∧ ¬ q.2 <+: p.2) := by
  unfold splitCodes
  apply List.Pairwise.filterMap _ _ h
  intro p q hpq p1 hp1 q1 hq1
  obtain ⟨wp, cp⟩ := p
  obtain ⟨wq, cq⟩ := q
  cases cp with
  | nil => simp at hp1
  | cons bp tp =>
    cases cq with
    | nil => simp at hq1
    | cons bq tq =>
      simp only [Option.mem_def] at hp1 hq1
      by_cases h1 : bp = bit
      · by_cases h2 : bq = bit
        · rw [if_pos h1] at hp1
          rw [if_pos h2] at hq1
          injection hp1 with hp1
          injection hq1 with hq1
          rw [← hp1, ← hq1]
          simp only
          subst h1 h2
          refine ⟨fun hx => hpq.1 ?_, fun hx => hpq.2 ?_⟩
          · exact List.cons_prefix_cons.2 ⟨rfl, hx⟩
          · exact List.cons_prefix_cons.2 ⟨rfl, hx⟩
        · rw [if_neg h2] at hq1; cases hq1
      · rw [if_neg h1] at hp1; cases hp1

theorem weightedSum_shift (S : Multiset (Nat × Nat)) :
    (S.map (fun p => (p.1, p.2 + 1))).map Prod.fst = S.map Prod.fst
      ∧ (S.map (fun p => (p.1, p.2 + 1))).map Prod.snd = (S.map Prod.snd).map Nat.succ
      ∧ weightedSum (S.map (fun p => (p.1, p.2 + 1))) = weightedSum S + (S.map Prod.fst).sum := by
  refine ⟨by simp [Multiset.map_map, Function.comp], by simp [Multiset.map_map, Function.comp],
    ?_⟩
  induction S using Multiset.induction_on with
  | empty => simp [weightedSum]
  | cons p S ih =>
    simp only [weightedSum, Multiset.map_cons, Multiset.sum_cons, Multiset.map_map,
      Function.comp] at ih ⊢
    rw [ih]; ring

theorem sum_mul_length_le (L : List (Nat × List Bool)) :
    (L.map (fun p => p.1 * p.2.length)).sum ≤ (L.map (fun p => p.1 * (p.2.length + 1))).sum := by
  induction L with
  | nil => simp
  | cons p ps ih =>
    simp only [List.map_cons, List.sum_cons]
    nlinarith [Nat.zero_le p.1]

theorem sum_mul_succ (L : List (Nat × List Bool)) :
    (L.map (fun p => p.1 * (p.2.length + 1))).sum
      = (L.map (fun p => p.1 * p.2.length)).sum + (L.map Prod.fst).sum := by
  induction L with
  | nil => simp
  | cons p ps ih =>
    simp only [List.map_cons, List.sum_cons, ih]
    ring

theorem prefix_code_cost (n : Nat) :
    ∀ (L : List (Nat × List Bool)), L ≠ [] →
      L.Pairwise (fun p q => ¬ p.2 <+: q.2 ∧ ¬ q.2 <+: p.2) →
      (L.map (fun p => p.2.length)).sum ≤ n →
      ∃ S : Multiset (Nat × Nat), S.map Prod.fst = Multiset.ofList (L.map Prod.fst)
        ∧ TreeDepths (S.map Prod.snd)
        ∧ weightedSum S ≤ (L.map (fun p => p.1 * p.2.length)).sum := by
  induction n with
  | zero =>
    intro L hne hpw hlen
    cases L with
    | nil => exact absurd rfl hne
    | cons x xs =>
      have hx : x.2 = [] := by
        simp only [List.map_cons, List.sum_cons] at hlen
        exact List.eq_nil_of_length_eq_zero (by omega)
      cases xs with
      | nil =>
        refine ⟨{(x.1, 0)}, by simp, by simpa using TreeDepths.leaf, by simp [weightedSum]⟩
      | cons y ys =>
        have := (List.pairwise_cons.1 hpw).1 y (List.mem_cons_self _ _)
        rw [hx] at this
        exact absurd List.nil_prefix this.1
  | succ n ih =>
    intro L hne hpw hlen
    by_cases hempty : ∃ p ∈ L, p.2 = []
    · obtain ⟨p, hp, hp2⟩ := hempty
      cases L with
      | nil => exact absurd rfl hne
      | cons x xs =>
        cases xs with
        | nil =>
          refine ⟨{(x.1, 0)}, by simp, by simpa using TreeDepths.leaf, by simp [weightedSum]⟩
        | cons y ys =>
          exfalso
          rcases List.mem_cons.1 hp with h1 | h1
          · have := (List.pairwise_cons.1 hpw).1 y (List.mem_cons_self _ _)
            rw [← h1, hp2] at this
            exact this.1 List.nil_prefix
          · have := (List.pairwise_cons.1 hpw).1 p h1
            rw [hp2] at this
            exact this.2 List.nil_prefix
    · have hall : ∀ p ∈ L, p.2 ≠ [] := fun p hp h0 => hempty ⟨p, hp, h0⟩
      obtain ⟨hw, hc, hl⟩ := splitCodes_sums L hall
      have hp0 := splitCodes_pairwise false L hpw
      have hp1 := splitCodes_pairwise true L hpw
      by_cases h0 : splitCodes false L = []
      · have h1 : splitCodes true L ≠ [] := by
          intro h1
          rw [h0, h1] at hw
          have := congrArg Multiset.card hw
          simp at this
          exact hne this
        have hlen1 : (splitCodes true L).length ≥ 1 := List.length_pos.2 h1
        obtain ⟨S, hS1, hS2, hS3⟩ := ih _ h1 hp1 (by omega)
        refine ⟨S, ?_, hS2, ?_⟩
        · rw [hS1, hw, h0]; simp
        · rw [hc, h0]
          simp only [List.map_nil, List.sum_nil, Nat.zero_add]
          exact le_trans hS3 (sum_mul_length_le _)
      · by_cases h1 : splitCodes true L = []
        · have hlen0 : (splitCodes false L).length ≥ 1 := List.length_pos.2 h0
          obtain ⟨S, hS1, hS2, hS3⟩ := ih _ h0 hp0 (by omega)
          refine ⟨S, ?_, hS2, ?_⟩
          · rw [hS1, hw, h1]; simp
          · rw [hc, h1]
            simp only [List.map_nil, List.sum_nil, Nat.add_zero]
            exact le_trans hS3 (sum_mul_length_le _)
        · have hlen0 : (splitCodes false L).length ≥ 1 := List.length_pos.2 h0
          have hlen1 : (splitCodes true L).length ≥ 1 := List.length_pos.2 h1
          obtain ⟨S0, hS01, hS02, hS03⟩ := ih _ h0 hp0 (by omega)
          obtain ⟨S1, hS11, hS12, hS13⟩ := ih _ h1 hp1 (by omega)
          obtain ⟨a1, a2, a3⟩ := weightedSum_shift S0
          obtain ⟨b1, b2, b3⟩ := weightedSum_shift S1
          refine ⟨S0.map (fun p => (p.1, p.2 + 1)) + S1.map (fun p => (p.1, p.2 + 1)), ?_, ?_, ?_⟩
          · rw [Multiset.map_add, a1, b1, hS01, hS11, hw]
          · rw [Multiset.map_add, a2, b2]
            exact TreeDepths.node _ _ hS02 hS12
          · have e : weightedSum (S0.map (fun p => (p.1, p.2 + 1))
                + S1.map (fun p => (p.1, p.2 + 1)))
                = weightedSum (S0.map (fun p => (p.1, p.2 + 1)))
                  + weightedSum (S1.map (fun p => (p.1, p.2 + 1))) := by
              simp [weightedSum]
            rw [e, a3, b3, hS01, hS11, hc, sum_mul_succ, sum_mul_succ]
            simp only [Multiset.sum_coe]
            omega

theorem buildTree_le_prefix_code (pq : PriorityQueue) (freq : ByteMap Nat) (root0 : HuffmanNode)
    (hs : (ByteMap.keys freq).Sorted (· < ·)) (h2 : 2 ≤ freq.length)
    (hb : (freq.map Prod.snd).sum < 2 ^ 31) (c : Byte → List Bool)
    (hc : ∀ k1 ∈ ByteMap.keys freq, ∀ k2 ∈ ByteMap.keys freq, k1 ≠ k2 → ¬ c k1 <+: c k2) :
    wplOf freq (buildTree pq freq root0) 0 ≤ (freq.map (fun p => p.2 * (c p.1).length)).sum := by
  have hpw : (freq.map (fun p => (p.2, c p.1))).Pairwise
      (fun p q => ¬ p.2 <+: q.2 ∧ ¬ q.2 <+: p.2) := by
    rw [List.pairwise_map]
    have hk : freq.Pairwise (fun p q => p.1 < q.1) := by
      have := hs
      unfold ByteMap.keys List.Sorted at this
      exact List.pairwise_map.1 this
    have hk2 : freq.Pairwise (fun p q => p ∈ freq ∧ q ∈ freq ∧ p.1 < q.1) := by
      rw [List.pairwise_iff_forall_sublist] at hk ⊢
      intro a b hab
      exact ⟨hab.subset (by simp), hab.subset (by simp), hk hab⟩
    refine hk2.imp ?_
    rintro p q ⟨hp, hq, hlt⟩
    have hpk : p.1 ∈ ByteMap.keys freq := List.mem_map.2 ⟨p, hp, rfl⟩
    have hqk : q.1 ∈ ByteMap.keys freq := List.mem_map.2 ⟨q, hq, rfl⟩
    exact ⟨hc p.1 hpk q.1 hqk (ne_of_lt hlt), hc q.1 hqk p.1 hpk (ne_of_gt hlt)⟩
  have hne : freq.map (fun p => (p.2, c p.1)) ≠ [] := by
    intro h0
    have := congrArg List.length h0
    simp only [List.length_map, List.length_nil] at this
    omega
  obtain ⟨S, hS1, hS2, hS3⟩ := prefix_code_cost _ _ hne hpw (le_refl _)
  rw [← buildTree_wpl pq freq root0 hs h2]
  have hw : S.map Prod.fst = Multiset.ofList (freq.map Prod.snd) := by
    rw [hS1, List.map_map]
    rfl
  have := buildTree_cost_le pq freq root0 h2 hb S hw hS2
  rw [List.map_map] at hS3
  exact le_trans this hS3

theorem buildTree_root_irrelevant (pq : PriorityQueue) (freq : ByteMap Nat)
    (root0 root1 : HuffmanNode) (h : freq ≠ []) :
    buildTree pq freq root0 = buildTree pq freq root1 := by
  unfold buildTree
  have hne : freq.isEmpty = false := by
    cases freq with
    | nil => exact absurd rfl h
    | cons p ps => rfl
  rw [hne]
  simp

theorem countFrequencies_snd (data : List Byte) (p : Byte × Nat)
    (hp : p ∈ countFrequencies data) : p.2 = data.count p.1 % 2 ^ 32 := by
  have hf := ByteMap.mem_find _ p.1 p.2 (countFrequencies_sorted data) hp
  rw [countFrequencies_find] at hf
  by_cases hc : data.count p.1 = 0
  · rw [if_pos hc] at hf; cases hf
  · rw [if_neg hc] at hf
    injection hf with hf
    exact hf.symm

theorem table_sum_eq (data : List Byte) (hcnt : ∀ k, data.count k < 2 ^ 32) (g : Byte → Nat) :
    ((countFrequencies data).map (fun p => p.2 * g p.1)).sum = (data.map g).sum := by
  rw [sum_by_keys data g]
  unfold ByteMap.keys
  rw [List.map_map]
  congr 1
  apply List.map_congr_left
  intro p hp
  simp only [Function.comp]
  rw [countFrequencies_snd data p hp, Nat.mod_eq_of_lt (hcnt p.1)]

theorem countFrequencies_total (data : List Byte) (hcnt : ∀ k, data.count k < 2 ^ 32) :
    ((countFrequencies data).map Prod.snd).sum = data.length := by
  have h := table_sum_eq data hcnt (fun _ => 1)
  simp only [Nat.mul_one, List.map_const', List.sum_replicate, smul_eq_mul] at h
  exact h

theorem perm_pair_cases {α : Type} {x y a b : α} (h : [x, y].Perm [a, b]) :
    (x = a ∧ y = b) ∨ (x = b ∧ y = a) := by
  have hx : x ∈ [a, b] := h.subset (by simp)
  simp only [List.mem_cons, List.mem_singleton, List.not_mem_nil, or_false] at hx
  rcases hx with rfl | rfl
  · left
    exact ⟨rfl, List.singleton_perm_singleton.1 (List.Perm.cons_inv h)⟩
  · right
    have h1 : [x, y].Perm [x, a] := h.trans (List.Perm.swap _ _ _)
    exact ⟨rfl, List.singleton_perm_singleton.1 (List.Perm.cons_inv h1)⟩

set_option maxRecDepth 100000 in
theorem buildTree_three_overflow (pq : PriorityQueue) (root0 : HuffmanNode) :
    buildTree pq [(97, 2147483648), (98, 1), (99, 1)] root0
        = mkInternal 2147483650
            (mkInternal 2147483649 (mkLeaf 97 2147483648) (mkLeaf 98 1)) (mkLeaf 99 1)
      ∨ buildTree pq [(97, 2147483648), (98, 1), (99, 1)] root0
        = mkInternal 2147483650
            (mkInternal 2147483649 (mkLeaf 97 2147483648) (mkLeaf 99 1)) (mkLeaf 98 1) := by
  have h := buildTree_induct pq
    (fun F => F.Perm [mkLeaf 97 2147483648, mkLeaf 98 1, mkLeaf 99 1]
      ∨ F.Perm [mkInternal 2147483649 (mkLeaf 97 2147483648) (mkLeaf 98 1), mkLeaf 99 1]
      ∨ F.Perm [mkInternal 2147483649 (mkLeaf 97 2147483648) (mkLeaf 99 1), mkLeaf 98 1]
      ∨ F = [mkInternal 2147483650
            (mkInternal 2147483649 (mkLeaf 97 2147483648) (mkLeaf 98 1)) (mkLeaf 99 1)]
      ∨ F = [mkInternal 2147483650
            (mkInternal 2147483649 (mkLeaf 97 2147483648) (mkLeaf 99 1)) (mkLeaf 98 1)])
    (by
      intro l1 l2 hp hP
      rcases hP with hP | hP | hP | hP | hP
      · exact Or.inl (hp.symm.trans hP)
      · exact Or.inr (Or.inl (hp.symm.trans hP))
      · exact Or.inr (Or.inr (Or.inl (hp.symm.trans hP)))
      · rw [hP] at hp
        exact Or.inr (Or.inr (Or.inr (Or.inl (List.perm_singleton.1 hp.symm))))
      · rw [hP] at hp
        exact Or.inr (Or.inr (Or.inr (Or.inr (List.perm_singleton.1 hp.symm)))))
    (by
      intro x y rest hP hx _
      rcases hP with hP | hP | hP | hP | hP
      · have hl := hP.length_eq
        simp only [List.length_cons, List.length_nil] at hl
        obtain ⟨z, rfl⟩ : ∃ z, rest = [z] := List.length_eq_one.1 (by omega)
        have hxm : x ∈ [mkLeaf 97 2147483648, mkLeaf 98 1, mkLeaf 99 1] := hP.subset (by simp)
        have hA : mkLeaf 97 2147483648 ∈ x :: y :: [z] := hP.symm.subset (by simp)
        have hxA : x = mkLeaf 97 2147483648 := by
          rcases List.mem_cons.1 hA with h1 | h1
          · exact h1.symm
          · have h2 := hx _ h1
            simp only [List.mem_cons, List.mem_singleton, List.not_mem_nil, or_false] at hxm
            rcases hxm with rfl | rfl | rfl
            · rfl
            · exact absurd h2 (by decide)
            · exact absurd h2 (by decide)
        subst hxA
        rcases perm_pair_cases (List.Perm.cons_inv hP) with ⟨rfl, rfl⟩ | ⟨rfl, rfl⟩
        · exact Or.inr (Or.inl (List.Perm.refl _))
        · exact Or.inr (Or.inr (Or.inl (List.Perm.refl _)))
      · have hl := hP.length_eq
        simp only [List.length_cons, List.length_nil] at hl
        obtain rfl : rest = [] := List.eq_nil_of_length_eq_zero (by omega)
        rcases perm_pair_cases hP with ⟨rfl, rfl⟩ | ⟨rfl, rfl⟩
        · exact Or.inr (Or.inr (Or.inr (Or.inl rfl)))
        · exact absurd (hx _ (List.mem_cons_self _ _)) (by decide)
      · have hl := hP.length_eq
        simp only [List.length_cons, List.length_nil] at hl
        obtain rfl : rest = [] := List.eq_nil_of_length_eq_zero (by omega)
        rcases perm_pair_cases hP with ⟨rfl, rfl⟩ | ⟨rfl, rfl⟩
        · exact Or.inr (Or.inr (Or.inr (Or.inr rfl)))
        · exact absurd (hx _ (List.mem_cons_self _ _)) (by decide)
      · simp at hP
      · simp at hP)
    [(97, 2147483648), (98, 1), (99, 1)] root0 (by simp) (Or.inl (List.Perm.refl _))
  rcases h with h | h | h | h | h
  · have := h.length_eq
    simp at this
  · have := h.length_eq
    simp at this
  · have := h.length_eq
    simp at this
  · left; simpa using h
  · right; simpa using h

/-- C5 (amended): for a frequency table with at least two byte values whose
counts sum to less than `2^31` (the table of every input of fewer than `2^31`
bytes with two distinct values), the tree returned by `buildTree` has two
children at every internal node and the byte values of the table as its leaves,
and its weighted path length (the sum over the leaves of frequency times depth)
is at most that of every tree `u` of this kind; it is also at most the total
length that any prefix-free code `c` for those bytes gives, and for an input of
fewer than `2^31` bytes with this frequency table it is the payload bit length
that `encode` writes, which no prefix-free code for the bytes of the input
undercuts. -/
theorem buildTree_optimal (pq : PriorityQueue) (freq : ByteMap Nat) (root0 : HuffmanNode)
    (hs : (ByteMap.keys freq).Sorted (· < ·)) (h2 : 2 ≤ freq.length)
    (hb : (freq.map Prod.snd).sum < 2 ^ 31) :
    Full (buildTree pq freq root0)
      ∧ (leafBytes (buildTree pq freq root0)).Perm (ByteMap.keys freq)
      ∧ (∀ u, Full u → (leafBytes u).Perm (ByteMap.keys freq) →
          wplOf freq (buildTree pq freq root0) 0 ≤ wplOf freq u 0)
      ∧ (∀ c : Byte → List Bool,
          (∀ k1 ∈ ByteMap.keys freq, ∀ k2 ∈ ByteMap.keys freq, k1 ≠ k2 → ¬ c k1 <+: c k2) →
          wplOf freq (buildTree pq freq root0) 0
            ≤ (freq.map (fun p => p.2 * (c p.1).length)).sum)
      ∧ (∀ (s : HuffmanEncoder) (data : List Byte), data.length < 2 ^ 31 →
          countFrequencies data = freq →
          payloadLength (codesOf pq s data) data = wplOf freq (buildTree pq freq root0) 0
            ∧ ∀ c : Byte → List Bool,
                (∀ k1 ∈ ByteMap.keys freq, ∀ k2 ∈ ByteMap.keys freq, k1 ≠ k2 →
                  ¬ c k1 <+: c k2) →
                payloadLength (codesOf pq s data) data
                  ≤ (data.map (fun b => (c b).length)).sum) := by
  obtain ⟨hf, hp⟩ := buildTree_full pq freq root0 h2
  have hcode := buildTree_le_prefix_code pq freq root0 hs h2 hb
  refine ⟨hf, ?_, ?_, hcode, ?_⟩
  · rw [← leaves_keys]
    exact hp.map Prod.fst
  · intro u hu hl
    exact buildTree_wpl_le pq freq root0 u hs h2 hb hu hl
  · intro s data hlen hd
    have hlen2 : data.length < 2 ^ 32 := by omega
    have h2d : 2 ≤ (countFrequencies data).length := by rw [hd]; exact h2
    have e : payloadLength (codesOf pq s data) data
        = wplOf freq (buildTree pq freq root0) 0 := by
      rw [payloadLength_eq_wpl pq s data h2d hlen2]
      unfold treeOf
      rw [hd, buildTree_root_irrelevant pq freq s.root root0 (by
        intro h0
        rw [h0] at h2
        simp at h2)]
    refine ⟨e, ?_⟩
    intro c hc
    rw [e, ← table_sum_eq data
      (fun k => lt_of_le_of_lt (List.count_le_length _ _) hlen2) (fun b => (c b).length), hd]
    exact hcode c hc

set_option maxRecDepth 100000 in
theorem buildTree_optimal_witness :
    (ByteMap.keys [((1 : Byte), 5), (2, 1), (3, 1)]).Sorted (· < ·)
      ∧ 2 ≤ ([((1 : Byte), 5), (2, 1), (3, 1)] : ByteMap Nat).length
      ∧ (([((1 : Byte), 5), (2, 1), (3, 1)] : ByteMap Nat).map Prod.snd).sum < 2 ^ 31
      ∧ Full (buildTree listQueue [(1, 5), (2, 1), (3, 1)] null)
      ∧ (∀ u, Full u → (leafBytes u).Perm (ByteMap.keys [((1 : Byte), 5), (2, 1), (3, 1)]) →
          wplOf [(1, 5), (2, 1), (3, 1)] (buildTree listQueue [(1, 5), (2, 1), (3, 1)] null) 0
            ≤ wplOf [(1, 5), (2, 1), (3, 1)] u 0) :=
  ⟨by decide, by decide, by decide,
    (buildTree_optimal listQueue [(1, 5), (2, 1), (3, 1)] null (by decide) (by decide)
      (by decide)).1,
    (buildTree_optimal listQueue [(1, 5), (2, 1), (3, 1)] null (by decide) (by decide)
      (by decide)).2.2.1⟩

theorem countFrequencies_skewed :
    countFrequencies (skewedInput 2147483648)
      = [(97, 2147483648), (98, 1), (99, 1)] := by
  unfold countFrequencies skewedInput
  rw [List.foldl_append, countFold_block [] 97 (by simp) 2147483648 (by norm_num)]
  rfl

set_option maxRecDepth 100000 in
theorem payloadLength_skewed (pq : PriorityQueue) (s : HuffmanEncoder) :
    payloadLength (codesOf pq s (skewedInput 2147483648))
      (skewedInput 2147483648) = 2 ^ 32 + 3 := by
  have hc : codesOf pq s (skewedInput 2147483648)
        = [(97, ['0', '0']), (98, ['0', '1']), (99, ['1'])]
      ∨ codesOf pq s (skewedInput 2147483648)
        = [(97, ['0', '0']), (98, ['1']), (99, ['0', '1'])] := by
    unfold codesOf treeOf
    rw [countFrequencies_skewed]
    rcases buildTree_three_overflow pq s.root with h | h
    · left; rw [h]; decide
    · right; rw [h]; decide
  unfold payloadLength
  rcases hc with hc | hc <;> rw [hc] <;> unfold skewedInput <;>
    rw [List.map_append, List.sum_append, List.map_replicate, List.sum_replicate,
      smul_eq_mul] <;> decide

/-- C5 as stated fails: for the input of `2^31` bytes `61` followed by one byte
`62` and one byte `63`, the `int` count of `61` is `-2^31`, the lightest weight,
so that `61` gets a code of 2 bits and `encode` writes a payload of `2^32 + 3`
bits, whatever the priority queue; the prefix-free code `0`, `10`, `11` takes
`2^31 + 4` bits. -/
theorem optimal_overflow :
    ¬ ∃ (pq : PriorityQueue) (s : HuffmanEncoder),
        ∀ c : Byte → List Bool,
          (∀ k1 ∈ ([97, 98, 99] : List Byte), ∀ k2 ∈ ([97, 98, 99] : List Byte),
            k1 ≠ k2 → ¬ c k1 <+: c k2) →
          payloadLength (codesOf pq s (skewedInput 2147483648))
              (skewedInput 2147483648)
            ≤ ((skewedInput 2147483648).map (fun b => (c b).length)).sum := by
  rintro ⟨pq, s, h⟩
  have h1 := h (fun b => if b = 97 then [false] else if b = 98 then [true, false]
    else [true, true]) (by
      intro k1 hk1 k2 hk2 hne
      simp only [List.mem_cons, List.mem_singleton, List.not_mem_nil, or_false] at hk1 hk2
      rcases hk1 with rfl | rfl | rfl <;> rcases hk2 with rfl | rfl | rfl <;>
        first
          | exact absurd rfl hne
          | decide)
  rw [payloadLength_skewed] at h1
  unfold skewedInput at h1
  rw [List.map_append, List.sum_append, List.map_replicate, List.sum_replicate,
    smul_eq_mul] at h1
  revert h1
  decide

/-- C11: `encode` of the empty byte sequence returns the empty byte sequence and
`decode` of the empty byte sequence returns the empty byte sequence; both leave
the members of the encoder object as they were (nothing is built, written or
read). -/
theorem empty_input (pq : PriorityQueue) (s : HuffmanEncoder) :
    encode pq s [] = ([], s) ∧ decode s [] = Except.ok ([], s) :=
  ⟨rfl, rfl⟩

theorem decodeLoop_total (bits : List Bool) (root : HuffmanNode) (hroot : root.isNull = false) :
    ∀ (n pos : Nat) (current : HuffmanNode) (decoded : List Byte), current.isNull = false →
      ∃ out, decodeLoop bits root n pos current decoded = Except.ok out := by
  intro n
  induction n with
  | zero => intro pos current decoded _; exact ⟨decoded, rfl⟩
  | succ n ih =>
    intro pos current decoded hc
    unfold decodeLoop
    by_cases h : pos ≥ bits.length
    · rw [if_pos h]; exact ⟨decoded, rfl⟩
    · have hlt : pos < bits.length := by omega
      rw [if_neg h, readBit_of_lt bits pos hlt]
      cases current with
      | null => simp [isNull] at hc
      | node b f l r =>
        simp only [follow, Except.bind, bind]
        by_cases h1 : (if bits.get ⟨pos, hlt⟩ = true then r else l).isNull = true
        · rw [if_pos h1]; exact ⟨decoded, rfl⟩
        · rw [if_neg h1]
          have h1f : (if bits.get ⟨pos, hlt⟩ = true then r else l).isNull = false := by
            simpa using h1
          by_cases h2 : (if bits.get ⟨pos, hlt⟩ = true then r else l).isLeaf = true
          · rw [if_pos h2]; exact ih _ _ _ hroot
          · rw [if_neg h2]; exact ih _ _ _ h1f

theorem deserializeTree_total_at (bits : List Bool) (pos : Nat) :
    ∃ t p, deserializeTree bits pos = Except.ok (t, p) ∧ pos ≤ p
      ∧ (pos ≤ bits.length → p ≤ bits.length) := by
  by_cases hp : pos ≤ bits.length
  · obtain ⟨t, p, ov, h, h1, h2, -⟩ :=
      deserializeTreeAux_total bits (bits.length - pos) pos (le_refl _) hp
    exact ⟨t, p, (h _ (le_refl _)).1, h1, fun _ => h2⟩
  · refine ⟨null, pos, ?_, le_refl _, fun h => absurd h hp⟩
    unfold deserializeTree
    have e : bits.length - pos + 1 = 0 + 1 := by omega
    rw [e]
    unfold deserializeTreeAux
    rw [if_pos (by omega)]

theorem decode_total (s : HuffmanEncoder) (a : List Byte) :
    ∃ out s1, decode s a = Except.ok (out, s1) := by
  by_cases ha : a = []
  · subst ha; exact ⟨[], s, rfl⟩
  · rw [decode_eq s a ha]
    by_cases h1 : a.length * 8 < 32
    · rw [if_pos h1]; exact ⟨_, _, rfl⟩
    · rw [if_neg h1]
      by_cases h2 : 32 + treeBitLength a > a.length * 8
      · rw [if_pos h2]; exact ⟨_, _, rfl⟩
      · rw [if_neg h2]
        obtain ⟨t, p, ht, -⟩ := deserializeTree_total (treeSection a)
        rw [ht]
        simp only
        by_cases h3 : t.isNull = true
        · rw [if_pos h3]; exact ⟨_, _, rfl⟩
        · rw [if_neg h3]
          by_cases h4 : a.length * 8 < 32 + treeBitLength a + 32
          · rw [if_pos h4]; exact ⟨_, _, rfl⟩
          · rw [if_neg h4]
            have h3f : t.isNull = false := by simpa using h3
            obtain ⟨out, ho⟩ := decodeLoop_total (artifactBits a) t h3f (payloadBitLength a)
              (32 + treeBitLength a + 32) t [] h3f
            rw [ho]
            exact ⟨_, _, rfl⟩

theorem fault_paths (bits : List Bool) (pos first last : Nat) (bit : Bool) :
    (bits.length ≤ pos → readBit bits pos = Except.error Fault.outOfRange)
      ∧ (bits.length < last → sliceBits bits first last = Except.error Fault.outOfRange)
      ∧ follow null bit = Except.error Fault.nullDeref := by
  refine ⟨?_, ?_, rfl⟩
  · intro h
    unfold readBit
    rw [List.getElem?_eq_none h]
  · intro h
    unfold sliceBits
    rw [if_neg (by omega)]

/-- C18: for every byte sequence given to `decode`, `decode` returns a result:
it terminates, no index it reads in the bit vector is out of range, the range
it copies as the tree section lies inside the bit vector, and no null pointer
is followed (each of these is a fault of the model: a read `bits[pos]` with
`pos` not below the size, a range that ends after the size, a child of `null`);
and from every cursor `deserializeTree` returns a result on every bit sequence,
with a cursor that has not moved back and does not exceed the number of bits
when it did not at the call. -/
theorem decode_safe (s : HuffmanEncoder) (a : List Byte) (bits : List Bool) (pos : Nat) :
    ((∃ out s1, decode s a = Except.ok (out, s1))
      ∧ ∃ t p, deserializeTree bits pos = Except.ok (t, p) ∧ pos ≤ p
          ∧ (pos ≤ bits.length → p ≤ bits.length))
      ∧ ((bits.length ≤ pos → readBit bits pos = Except.error Fault.outOfRange)
        ∧ (∀ first last, bits.length < last →
            sliceBits bits first last = Except.error Fault.outOfRange)
        ∧ ∀ bit, follow null bit = Except.error Fault.nullDeref) :=
  ⟨⟨decode_total s a, deserializeTree_total_at bits pos⟩,
    (fault_paths bits pos 0 0 false).1,
    fun first last => (fault_paths bits pos first last false).2.1,
    fun bit => (fault_paths bits pos 0 0 bit).2.2⟩

theorem count_ne_zero_iff (data : List Byte) (k : Byte) : data.count k ≠ 0 ↔ k ∈ data := by
  rw [← List.count_pos_iff]
  omega

theorem countFrequencies_mem_iff (data : List Byte) (k : Byte) (n : Nat) :
    (k, n) ∈ countFrequencies data ↔ (k ∈ data ∧ n = data.count k % 2 ^ 32) := by
  constructor
  · intro h
    have hf := ByteMap.mem_find _ k n (countFrequencies_sorted data) h
    rw [countFrequencies_find] at hf
    by_cases hc : data.count k = 0
    · rw [if_pos hc] at hf; cases hf
    · rw [if_neg hc] at hf
      injection hf with hf
      exact ⟨(count_ne_zero_iff data k).1 hc, hf.symm⟩
  · rintro ⟨hk, hn⟩
    apply ByteMap.find_mem
    rw [countFrequencies_find, if_neg ((count_ne_zero_iff data k).2 hk), hn]

theorem countFrequencies_small (data : List Byte) (hcnt : ∀ k, data.count k < 2 ^ 31) :
    (∀ k n, (k, n) ∈ countFrequencies data ↔ (k ∈ data ∧ n = data.count k))
      ∧ (∀ p ∈ countFrequencies data,
          intValue p.2 = (data.count p.1 : Int) ∧ 0 < intValue p.2)
      ∧ ((countFrequencies data).map Prod.snd).sum = data.length := by
  have hmod : ∀ k, data.count k % 2 ^ 32 = data.count k := fun k => wrap_of_lt (hcnt k)
  refine ⟨?_, ?_, ?_⟩
  · intro k n
    rw [countFrequencies_mem_iff, hmod]
  · intro p hp
    obtain ⟨hk, hn⟩ := (countFrequencies_mem_iff data p.1 p.2).1 hp
    rw [hmod] at hn
    rw [hn, intValue_of_lt (hcnt p.1)]
    exact ⟨rfl, Int.ofNat_lt.2 (List.count_pos_iff.2 hk)⟩
  · apply countFrequencies_total
    intro k
    have := hcnt k
    omega

/-- C16 (amended): the table of `countFrequencies` has an entry for a byte value
exactly when the value occurs in the input, the count of an entry is the number
of occurrences of its value wrapped to the 32 bits of an `int`, and the empty
input gives the empty table; when no value occurs `2^31` times or more, the
count of an entry is the number of occurrences of its value (so it is positive)
and the counts sum to the length of the input. -/
theorem countFrequencies_spec (data : List Byte) :
    (∀ k, k ∈ ByteMap.keys (countFrequencies data) ↔ k ∈ data)
      ∧ (∀ k n, (k, n) ∈ countFrequencies data ↔ (k ∈ data ∧ n = data.count k % 2 ^ 32))
      ∧ countFrequencies [] = []
      ∧ ((∀ k, data.count k < 2 ^ 31) →
          (∀ k n, (k, n) ∈ countFrequencies data ↔ (k ∈ data ∧ n = data.count k))
          ∧ (∀ p ∈ countFrequencies data,
              intValue p.2 = (data.count p.1 : Int) ∧ 0 < intValue p.2)
          ∧ ((countFrequencies data).map Prod.snd).sum = data.length) :=
  ⟨countFrequencies_keys data, countFrequencies_mem_iff data, rfl,
    countFrequencies_small data⟩

set_option maxRecDepth 100000 in
theorem countFrequencies_spec_witness :
    (∀ k, ([97, 97, 97, 98] : List Byte).count k < 2 ^ 31)
      ∧ (∀ p ∈ countFrequencies [97, 97, 97, 98],
          intValue p.2 = (([97, 97, 97, 98] : List Byte).count p.1 : Int) ∧ 0 < intValue p.2)
      ∧ ((countFrequencies [97, 97, 97, 98]).map Prod.snd).sum
          = ([97, 97, 97, 98] : List Byte).length :=
  ⟨fun k => lt_of_le_of_lt (List.count_le_length _ _) (by decide),
    ((countFrequencies_spec [97, 97, 97, 98]).2.2.2
      (fun k => lt_of_le_of_lt (List.count_le_length _ _) (by decide))).2.1,
    ((countFrequencies_spec [97, 97, 97, 98]).2.2.2
      (fun k => lt_of_le_of_lt (List.count_le_length _ _) (by decide))).2.2⟩

/-- C16 as stated fails: for the input of `2^31` bytes `61` the `int` counter has
wrapped around, and the count of `61` in the table is `-2^31`, which is neither
positive nor the number of occurrences. -/
theorem count_overflow :
    ∃ n, (97, n) ∈ countFrequencies (List.replicate 2147483648 (97 : Byte))
      ∧ intValue n = -2147483648
      ∧ ¬ 0 < intValue n
      ∧ intValue n ≠ ((List.replicate 2147483648 (97 : Byte)).count 97 : Int) := by
  refine ⟨2147483648, ?_, by decide, by decide, ?_⟩
  · rw [countFrequencies_replicate 97 2147483648 (by norm_num)]
    exact List.mem_singleton.2 rfl
  · rw [List.count_replicate_self]
    decide

/-- C17: for a bit sequence `s` of length `n`, `bitsToBytes(s)` has `ceil(n / 8)`
bytes, `bytesToBits(bitsToBytes(s), n)` is `s`, and unpacking all 8 bits of
every byte of `bitsToBytes(s)` gives `s` followed by `8 * ceil(n / 8) - n` zero
bits. -/
theorem pack_unpack (bits : List Bool) :
    (bitsToBytes bits).length = (bits.length + 7) / 8
      ∧ bytesToBits (bitsToBytes bits) bits.length = bits
      ∧ bytesToBits (bitsToBytes bits) ((bitsToBytes bits).length * 8)
          = bits ++ List.replicate (8 * ((bits.length + 7) / 8) - bits.length) false := by
  refine ⟨bitsToBytes_length bits, ?_, ?_⟩
  · rw [bytesToBits_eq, artifactBits_bitsToBytes, List.take_left]
  · rw [bytesToBits_all, artifactBits_bitsToBytes, padBits]
    congr 2
    omega

/-- C14: for a frequency table with at least two byte values, every node of the
tree returned by `buildTree` is a leaf or an internal node with two children,
and the leaves are the byte values of the table, each at exactly one leaf. -/
theorem buildTree_shape (pq : PriorityQueue) (freq : ByteMap Nat) (root0 : HuffmanNode)
    (hs : (ByteMap.keys freq).Sorted (· < ·)) (h2 : 2 ≤ freq.length) :
    Full (buildTree pq freq root0)
      ∧ (leafBytes (buildTree pq freq root0)).Perm (ByteMap.keys freq)
      ∧ (leafBytes (buildTree pq freq root0)).Nodup
      ∧ ∀ k, (leafBytes (buildTree pq freq root0)).count k
          = if k ∈ ByteMap.keys freq then 1 else 0 := by
  obtain ⟨hf, hp⟩ := buildTree_full pq freq root0 h2
  have hk : (leafBytes (buildTree pq freq root0)).Perm (ByteMap.keys freq) := by
    rw [← leaves_keys]
    exact hp.map Prod.fst
  have hn : (leafBytes (buildTree pq freq root0)).Nodup := hk.nodup_iff.2 hs.nodup
  refine ⟨hf, hk, hn, ?_⟩
  intro k
  by_cases h : k ∈ ByteMap.keys freq
  · rw [if_pos h]
    exact List.count_eq_one_of_mem hn (hk.symm.subset h)
  · rw [if_neg h]
    exact List.count_eq_zero_of_not_mem (fun hm => h (hk.subset hm))

set_option maxRecDepth 100000 in
theorem buildTree_shape_witness :
    Full (buildTree listQueue [(1, 5), (2, 1), (3, 1)] null)
      ∧ (leafBytes (buildTree listQueue [(1, 5), (2, 1), (3, 1)] null)).Perm
          (ByteMap.keys [((1 : Byte), 5), (2, 1), (3, 1)])
      ∧ (leafBytes (buildTree listQueue [(1, 5), (2, 1), (3, 1)] null)).Nodup
      ∧ ∀ k, (leafBytes (buildTree listQueue [(1, 5), (2, 1), (3, 1)] null)).count k
          = if k ∈ ByteMap.keys [((1 : Byte), 5), (2, 1), (3, 1)] then 1 else 0 :=
  buildTree_shape listQueue [(1, 5), (2, 1), (3, 1)] null (by decide) (by decide)

theorem buildTree_weights (pq : PriorityQueue) (freq : ByteMap Nat) (root0 : HuffmanNode)
    (h2 : 2 ≤ freq.length) (hb : (freq.map Prod.snd).sum < 2 ^ 31) :
    WeightOrdered (buildTree pq freq root0)
      ∧ (buildTree pq freq root0).freq = (freq.map Prod.snd).sum := by
  have h := buildTree_induct_small pq
    (fun F => (∀ t ∈ F, WeightOrdered t)
      ∧ (F.map HuffmanNode.freq).sum = (freq.map Prod.snd).sum)
    (by
      rintro l1 l2 hp ⟨hP1, hP2⟩
      exact ⟨fun t ht => hP1 t (hp.symm.subset ht),
        by rw [← (hp.map HuffmanNode.freq).sum_eq]; exact hP2⟩)
    (by
      rintro x y rest ⟨hP1, hP2⟩ hx _
      have hsum : x.freq + y.freq + (rest.map HuffmanNode.freq).sum < 2 ^ 31 := by
        simp only [List.map_cons, List.sum_cons] at hP2
        omega
      refine ⟨?_, ?_⟩
      · intro t ht
        rcases List.mem_cons.1 ht with h1 | h1
        · rw [h1]
          refine WeightOrdered.internal _ _ _ _ (hP1 x (by simp)) (hP1 y (by simp)) ?_ ?_
          · rw [intValue_of_lt (by omega : x.freq + y.freq < 2 ^ 31),
              intValue_of_lt (by omega : x.freq < 2 ^ 31),
              intValue_of_lt (by omega : y.freq < 2 ^ 31)]
            push_cast
            rfl
          · rw [intValue_of_lt (by omega : x.freq < 2 ^ 31),
              intValue_of_lt (by omega : y.freq < 2 ^ 31)]
            exact Int.ofNat_le.2 (hx y (by simp))
        · exact hP1 t (by simp [h1])
      · simp only [List.map_cons, List.sum_cons] at hP2 ⊢
        rw [← hP2]
        simp only [mkInternal, HuffmanNode.freq]
        omega)
    freq root0 h2 hb
    (by
      refine ⟨?_, ?_⟩
      · intro t ht
        obtain ⟨p, _, hp⟩ := List.mem_map.1 ht
        rw [← hp]
        exact WeightOrdered.leaf _ _
      · rw [List.map_map]
        rfl)
  simp only [List.mem_singleton, forall_eq, List.map_cons, List.map_nil, List.sum_cons,
    List.sum_nil, Nat.add_zero] at h
  exact h

/-- C15 (amended): for a frequency table with at least two byte values whose
counts sum to less than `2^31`, every internal node of the tree returned by
`buildTree` has the sum of the weights of its two children as weight, and its
left child (the first extracted) is not heavier than its right child (the
second extracted); the weight of the root is the sum of the counts of the
table, which is the length of the input of fewer than `2^31` bytes that the
table was counted from. -/
theorem buildTree_weight_order (pq : PriorityQueue) (freq : ByteMap Nat) (root0 : HuffmanNode)
    (h2 : 2 ≤ freq.length) (hb : (freq.map Prod.snd).sum < 2 ^ 31) :
    WeightOrdered (buildTree pq freq root0)
      ∧ intValue (buildTree pq freq root0).freq = ((freq.map Prod.snd).sum : Nat)
      ∧ ∀ data, data.length < 2 ^ 31 → countFrequencies data = freq →
          intValue (buildTree pq freq root0).freq = (data.length : Int) := by
  obtain ⟨h1, h3⟩ := buildTree_weights pq freq root0 h2 hb
  have h4 : intValue (buildTree pq freq root0).freq = ((freq.map Prod.snd).sum : Nat) := by
    rw [h3, intValue_of_lt hb]
  refine ⟨h1, h4, ?_⟩
  intro data hlen hd
  rw [h4, ← hd, countFrequencies_total data
    (fun k => lt_of_le_of_lt (List.count_le_length _ _) (by omega))]

set_option maxRecDepth 100000 in
theorem buildTree_weight_order_witness :
    2 ≤ ([((1 : Byte), 5), (2, 1), (3, 1)] : ByteMap Nat).length
      ∧ (([((1 : Byte), 5), (2, 1), (3, 1)] : ByteMap Nat).map Prod.snd).sum < 2 ^ 31
      ∧ WeightOrdered (buildTree listQueue [(1, 5), (2, 1), (3, 1)] null)
      ∧ intValue (buildTree listQueue [(1, 5), (2, 1), (3, 1)] null).freq
          = ((([((1 : Byte), 5), (2, 1), (3, 1)] : ByteMap Nat).map Prod.snd).sum : Nat) :=
  ⟨by decide, by decide,
    (buildTree_weight_order listQueue [(1, 5), (2, 1), (3, 1)] null (by decide)
      (by decide)).1,
    (buildTree_weight_order listQueue [(1, 5), (2, 1), (3, 1)] null (by decide)
      (by decide)).2.1⟩

set_option maxRecDepth 100000 in
/-- C15 as stated fails: for the table `{61: 2^31 - 1, 62: 1}` (an input of `2^31`
bytes) the sum of the two weights does not fit an `int`: the root gets the
weight `-2^31`, which is neither the sum of the weights of its children nor the
length of the input, whatever the priority queue. -/
theorem weight_overflow :
    (¬ ∃ (pq : PriorityQueue) (root0 : HuffmanNode),
        WeightOrdered (buildTree pq [(97, 2147483647), (98, 1)] root0))
      ∧ intValue (buildTree listQueue [(97, 2147483647), (98, 1)] null).freq
          = -2147483648 := by
  refine ⟨?_, by decide⟩
  rintro ⟨pq, root0, h⟩
  rw [buildTree_two pq 97 98 2147483647 1 root0 (by decide)] at h
  cases h with
  | internal _ _ _ _ _ _ h3 _ => exact absurd h3 (by decide)

theorem countFrequencies_length (data : List Byte) :
    (countFrequencies data).length = data.toFinset.card := by
  have hnd : (ByteMap.keys (countFrequencies data)).Nodup := (countFrequencies_sorted data).nodup
  have hset : data.toFinset = (ByteMap.keys (countFrequencies data)).toFinset := by
    ext k
    simp only [List.mem_toFinset]
    exact (countFrequencies_keys data k).symm
  rw [hset, List.toFinset_card_of_nodup hnd]
  simp [ByteMap.keys]

theorem treeOf_serialize_length (pq : PriorityQueue) (s : HuffmanEncoder) (data : List Byte)
    (hne : data ≠ []) :
    (serializeTree (treeOf pq s data) []).length
      = if data.toFinset.card = 1 then 10 else 10 * data.toFinset.card - 1 := by
  rw [← countFrequencies_length]
  rcases treeOf_shape pq s data hne with ⟨hf, hp, h2⟩ | ⟨k, f, hk, ht⟩
  · rw [if_neg (by omega)]
    have := serialize_length_full hf
    rw [hp.length_eq] at this
    omega
  · rw [hk, ht]
    simp [serializeTree, mkInternal, mkLeaf, isLeaf, pushBitsMSB_eq, bitsMSB_length]

/-- C20: for a non-empty input with `k` distinct byte values, the tree bit length
that `encode` writes in the first 32-bit field is 10 when `k = 1` and
`10 * k - 1` otherwise (`k >= 2`); it is at most 2559 and fits the field. -/
theorem tree_bit_length (pq : PriorityQueue) (s : HuffmanEncoder) (data : List Byte)
    (hne : data ≠ []) :
    treeBitLength (encode pq s data).1
        = (if data.toFinset.card = 1 then 10 else 10 * data.toFinset.card - 1)
      ∧ 1 ≤ data.toFinset.card
      ∧ treeBitLength (encode pq s data).1 = (serializeTree (encode pq s data).2.root []).length
      ∧ treeBitLength (encode pq s data).1 ≤ 2559
      ∧ treeBitLength (encode pq s data).1 < 2 ^ 32 := by
  have h1 := (encode_fields pq s data hne).1
  have h2 := (treeOf_deserialize pq s data hne).2
  have h3 : (2559 : Nat) < 2 ^ 32 := by norm_num
  refine ⟨?_, ?_, ?_, by omega, by omega⟩
  · rw [h1, treeOf_serialize_length pq s data hne]
  · cases data with
    | nil => exact absurd rfl hne
    | cons b bs =>
      apply Finset.card_pos.2
      exact ⟨b, by simp⟩
  · rw [h1, encode_eq pq s data hne]

set_option maxRecDepth 100000 in
theorem tree_bit_length_witness :
    treeBitLength (encode listQueue HuffmanEncoder.init [97, 97, 97, 98]).1 = 19
      ∧ ([97, 97, 97, 98] : List Byte).toFinset.card = 2 :=
  ⟨by
    have h := (tree_bit_length listQueue HuffmanEncoder.init [97, 97, 97, 98] (by decide)).1
    rw [h]
    decide, by decide⟩

theorem treeOf_state_irrelevant (pq : PriorityQueue) (s1 s2 : HuffmanEncoder) (data : List Byte)
    (hne : data ≠ []) : treeOf pq s1 data = treeOf pq s2 data := by
  unfold treeOf
  apply buildTree_root_irrelevant
  intro h0
  cases data with
  | nil => exact absurd rfl hne
  | cons b bs =>
    have := (countFrequencies_keys (b :: bs) b).2 (List.mem_cons_self _ _)
    rw [h0] at this
    simp [ByteMap.keys] at this

theorem encode_nil (pq : PriorityQueue) (s : HuffmanEncoder) : encode pq s [] = ([], s) := rfl

theorem encode_state_irrelevant (pq : PriorityQueue) (s1 s2 : HuffmanEncoder) (data : List Byte) :
    (encode pq s1 data).1 = (encode pq s2 data).1
      ∧ (data = [] ∨ (encode pq s1 data).2 = (encode pq s2 data).2) := by
  by_cases hne : data = []
  · subst hne
    rw [encode_nil, encode_nil]
    exact ⟨rfl, Or.inl rfl⟩
  · have ht := treeOf_state_irrelevant pq s1 s2 data hne
    have hc : codesOf pq s1 data = codesOf pq s2 data := by
      unfold codesOf; rw [ht]
    have e1 := encode_eq pq s1 data hne
    have e2 := encode_eq pq s2 data hne
    rw [ht, hc] at e1
    rw [e1, e2]
    exact ⟨rfl, Or.inr rfl⟩

theorem decode_state_irrelevant (s1 s2 : HuffmanEncoder) (a : List Byte) :
    ∃ out t1 t2, decode s1 a = Except.ok (out, t1) ∧ decode s2 a = Except.ok (out, t2) := by
  by_cases ha : a = []
  · subst ha; exact ⟨[], s1, s2, rfl, rfl⟩
  · rw [decode_eq s1 a ha, decode_eq s2 a ha]
    by_cases h1 : a.length * 8 < 32
    · rw [if_pos h1, if_pos h1]; exact ⟨_, _, _, rfl, rfl⟩
    · rw [if_neg h1, if_neg h1]
      by_cases h2 : 32 + treeBitLength a > a.length * 8
      · rw [if_pos h2, if_pos h2]; exact ⟨_, _, _, rfl, rfl⟩
      · rw [if_neg h2, if_neg h2]
        obtain ⟨t, p, ht, -⟩ := deserializeTree_total (treeSection a)
        rw [ht]
        simp only
        by_cases h3 : t.isNull = true
        · rw [if_pos h3, if_pos h3]; exact ⟨_, _, _, rfl, rfl⟩
        · rw [if_neg h3, if_neg h3]
          by_cases h4 : a.length * 8 < 32 + treeBitLength a + 32
          · rw [if_pos h4, if_pos h4]; exact ⟨_, _, _, rfl, rfl⟩
          · rw [if_neg h4, if_neg h4]
            have h3f : t.isNull = false := by simpa using h3
            obtain ⟨out, ho⟩ := decodeLoop_total (artifactBits a) t h3f (payloadBitLength a)
              (32 + treeBitLength a + 32) t [] h3f
            rw [ho]
            exact ⟨_, _, _, rfl, rfl⟩

/-- C12: `encode` and `decode` are functions of their argument alone: whatever
the values of `root`, `codes` and `freq` that earlier calls left in the encoder
object, two runs return the same bytes, and two runs of `encode` on a non-empty
input leave the same tree, code table and frequency table in the object (on the
empty input nothing is built). -/
theorem encode_decode_pure (pq : PriorityQueue) (s1 s2 : HuffmanEncoder) (data a : List Byte) :
    (encode pq s1 data).1 = (encode pq s2 data).1
      ∧ (data = [] ∨ (encode pq s1 data).2 = (encode pq s2 data).2)
      ∧ ∃ out t1 t2, decode s1 a = Except.ok (out, t1) ∧ decode s2 a = Except.ok (out, t2) :=
  ⟨(encode_state_irrelevant pq s1 s2 data).1, (encode_state_irrelevant pq s1 s2 data).2,
    decode_state_irrelevant s1 s2 a⟩

theorem reaches_mem_leafBytes {t : HuffmanNode} {p : List Char} {k : Byte}
    (h : Reaches t p k) : k ∈ leafBytes t := by
  induction h with
  | leaf b f => simp [leafBytes, isLeaf]
  | left b f l r p k hn hr ih =>
    unfold leafBytes
    rw [hn]
    simp [ih]
  | right b f l r p k hn hr ih =>
    unfold leafBytes
    rw [hn]
    simp [ih]

theorem reaches_unique {t : HuffmanNode} {p1 : List Char} {k : Byte} (h1 : Reaches t p1 k) :
    ∀ {p2 : List Char}, Reaches t p2 k → (leafBytes t).Nodup → p1 = p2 := by
  induction h1 with
  | leaf b f =>
    intro p2 h2 _
    cases h2 with
    | leaf => rfl
    | left _ _ _ _ _ _ hn _ => simp [isLeaf] at hn
    | right _ _ _ _ _ _ hn _ => simp [isLeaf] at hn
  | left b f l r p k hn hr ih =>
    intro p2 h2 hnd
    have hlb : leafBytes (node b f l r) = leafBytes l ++ leafBytes r := by
      conv_lhs => unfold leafBytes
      rw [hn]; simp
    rw [hlb] at hnd
    cases h2 with
    | leaf => simp [isLeaf] at hn
    | left _ _ _ _ q _ _ hq => rw [ih hq (List.Nodup.of_append_left hnd)]
    | right _ _ _ _ q _ _ hq =>
      exact absurd (reaches_mem_leafBytes hq)
        (fun hm => (List.nodup_append.1 hnd).2.2 (reaches_mem_leafBytes hr) hm)
  | right b f l r p k hn hr ih =>
    intro p2 h2 hnd
    have hlb : leafBytes (node b f l r) = leafBytes l ++ leafBytes r := by
      conv_lhs => unfold leafBytes
      rw [hn]; simp
    rw [hlb] at hnd
    cases h2 with
    | leaf => simp [isLeaf] at hn
    | right _ _ _ _ q _ _ hq => rw [ih hq (List.Nodup.of_append_right hnd)]
    | left _ _ _ _ q _ _ hq =>
      exact absurd (reaches_mem_leafBytes hr)
        (fun hm => (List.nodup_append.1 hnd).2.2 (reaches_mem_leafBytes hq) hm)

theorem treeOf_leafBytes (pq : PriorityQueue) (s : HuffmanEncoder) (data : List Byte)
    (hne : data ≠ []) :
    (leafBytes (treeOf pq s data)).Nodup ∧ ∀ k, k ∈ leafBytes (treeOf pq s data) ↔ k ∈ data := by
  rcases treeOf_shape pq s data hne with ⟨hf, hp, h2⟩ | ⟨k0, f0, hk, ht⟩
  · have hk : (leafBytes (treeOf pq s data)).Perm (ByteMap.keys (countFrequencies data)) := by
      rw [← leaves_keys]
      exact hp.map Prod.fst
    refine ⟨hk.nodup_iff.2 (countFrequencies_sorted data).nodup, fun k => ?_⟩
    rw [hk.mem_iff, countFrequencies_keys]
  · have hl : leafBytes (treeOf pq s data) = [k0] := by
      rw [ht]; simp [leafBytes, mkInternal, mkLeaf, isLeaf]
    rw [hl]
    refine ⟨by simp, fun k => ?_⟩
    have := countFrequencies_keys data k
    rw [hk] at this
    simpa [ByteMap.keys] using this

theorem codesOf_mem_iff (pq : PriorityQueue) (s : HuffmanEncoder) (data : List Byte)
    (hne : data ≠ []) (k : Byte) (c : List Char) :
    (k, c) ∈ codesOf pq s data ↔ (k ∈ data ∧ Reaches (treeOf pq s data) c k) := by
  obtain ⟨hleaf, -, hr, hfind⟩ := tree_codes_spec pq s.root data hne
  obtain ⟨hnd, hmem⟩ := treeOf_leafBytes pq s data hne
  constructor
  · intro h
    have hrk : Reaches (treeOf pq s data) c k := hr k c h
    exact ⟨(hmem k).1 (reaches_mem_leafBytes hrk), hrk⟩
  · rintro ⟨hk, hrk⟩
    obtain ⟨c1, hc1, hr1⟩ := hfind k hk
    have : c = c1 := reaches_unique hrk hr1 hnd
    rw [this]
    exact ByteMap.find_mem _ k c1 hc1

/-- C13: for a non-empty input, the code table that `encode` builds has an entry
for a byte value exactly when the value occurs in the input, every such value
is at exactly one leaf of the tree, and its code is the path from the root to
that leaf, `'0'` for a step to a left child and `'1'` for a step to a right
child. -/
theorem code_table_paths (pq : PriorityQueue) (s : HuffmanEncoder) (data : List Byte)
    (hne : data ≠ []) :
    (∀ k, (∃ c, (k, c) ∈ (encode pq s data).2.codes) ↔ k ∈ data)
      ∧ (∀ k c, (k, c) ∈ (encode pq s data).2.codes
          ↔ (k ∈ data ∧ Reaches (encode pq s data).2.root c k))
      ∧ (∀ k ∈ data, (leafBytes (encode pq s data).2.root).count k = 1)
      ∧ (∀ k c1 c2, (k, c1) ∈ (encode pq s data).2.codes →
          (k, c2) ∈ (encode pq s data).2.codes → c1 = c2) := by
  have hroot : (encode pq s data).2.root = treeOf pq s data := by rw [encode_eq pq s data hne]
  have hcodes : (encode pq s data).2.codes = codesOf pq s data := by rw [encode_eq pq s data hne]
  rw [hroot, hcodes]
  obtain ⟨hnd, hmem⟩ := treeOf_leafBytes pq s data hne
  obtain ⟨-, -, -, hfind⟩ := tree_codes_spec pq s.root data hne
  refine ⟨?_, codesOf_mem_iff pq s data hne, ?_, ?_⟩
  · intro k
    constructor
    · rintro ⟨c, hc⟩
      exact ((codesOf_mem_iff pq s data hne k c).1 hc).1
    · intro hk
      obtain ⟨c, hc, -⟩ := hfind k hk
      exact ⟨c, ByteMap.find_mem _ k c hc⟩
  · intro k hk
    exact List.count_eq_one_of_mem hnd ((hmem k).2 hk)
  · intro k c1 c2 h1 h2
    exact reaches_unique ((codesOf_mem_iff pq s data hne k c1).1 h1).2
      ((codesOf_mem_iff pq s data hne k c2).1 h2).2 hnd

set_option maxRecDepth 100000 in
theorem code_table_paths_witness :
    ([97, 97, 97, 98] : List Byte) ≠ []
      ∧ ∀ k c, (k, c) ∈ (encode listQueue HuffmanEncoder.init [97, 97, 97, 98]).2.codes
          ↔ (k ∈ ([97, 97, 97, 98] : List Byte)
              ∧ Reaches (encode listQueue HuffmanEncoder.init [97, 97, 97, 98]).2.root c k) :=
  ⟨by decide,
    (code_table_paths listQueue HuffmanEncoder.init [97, 97, 97, 98] (by decide)).2.1⟩

theorem decode_encode_append (pq : PriorityQueue) (s0 s : HuffmanEncoder) (data x : List Byte)
    (hne : data ≠ []) :
    ∃ out, walk (eraseWeights (treeOf pq s0 data))
          ((payloadBits (codesOf pq s0 data) data).take
            (payloadLength (codesOf pq s0 data) data % 2 ^ 32))
          (eraseWeights (treeOf pq s0 data)) [] = Except.ok out
      ∧ decode s ((encode pq s0 data).1 ++ x)
          = Except.ok (out, ⟨eraseWeights (treeOf pq s0 data), s.codes, s.freq⟩) := by
  have hB : artifactBits ((encode pq s0 data).1 ++ x)
      = (bitsMSB 32 (serializeTree (treeOf pq s0 data) []).length
        ++ (serializeTree (treeOf pq s0 data) []
        ++ (bitsMSB 32 (payloadLength (codesOf pq s0 data) data)
        ++ (payloadBits (codesOf pq s0 data) data
          ++ (padBits (encodedBits pq s0 data) ++ artifactBits x))))).take
          (((encode pq s0 data).1 ++ x).length * 8) := by
    rw [← artifactBits_length ((encode pq s0 data).1 ++ x), artifactBits_append,
      encode_artifactBits pq s0 data hne]
    simp only [List.append_assoc]
    rw [List.take_length]
  obtain ⟨hd, hT⟩ := treeOf_deserialize pq s0 data hne
  have hT2 : (serializeTree (treeOf pq s0 data) []).length < 2 ^ 32 := by
    have : (2559 : Nat) < 2 ^ 32 := by norm_num
    omega
  obtain ⟨hl, hn, hr⟩ := treeOf_decodable pq s0 data hne
  have hP : payloadLength (codesOf pq s0 data) data % 2 ^ 32
      ≤ (payloadBits (codesOf pq s0 data) data).length := by
    rw [payloadBits_length]
    exact Nat.mod_le _ _
  obtain ⟨out, ho1, -⟩ := walk_payload_take _ (codesOf pq s0 data) hl data hr
    (payloadLength (codesOf pq s0 data) data % 2 ^ 32) []
  rw [List.nil_append] at ho1
  refine ⟨out, ho1, ?_⟩
  have hlen : ((encode pq s0 data).1 ++ x).length * 8
      = 32 + ((serializeTree (treeOf pq s0 data) []).length
        + (32 + ((payloadBits (codesOf pq s0 data) data).length
          + ((padBits (encodedBits pq s0 data)).length + x.length * 8)))) := by
    rw [← artifactBits_length ((encode pq s0 data).1 ++ x), artifactBits_append,
      encode_artifactBits pq s0 data hne]
    simp only [List.length_append, bitsMSB_length, artifactBits_length]
    omega
  refine decode_artifact s _ _ _ _ _ _ _ out hB hT2 (by omega) hd hn ?_
  rw [List.take_take, List.take_append_of_le_length (by
    refine le_trans (Nat.min_le_left _ _) hP)]
  have hmin : min (payloadLength (codesOf pq s0 data) data % 2 ^ 32)
      (((encode pq s0 data).1 ++ x).length * 8
        - (64 + (serializeTree (treeOf pq s0 data) []).length))
      = payloadLength (codesOf pq s0 data) data % 2 ^ 32 := by
    apply Nat.min_eq_left
    omega
  rw [hmin, ho1]

theorem decode_append_same (pq : PriorityQueue) (s0 s : HuffmanEncoder) (data x : List Byte)
    (hne : data ≠ []) :
    decode s ((encode pq s0 data).1 ++ x) = decode s (encode pq s0 data).1 := by
  obtain ⟨out1, ho1, hd1⟩ := decode_encode_append pq s0 s data x hne
  obtain ⟨out2, ho2, hd2⟩ := decode_encode_full pq s0 s data hne
  rw [ho1] at ho2
  simp only [Except.ok.injEq] at ho2
  rw [hd1, hd2, ho2]

theorem decode_append_of_lt (pq : PriorityQueue) (s0 s : HuffmanEncoder) (data x : List Byte)
    (hne : data ≠ []) (hP : payloadLength (codesOf pq s0 data) data < 2 ^ 32) :
    ∃ s1, decode s ((encode pq s0 data).1 ++ x) = Except.ok (data, s1) := by
  rw [decode_append_same pq s0 s data x hne]
  exact decode_encode_of_lt pq s0 s data hP

/-- C19 (amended): for every non-empty byte sequence `b` and every byte
sequence `x`, `decode` returns on `encode(b)` followed by `x` what it returns on
`encode(b)` alone, so the pad bits and any appended bytes never change the
decoded output; and when the payload bit length `P` of `b` is below `2^32`
that output is `b`. -/
theorem decode_ignores_trailing (pq : PriorityQueue) (s0 s : HuffmanEncoder)
    (data x : List Byte) (hne : data ≠ []) :
    decode s ((encode pq s0 data).1 ++ x) = decode s (encode pq s0 data).1
      ∧ (payloadLength (codesOf pq s0 data) data < 2 ^ 32 →
          ∃ s1, decode s ((encode pq s0 data).1 ++ x) = Except.ok (data, s1)) :=
  ⟨decode_append_same pq s0 s data x hne, decode_append_of_lt pq s0 s data x hne⟩

set_option maxRecDepth 100000 in
theorem decode_ignores_trailing_witness :
    ([97, 97, 97, 98] : List Byte) ≠ []
      ∧ payloadLength (codesOf listQueue HuffmanEncoder.init [97, 97, 97, 98])
          [97, 97, 97, 98] < 2 ^ 32
      ∧ ∃ s1, decode HuffmanEncoder.init
          ((encode listQueue HuffmanEncoder.init [97, 97, 97, 98]).1 ++ [255, 0, 170])
            = Except.ok ([97, 97, 97, 98], s1) :=
  ⟨by decide, by decide,
    (decode_ignores_trailing listQueue HuffmanEncoder.init HuffmanEncoder.init
      [97, 97, 97, 98] [255, 0, 170] (by decide)).2 (by decide)⟩

/-- C19 as stated fails: for the input of 1894967296 bytes whose payload takes
`2^32` bits, `decode` of `encode(b)` followed by any bytes `x` is never `b`,
whatever the priority queue and the states of the encoder objects. -/
theorem trailing_overflow :
    ¬ ∃ (pq : PriorityQueue) (s0 s s1 : HuffmanEncoder) (x : List Byte),
        decode s ((encode pq s0 (blockInput 300000000 694967296)).1 ++ x)
          = Except.ok (blockInput 300000000 694967296, s1) := by
  rintro ⟨pq, s0, s, s1, x, h⟩
  have hne := blockInput_ne_nil 300000000 694967296 (by norm_num)
  obtain ⟨out, ho, hd⟩ := decode_encode_append pq s0 s _ x hne
  rw [payloadLength_blockInput, Nat.mod_self, List.take_zero] at ho
  simp only [walk, Except.ok.injEq] at ho
  rw [hd, ← ho] at h
  simp only [Except.ok.injEq, Prod.mk.injEq] at h
  exact hne h.1.symm

theorem walk_length_le (root : HuffmanNode) :
    ∀ (w : List Bool) (current : HuffmanNode) (decoded out : List Byte),
      walk root w current decoded = Except.ok out → out.length ≤ decoded.length + w.length := by
  intro w
  induction w with
  | nil =>
    intro current decoded out h
    simp only [walk, Except.ok.injEq] at h
    rw [← h]
    simp
  | cons bit w ih =>
    intro current decoded out h
    cases current with
    | null => simp [walk, follow, bind, Except.bind] at h
    | node b f l r =>
      simp only [walk, follow, bind, Except.bind] at h
      by_cases hn : (if bit then r else l).isNull = true
      · rw [if_pos hn] at h
        simp only [Except.ok.injEq] at h
        rw [← h]
        simp
      · rw [if_neg hn] at h
        by_cases hl : (if bit then r else l).isLeaf = true
        · rw [if_pos hl] at h
          have := ih _ _ _ h
          simp only [List.length_append, List.length_cons, List.length_nil] at this ⊢
          omega
        · rw [if_neg hl] at h
          have := ih _ _ _ h
          simp only [List.length_cons]
          omega

theorem decode_length_le (s : HuffmanEncoder) (a : List Byte) :
    ∃ out s1, decode s a = Except.ok (out, s1)
      ∧ out.length ≤ payloadBitLength a
      ∧ out.length ≤ ((artifactBits a).drop (32 + treeBitLength a + 32)).length := by
  obtain ⟨out, s1, hd⟩ := decode_total s a
  refine ⟨out, s1, hd, ?_⟩
  by_cases ha : a = []
  · subst ha
    have h0 : decode s [] = Except.ok ([], s) := rfl
    rw [h0] at hd
    simp only [Except.ok.injEq, Prod.mk.injEq] at hd
    rw [← hd.1]
    simp
  · rw [decode_eq s a ha] at hd
    have hnil : ([] : List Byte).length ≤ payloadBitLength a
        ∧ ([] : List Byte).length
            ≤ ((artifactBits a).drop (32 + treeBitLength a + 32)).length := by simp
    by_cases h1 : a.length * 8 < 32
    · rw [if_pos h1] at hd
      simp only [Except.ok.injEq, Prod.mk.injEq] at hd
      rw [← hd.1]; exact hnil
    · rw [if_neg h1] at hd
      by_cases h2 : 32 + treeBitLength a > a.length * 8
      · rw [if_pos h2] at hd
        simp only [Except.ok.injEq, Prod.mk.injEq] at hd
        rw [← hd.1]; exact hnil
      · rw [if_neg h2] at hd
        obtain ⟨t, p, ht, -⟩ := deserializeTree_total (treeSection a)
        rw [ht] at hd
        simp only at hd
        by_cases h3 : t.isNull = true
        · rw [if_pos h3] at hd
          simp only [Except.ok.injEq, Prod.mk.injEq] at hd
          rw [← hd.1]; exact hnil
        · rw [if_neg h3] at hd
          by_cases h4 : a.length * 8 < 32 + treeBitLength a + 32
          · rw [if_pos h4] at hd
            simp only [Except.ok.injEq, Prod.mk.injEq] at hd
            rw [← hd.1]; exact hnil
          · rw [if_neg h4, decodeLoop_eq_walk] at hd
            cases hw : walk t (((artifactBits a).drop (32 + treeBitLength a + 32)).take
                (payloadBitLength a)) t [] with
            | error e => rw [hw] at hd; cases hd
            | ok d =>
              rw [hw] at hd
              simp only [Except.ok.injEq, Prod.mk.injEq] at hd
              have hb := walk_length_le t _ t [] d hw
              rw [hd.1] at hb
              simp only [List.length_nil, Nat.zero_add, List.length_take] at hb
              exact ⟨le_trans hb (Nat.min_le_left _ _), le_trans hb (Nat.min_le_right _ _)⟩

theorem drop_fields_length (a : List Byte) (ha : a ≠ []) :
    ((artifactBits a).drop (32 + treeBitLength a + 32)).length < 8 * a.length := by
  rw [List.length_drop, artifactBits_length]
  have : 0 < a.length := List.length_pos.2 ha
  omega

/-- C21 (amended): for every byte sequence `a`, `decode` returns, and the number
of bytes it returns is at most the payload bit length `P` read from `a`, at
most the number of bits of `a` that follow the payload length field (64 + `T`
bits from the start), and at most 8 times the byte length of `a`; it is less
than 8 times the byte length of `a` when `a` is not empty. -/
theorem decode_output_bound (s : HuffmanEncoder) (a : List Byte) :
    ∃ out s1, decode s a = Except.ok (out, s1)
      ∧ out.length ≤ payloadBitLength a
      ∧ out.length ≤ ((artifactBits a).drop (32 + treeBitLength a + 32)).length
      ∧ out.length ≤ a.length * 8 - (32 + treeBitLength a + 32)
      ∧ out.length ≤ 8 * a.length
      ∧ (a ≠ [] → out.length < 8 * a.length) := by
  obtain ⟨out, s1, hd, h1, h2⟩ := decode_length_le s a
  have h3 := h2
  rw [List.length_drop, artifactBits_length] at h3
  exact ⟨out, s1, hd, h1, h2, h3, by omega,
    fun ha => lt_of_le_of_lt h2 (drop_fields_length a ha)⟩

set_option maxRecDepth 100000 in
theorem decode_output_bound_witness :
    ([0, 0, 0, 19, 88, 172, 32, 0, 0, 0, 156] : List Byte) ≠ []
      ∧ ∃ out s1, decode HuffmanEncoder.init [0, 0, 0, 19, 88, 172, 32, 0, 0, 0, 156]
            = Except.ok (out, s1)
          ∧ out.length
              < 8 * ([0, 0, 0, 19, 88, 172, 32, 0, 0, 0, 156] : List Byte).length := by
  obtain ⟨out, s1, hd, -, -, -, -, h⟩ :=
    decode_output_bound HuffmanEncoder.init [0, 0, 0, 19, 88, 172, 32, 0, 0, 0, 156]
  exact ⟨by decide, out, s1, hd, h (by decide)⟩

/-- C21 as stated fails for the empty byte sequence: `decode` returns no byte,
and 0 is not less than 8 times the byte length 0 of the argument. -/
theorem empty_artifact_not_lt :
    ∃ out s1, decode HuffmanEncoder.init [] = Except.ok (out, s1)
      ∧ ¬ out.length < 8 * ([] : List Byte).length :=
  ⟨[], HuffmanEncoder.init, rfl, by decide⟩
